import Mathlib

/-!
# Verification of the go-clone deep-cloning engine

This file is a shallow embedding, in Lean 4, of the core of the `clone`
package (package `clone`, files `clone.go` / `structtype.go` / `allocator.go`
as present in the repository snapshot): the type classifier
(`loadStructType`, `isScalar`, `MarkAsScalar`, `MarkAsOpaquePointer`,
`SetCustomFunc`), and the recursive graph-copy function `clone` with its two
modes (fast, `visited == nil`; slow, `visited` a live visit map), together
with theorems about deep-value equality, isolation of the clone from the
original, aliasing preservation in the slow mode, termination of the slow
mode on cyclic inputs, and the behaviour of the registry entry points.

Modelling conventions:
* Go types are modelled by the inductive `Ty`; all kinds that the source's
  `isScalar` accepts (numbers, `bool`, `string`, `func`, `uintptr`,
  `unsafe.Pointer`, …) are collapsed into the single constructor
  `Ty.scalarT`, since the engine treats them uniformly (copied by value,
  never recursed into).  Interfaces are not modelled.
* Go's heap is a finite association list `Store` from addresses (`Nat`) to
  cells; a pointer cell holds one value, a slice cell holds its backing
  array, a map cell holds its entries.  Allocation uses a monotone counter
  (`St.next`), so fresh cells never collide with existing ones.
* `reflect.Value`s are modelled by `Val`.  A slice value records the data
  address of its backing cell together with its length and capacity, so two
  different-length views over one backing cell are representable.
* Struct byte offsets are not representable in this embedding; the
  classifier records the field *indices* of the reference-bearing fields
  (the source records `{Offset, Index}` pairs and uses them equivalently).
* The recursion of the source's `clone`/`clonePtr`/`cloneSlice`/`cloneMap`/
  `cloneStruct`/`copyArray` family is expressed as a single fuel-indexed
  function `clone` matching on the value's kind, exactly mirroring the
  dispatch on `v.Kind()`; `none` means the fuel ran out (the source instead
  would still be running).  The source's `copyStruct` writes the cloned
  pointer fields over a shadow copy of the whole struct; the model copies
  the non-reference fields verbatim and replaces the fields listed by
  `loadStructType`, which is the same operation on the visible fields.
-/

/-! ## Types (`reflect.Type`) -/

mutual
/-- Model of a Go `reflect.Type` as seen by the clone engine.  All kinds for
which the source's `isScalar` returns `true` are the single constructor
`scalarT`. -/
inductive Ty where
  | scalarT
  | chanT
  | ptrT (e : Ty)
  | sliceT (e : Ty)
  | mapT (kt vt : Ty)
  | arrayT (n : Nat) (e : Ty)
  | structT (fs : Tys)
deriving DecidableEq, Repr

/-- A list of field types of a struct type (mutual with `Ty`). -/
inductive Tys where
  | tnil
  | tcons (t : Ty) (ts : Tys)
deriving DecidableEq, Repr
end

/-- `isScalar(k reflect.Kind) bool`: in the model all scalar kinds are the
single constructor `Ty.scalarT`. -/
def isScalar : Ty → Bool
  | .scalarT => true
  | _ => false

/-- Number of fields (`t.NumField()`). -/
def Tys.length : Tys → Nat
  | .tnil => 0
  | .tcons _ ts => 1 + ts.length

/-- Field type at an index (`t.Field(i).Type`). -/
def Tys.get? : Tys → Nat → Option Ty
  | .tnil, _ => none
  | .tcons t _, 0 => some t
  | .tcons _ ts, i+1 => ts.get? i

mutual
/-- The per-field elision test of `loadStructType` (body of its `for` loop):
a field whose type satisfies this is *not* appended to `PointerFields`, i.e.
it is bulk-copied and never individually visited.  Mirrors the source: a
scalar kind is skipped; an array is skipped when its length is `0`, its
element kind is scalar, or its element is a struct whose own
`loadStructType` has no pointer fields; a struct is skipped when its own
`loadStructType` has no pointer fields; every other kind falls through to
`pointerFields = append(...)`. -/
def fieldElided : Ty → Bool
  | .scalarT => true
  | .arrayT n e =>
    match n with
    | 0 => true
    | _+1 =>
      match e with
      | .scalarT => true
      | .structT fs => (pointerFieldsAux 0 fs).isEmpty
      | _ => false
  | .structT fs => (pointerFieldsAux 0 fs).isEmpty
  | _ => false

/-- The accumulation loop of `loadStructType`: indices of the fields that
are recorded in `PointerFields`, starting at field index `i`. -/
def pointerFieldsAux (i : Nat) : Tys → List Nat
  | .tnil => []
  | .tcons t ts =>
    if fieldElided t then pointerFieldsAux (i+1) ts
    else i :: pointerFieldsAux (i+1) ts
end

/-- The cached classification record; the source's `structType` struct.
Byte offsets are not representable here, so only the field indices are
recorded (the source stores `{Offset, Index}` pairs). -/
structure structType where
  PointerFields : List Nat
deriving DecidableEq, Repr

/-- `loadStructType(t reflect.Type) structType` (pure classification; the
`cachedStructTypes` map in the source is a memoization of this function and
does not change its value on types that were not explicitly marked). -/
def loadStructType (fs : Tys) : structType :=
  ⟨pointerFieldsAux 0 fs⟩

/-! ## Values (`reflect.Value`) and the heap -/

mutual
/-- Model of a Go runtime value as traversed by `clone`.  Reference kinds
(`ptr`, `slice`, `map`) carry an optional address into the `Store`
(`none` = the Go `nil` of that type).  A slice records
`(data address, len, cap)`.  Struct values carry their field types so that
`copyStruct` can consult `loadStructType`. -/
inductive Val where
  | scalarV (k : Nat)
  | chanV (c : Nat)
  | ptrV (e : Ty) (a : Option Nat)
  | sliceV (e : Ty) (r : Option (Nat × Nat × Nat))
  | mapV (kt vt : Ty) (a : Option Nat)
  | structV (fts : Tys) (fs : Vals)
  | arrayV (e : Ty) (es : Vals)
deriving DecidableEq, Repr

/-- Field / element lists (mutual with `Val`). -/
inductive Vals where
  | vnil
  | vcons (v : Val) (vs : Vals)
deriving DecidableEq, Repr
end

def Vals.length : Vals → Nat
  | .vnil => 0
  | .vcons _ vs => 1 + vs.length

def Vals.get? : Vals → Nat → Option Val
  | .vnil, _ => none
  | .vcons v _, 0 => some v
  | .vcons _ vs, i+1 => vs.get? i

/-- One heap cell: the referent of a pointer, the backing array of a slice,
or the entry list of a map. -/
inductive Cell where
  | cPtr (v : Val)
  | cSeq (vs : List Val)
  | cMap (kvs : List (Val × Val))
deriving Repr

/-- The heap: a finite association list from addresses to cells.  `setCell`
prepends, so the most recent binding wins on lookup. -/
def Store := List (Nat × Cell)

def Store.lookup : Store → Nat → Option Cell
  | [], _ => none
  | (b, c) :: s, a => if a = b then some c else Store.lookup s a

def setCell (a : Nat) (c : Cell) (S : Store) : Store := (a, c) :: S

/-- Keys of the slow-path visit map: the source's `visit{p, extra, t}`
struct.  `extra` is only used for slices (their length); the type component
is kept exactly as in the source. -/
inductive VKey where
  | kPtr (a : Nat) (t : Ty)
  | kSlice (a : Nat) (extra : Nat) (t : Ty)
  | kMap (a : Nat) (t : Ty)
deriving DecidableEq, Repr

/-- State threaded through a clone run: the heap, the allocation counter,
and the visit map (`visitMap`; unused and empty in the fast mode). -/
structure St where
  mem : Store
  next : Nat
  vis : List (VKey × Val)

def lookupVis : List (VKey × Val) → VKey → Option Val
  | [], _ => none
  | (k, v) :: r, k' => if k' = k then some v else lookupVis r k'

/-- `n` copies of one value: the element list of a zero array. -/
def repVals (n : Nat) (v : Val) : Vals :=
  match n with
  | 0 => .vnil
  | n+1 => .vcons v (repVals n v)

mutual
/-- Zero value of a type (`reflect.New(t).Elem()`): nil for reference kinds,
zero for scalars, recursively zero for composites. -/
def zeroVal : Ty → Val
  | .scalarT => .scalarV 0
  | .chanT => .chanV 0
  | .ptrT e => .ptrV e none
  | .sliceT e => .sliceV e none
  | .mapT kt vt => .mapV kt vt none
  | .arrayT n e => .arrayV e (repVals n (zeroVal e))
  | .structT fs => .structV fs (zeroVals fs)

def zeroVals : Tys → Vals
  | .tnil => .vnil
  | .tcons t ts => .vcons (zeroVal t) (zeroVals ts)
end

mutual
/-- A value that contains no reference (no pointer/slice/map/chan anywhere
in its immediate tree): bit-copying such a value shares no mutable memory.
This is what Go's type system guarantees for every value whose type
`loadStructType` elides. -/
def refFree : Val → Bool
  | .scalarV _ => true
  | .chanV _ => false
  | .ptrV _ _ => false
  | .sliceV _ _ => false
  | .mapV _ _ _ => false
  | .structV _ fs => refFreeL fs
  | .arrayV _ es => refFreeL es

def refFreeL : Vals → Bool
  | .vnil => true
  | .vcons v vs => refFree v && refFreeL vs
end

mutual
/-- Well-typedness invariant used by the theorems, capturing the part of
Go's static typing that the byte-level `copyStruct` relies on: in every
struct node the field list matches the field types in length, every field
whose index `loadStructType` elides is reference-free, and arrays of a
scalar element type contain only reference-free elements (those are the
two places the source bulk-copies bytes). -/
def good : Val → Bool
  | .scalarV _ => true
  | .chanV _ => true
  | .ptrV _ _ => true
  | .sliceV _ _ => true
  | .mapV _ _ _ => true
  | .structV fts fs =>
    (Vals.length fs == Tys.length fts) &&
      goodFields (loadStructType fts).PointerFields 0 fs
  | .arrayV e es => (if isScalar e then refFreeL es else true) && goodL es

def goodFields (pf : List Nat) (i : Nat) : Vals → Bool
  | .vnil => true
  | .vcons f fs =>
    (if i ∈ pf then good f else refFree f && good f) && goodFields pf (i+1) fs

def goodL : Vals → Bool
  | .vnil => true
  | .vcons v vs => good v && goodL vs
end

/-- All cells of a store hold `good` contents. -/
def goodCell : Cell → Bool
  | .cPtr v => good v
  | .cSeq vs => vs.all good
  | .cMap kvs => kvs.all fun kv => good kv.1 && good kv.2

def goodStore (S : Store) : Prop :=
  ∀ a c, S.lookup a = some c → goodCell c = true

/-! ## The clone engine (`clone.go`) -/

/-- `copyStruct`'s loop over `st.PointerFields`: the field at index `i` is
replaced by `clone(src.Field(i), visited)` when `i` is listed, and kept as
the shadow copy placed it (verbatim) otherwise.  Generic in the recursive
call `g`. -/
def copyFields (g : St → Val → Option (St × Val)) (pf : List Nat) :
    Nat → St → Vals → Option (St × Vals)
  | _, st, .vnil => some (st, .vnil)
  | i, st, .vcons f fs => do
    let (st₁, f') ← if i ∈ pf then g st f else some (st, f)
    let (st₂, fs') ← copyFields g pf (i+1) st₁ fs
    some (st₂, .vcons f' fs')

/-- Element-wise clone of array elements (`copyArray`'s loop).  Generic in
the recursive call `g`. -/
def cloneElems (g : St → Val → Option (St × Val)) :
    St → Vals → Option (St × Vals)
  | st, .vnil => some (st, .vnil)
  | st, .vcons v vs => do
    let (st₁, v') ← g st v
    let (st₂, vs') ← cloneElems g st₁ vs
    some (st₂, .vcons v' vs')

/-- Element-wise clone of a slice backing segment (`cloneSlice`'s loop).
Generic in the recursive call `g`. -/
def cloneList (g : St → Val → Option (St × Val)) :
    St → List Val → Option (St × List Val)
  | st, [] => some (st, [])
  | st, v :: vs => do
    let (st₁, v') ← g st v
    let (st₂, vs') ← cloneList g st₁ vs
    some (st₂, v' :: vs')

/-- Entry-wise clone of map entries (`cloneMap`'s iterator loop: each key
and each value is cloned).  Generic in the recursive call `g`. -/
def clonePairs (g : St → Val → Option (St × Val)) :
    St → List (Val × Val) → Option (St × List (Val × Val))
  | st, [] => some (st, [])
  | st, (k, v) :: kvs => do
    let (st₁, k') ← g st k
    let (st₂, v') ← g st₁ v
    let (st₃, kvs') ← clonePairs g st₂ kvs
    some (st₃, (k', v') :: kvs')

/-- `v.Elem()` for a non-nil pointer: the contents of its referent cell
(`none` if the address is dangling or of the wrong kind, which cannot
happen for values produced by the Go runtime). -/
def derefPtr (S : Store) (a : Nat) : Option Val :=
  match S.lookup a with
  | some (.cPtr w) => some w
  | _ => none

/-- The backing array of a non-nil slice. -/
def derefSeq (S : Store) (a : Nat) : Option (List Val) :=
  match S.lookup a with
  | some (.cSeq vs) => some vs
  | _ => none

/-- The entries of a non-nil map. -/
def derefMap (S : Store) (a : Nat) : Option (List (Val × Val)) :=
  match S.lookup a with
  | some (.cMap kvs) => some kvs
  | _ => none

/-- The recursive clone function, `clone(v reflect.Value, visited visitMap)`.
`slow = false` is `Clone`'s call `clone(val, nil)`; `slow = true` is
`Slowly`'s call `clone(val, visitMap{})`, with the visit map carried in the
state.  The fuel argument only makes the recursion well-founded: `none`
means the fuel ran out.

Branches, in source order:
* scalar kinds: `copyScalaValue` — the value itself;
* `Array`: `cloneArray`/`copyArray` — bulk byte copy when the element kind
  is scalar, else element-wise clone into a fresh array;
* `Chan`: `reflect.MakeChan(v.Type(), v.Cap())` — a new empty channel of
  the same capacity;
* `Map`: `cloneMap` — nil is returned as the typed nil; in slow mode the
  visit map is consulted with key `(p, t)` and the new map is recorded
  *before* the entries are cloned;
* `Ptr`: `clonePtr` — nil is returned as the typed nil; in slow mode the
  visit map is consulted with key `(p, t)` and the freshly allocated
  referent is recorded *before* its contents are cloned (the source's
  `isScala`/`Struct`/`Array`/default branches all amount to cloning the
  referent's contents into the new cell);
* `Slice`: `cloneSlice` — nil is returned as the typed nil; the visit key is
  `(p, extra: num, t)`; a fresh backing of the same length and capacity is
  allocated and recorded before the elements are cloned; a scalar element
  kind is bulk-copied;
* `Struct`: `cloneStruct`/`copyStruct` — shadow copy, then each field listed
  in `loadStructType(t).PointerFields` is overwritten by its clone. -/
def clone : Nat → Bool → St → Val → Option (St × Val)
  | 0, _, _, _ => none
  | _+1, _, st, .scalarV k => some (st, .scalarV k)
  | _+1, _, st, .chanV c => some (st, .chanV c)
  | n+1, slow, st, .arrayV e es =>
    if isScalar e then some (st, .arrayV e es)
    else do
      let (st', es') ← cloneElems (clone n slow) st es
      some (st', .arrayV e es')
  | _+1, _, st, .mapV kt vt none => some (st, .mapV kt vt none)
  | n+1, slow, st, .mapV kt vt (some a) =>
    match (if slow then lookupVis st.vis (.kMap a (.mapT kt vt)) else none) with
    | some tv => some (st, tv)
    | none => do
      let kvs ← derefMap st.mem a
      let b := st.next
      let nv : Val := .mapV kt vt (some b)
      let st₁ : St :=
        ⟨setCell b (.cMap []) st.mem, b+1,
          if slow then (VKey.kMap a (.mapT kt vt), nv) :: st.vis else st.vis⟩
      let (st₂, kvs') ← clonePairs (clone n slow) st₁ kvs
      some (⟨setCell b (.cMap kvs') st₂.mem, st₂.next, st₂.vis⟩, nv)
  | _+1, _, st, .ptrV e none => some (st, .ptrV e none)
  | n+1, slow, st, .ptrV e (some a) =>
    match (if slow then lookupVis st.vis (.kPtr a (.ptrT e)) else none) with
    | some tv => some (st, tv)
    | none => do
      let w ← derefPtr st.mem a
      let b := st.next
      let nv : Val := .ptrV e (some b)
      let st₁ : St :=
        ⟨setCell b (.cPtr (zeroVal e)) st.mem, b+1,
          if slow then (VKey.kPtr a (.ptrT e), nv) :: st.vis else st.vis⟩
      let (st₂, w') ← clone n slow st₁ w
      some (⟨setCell b (.cPtr w') st₂.mem, st₂.next, st₂.vis⟩, nv)
  | _+1, _, st, .sliceV e none => some (st, .sliceV e none)
  | n+1, slow, st, .sliceV e (some (a, len, cap)) =>
    match (if slow then lookupVis st.vis (.kSlice a len (.sliceT e)) else none) with
    | some tv => some (st, tv)
    | none => do
      let vs ← derefSeq st.mem a
      let b := st.next
      let nv : Val := .sliceV e (some (b, len, cap))
      let st₁ : St :=
        ⟨setCell b (.cSeq []) st.mem, b+1,
          if slow then (VKey.kSlice a len (.sliceT e), nv) :: st.vis else st.vis⟩
      if isScalar e then
        some (⟨setCell b
          (.cSeq (vs.take len ++ List.replicate (cap - len) (zeroVal e)))
          st₁.mem, st₁.next, st₁.vis⟩, nv)
      else do
        let (st₂, es') ← cloneList (clone n slow) st₁ (vs.take len)
        some (⟨setCell b
          (.cSeq (es' ++ List.replicate (cap - len) (zeroVal e)))
          st₂.mem, st₂.next, st₂.vis⟩, nv)
  | n+1, slow, st, .structV fts fs => do
    let (st', fs') ← copyFields (clone n slow) (loadStructType fts).PointerFields 0 st fs
    some (st', .structV fts fs')

/-! ## Deep values: what `reflect.DeepEqual` compares -/

/-- The deep (pointer-identity-free) value of a datum: the result of reading
every reference through the heap.  This is the value that
`reflect.DeepEqual` compares; nil references are distinct from empty ones. -/
inductive DVal where
  | dScalar (k : Nat)
  | dChan (c : Nat)
  | dNilPtr
  | dPtr (d : DVal)
  | dNilSlice
  | dSlice (ds : List DVal)
  | dNilMap
  | dMap (kvs : List (DVal × DVal))
  | dStruct (ds : List DVal)
  | dArray (ds : List DVal)
deriving Repr

def readVals (g : Val → Option DVal) : Vals → Option (List DVal)
  | .vnil => some []
  | .vcons v vs => do
    let d ← g v
    let ds ← readVals g vs
    some (d :: ds)

def readList (g : Val → Option DVal) : List Val → Option (List DVal)
  | [] => some []
  | v :: vs => do
    let d ← g v
    let ds ← readList g vs
    some (d :: ds)

def readPairs (g : Val → Option DVal) : List (Val × Val) → Option (List (DVal × DVal))
  | [] => some []
  | (k, v) :: kvs => do
    let dk ← g k
    let dv ← g v
    let ds ← readPairs g kvs
    some ((dk, dv) :: ds)

/-- Fuel-indexed deep read of a value through a store.  Succeeding for some
fuel is exactly "the value is cycle-free and has no dangling reference";
the fuel is consumed at the same recursion points as in `clone`, so the two
functions can be related at equal fuel. -/
def deepRead : Nat → Store → Val → Option DVal
  | 0, _, _ => none
  | _+1, _, .scalarV k => some (.dScalar k)
  | _+1, _, .chanV c => some (.dChan c)
  | _+1, _, .ptrV _ none => some .dNilPtr
  | n+1, S, .ptrV _ (some a) => do
    let w ← derefPtr S a
    let d ← deepRead n S w
    some (.dPtr d)
  | _+1, _, .sliceV _ none => some .dNilSlice
  | n+1, S, .sliceV _ (some (a, len, _)) => do
    let vs ← derefSeq S a
    let ds ← readList (deepRead n S) (vs.take len)
    some (.dSlice ds)
  | _+1, _, .mapV _ _ none => some .dNilMap
  | n+1, S, .mapV _ _ (some a) => do
    let kvs ← derefMap S a
    let ds ← readPairs (deepRead n S) kvs
    some (.dMap ds)
  | n+1, S, .structV _ fs => do
    let ds ← readVals (deepRead n S) fs
    some (.dStruct ds)
  | n+1, S, .arrayV _ es => do
    let ds ← readVals (deepRead n S) es
    some (.dArray ds)

/-! ## Structural predicates used by the theorems -/

mutual
/-- Every reference (pointer/slice/map address) occurring anywhere in the
value tree is below `N`. -/
def refsBelow (N : Nat) : Val → Bool
  | .scalarV _ => true
  | .chanV _ => true
  | .ptrV _ none => true
  | .ptrV _ (some a) => a < N
  | .sliceV _ none => true
  | .sliceV _ (some (a, _, _)) => a < N
  | .mapV _ _ none => true
  | .mapV _ _ (some a) => a < N
  | .structV _ fs => refsBelowL N fs
  | .arrayV _ es => refsBelowL N es

def refsBelowL (N : Nat) : Vals → Bool
  | .vnil => true
  | .vcons v vs => refsBelow N v && refsBelowL N vs
end

def refsBelowCell (N : Nat) : Cell → Bool
  | .cPtr v => refsBelow N v
  | .cSeq vs => vs.all (refsBelow N)
  | .cMap kvs => kvs.all fun kv => refsBelow N kv.1 && refsBelow N kv.2

mutual
/-- Every reference in the value tree points at an existing cell of the
matching kind in `S` (no dangling reference, no kind confusion). -/
def closedIn (S : Store) : Val → Bool
  | .scalarV _ => true
  | .chanV _ => true
  | .ptrV _ none => true
  | .ptrV _ (some a) =>
    match S.lookup a with
    | some (.cPtr _) => true
    | _ => false
  | .sliceV _ none => true
  | .sliceV e (some (a, len, _)) =>
    match S.lookup a with
    | some (.cSeq vs) =>
      decide (len ≤ vs.length) && (!isScalar e || (vs.take len).all refFree)
    | _ => false
  | .mapV _ _ none => true
  | .mapV _ _ (some a) =>
    match S.lookup a with
    | some (.cMap _) => true
    | _ => false
  | .structV _ fs => closedInL S fs
  | .arrayV _ es => closedInL S es

def closedInL (S : Store) : Vals → Bool
  | .vnil => true
  | .vcons v vs => closedIn S v && closedInL S vs
end

def closedCell (S : Store) : Cell → Bool
  | .cPtr v => closedIn S v
  | .cSeq vs => vs.all (closedIn S)
  | .cMap kvs => kvs.all fun kv => closedIn S kv.1 && closedIn S kv.2

mutual
/-- All visit-map keys that cloning this value (without dereferencing) can
probe: one key per reference occurrence, built exactly as `clone` builds
them. -/
def keysIn : Val → List VKey
  | .scalarV _ => []
  | .chanV _ => []
  | .ptrV _ none => []
  | .ptrV e (some a) => [.kPtr a (.ptrT e)]
  | .sliceV _ none => []
  | .sliceV e (some (a, len, _)) => [.kSlice a len (.sliceT e)]
  | .mapV _ _ none => []
  | .mapV kt vt (some a) => [.kMap a (.mapT kt vt)]
  | .structV _ fs => keysInL fs
  | .arrayV _ es => keysInL es

def keysInL : Vals → List VKey
  | .vnil => []
  | .vcons v vs => keysIn v ++ keysInL vs
end

def keysInCell : Cell → List VKey
  | .cPtr v => keysIn v
  | .cSeq vs => vs.flatMap keysIn
  | .cMap kvs => kvs.flatMap fun kv => keysIn kv.1 ++ keysIn kv.2

mutual
/-- Size of the value tree (for induction). -/
def sizeV : Val → Nat
  | .scalarV _ => 1
  | .chanV _ => 1
  | .ptrV _ _ => 1
  | .sliceV _ _ => 1
  | .mapV _ _ _ => 1
  | .structV _ fs => 1 + sizeVL fs
  | .arrayV _ es => 1 + sizeVL es

def sizeVL : Vals → Nat
  | .vnil => 0
  | .vcons v vs => 1 + sizeV v + sizeVL vs
end

/-! ## The simulation relation of the slow mode

`sim V v v'` says: `v'` is the clone of `v` produced by a slow-mode run
whose visit map ended as `V` — every reference of `v` is mapped to the
destination recorded in `V` under exactly the key `clone` uses, verbatim
copies are equal (and reference-free), and composite values correspond
pointwise. -/

mutual
def sim (V : List (VKey × Val)) : Val → Val → Bool
  | .scalarV k, w => w == .scalarV k
  | .chanV c, w => w == .chanV c
  | .ptrV e none, w => w == .ptrV e none
  | .ptrV e (some a), w => lookupVis V (.kPtr a (.ptrT e)) == some w
  | .sliceV e none, w => w == .sliceV e none
  | .sliceV e (some (a, len, _)), w => lookupVis V (.kSlice a len (.sliceT e)) == some w
  | .mapV kt vt none, w => w == .mapV kt vt none
  | .mapV kt vt (some a), w => lookupVis V (.kMap a (.mapT kt vt)) == some w
  | .structV fts fs, w =>
    match w with
    | .structV fts' gs =>
      fts == fts' && simFields V (loadStructType fts).PointerFields 0 fs gs
    | _ => false
  | .arrayV e es, w =>
    match w with
    | .arrayV e' es' =>
      e == e' && (if isScalar e then es == es' && refFreeL es else simElems V es es')
    | _ => false

def simFields (V : List (VKey × Val)) (pf : List Nat) :
    Nat → Vals → Vals → Bool
  | _, .vnil, .vnil => true
  | i, .vcons f fs, .vcons f' gs =>
    (if i ∈ pf then sim V f f' else f' == f && refFree f) &&
      simFields V pf (i+1) fs gs
  | _, _, _ => false

def simElems (V : List (VKey × Val)) : Vals → Vals → Bool
  | .vnil, .vnil => true
  | .vcons v vs, .vcons w ws => sim V v w && simElems V vs ws
  | _, _ => false
end

def simList (V : List (VKey × Val)) : List Val → List Val → Bool
  | [], [] => true
  | v :: vs, w :: ws => sim V v w && simList V vs ws
  | _, _ => false

def simPairs (V : List (VKey × Val)) : List (Val × Val) → List (Val × Val) → Bool
  | [], [] => true
  | (k, v) :: kvs, (k', v') :: kvs' =>
    sim V k k' && sim V v v' && simPairs V kvs kvs'
  | _, _ => false

/-- The source address a visit key refers to. -/
def keySrc : VKey → Nat
  | .kPtr a _ => a
  | .kSlice a _ _ => a
  | .kMap a _ => a

/-- The destination address held in a recorded visit-map value. -/
def tvDest : Val → Option Nat
  | .ptrV _ (some b) => some b
  | .sliceV _ (some (b, _, _)) => some b
  | .mapV _ _ (some b) => some b
  | _ => none

/-- A finished visit-map entry: the source cell and the destination cell
both exist, the recorded value has the shape dictated by the key, and the
destination cell's contents simulate the source cell's contents. -/
def entryDone (mem : Store) (V : List (VKey × Val)) : VKey → Val → Prop
  | .kPtr a t, tv => ∃ e w b w',
      t = .ptrT e ∧ tv = .ptrV e (some b) ∧
      mem.lookup a = some (.cPtr w) ∧ mem.lookup b = some (.cPtr w') ∧
      sim V w w' = true
  | .kSlice a len t, tv => ∃ e vs b cap ws,
      t = .sliceT e ∧ tv = .sliceV e (some (b, len, cap)) ∧
      mem.lookup a = some (.cSeq vs) ∧ mem.lookup b = some (.cSeq ws) ∧
      simList V (vs.take len) (ws.take len) = true
  | .kMap a t, tv => ∃ kt vt kvs b kvs',
      t = .mapT kt vt ∧ tv = .mapV kt vt (some b) ∧
      mem.lookup a = some (.cMap kvs) ∧ mem.lookup b = some (.cMap kvs') ∧
      simPairs V kvs kvs' = true

/-- Bookkeeping invariant of a slow-mode state, relative to the baseline
`N₀` (the allocation counter at the start of the top-level call): addresses
in use are below `next`, every visit-map entry maps a source address below
`N₀` to a destination allocated by this run, and distinct entries have
distinct destinations. -/
def SInv (N₀ : Nat) (st : St) : Prop :=
  (∀ a, (st.mem.lookup a).isSome → a < st.next) ∧
  N₀ ≤ st.next ∧
  (∀ k tv, lookupVis st.vis k = some tv →
    keySrc k < N₀ ∧ ∃ b, tvDest tv = some b ∧ N₀ ≤ b ∧ b < st.next) ∧
  (∀ k k' tv tv', lookupVis st.vis k = some tv → lookupVis st.vis k' = some tv' →
    k ≠ k' → tvDest tv ≠ tvDest tv')

/-- All visit-map entries outside the pending list `P` (the keys whose
frames are still running) are finished. -/
def CompleteE (P : List VKey) (st : St) : Prop :=
  ∀ k tv, lookupVis st.vis k = some tv → k ∉ P → entryDone st.mem st.vis k tv

/-- Source-side store condition relative to baseline `N₀`: cells below `N₀`
are well-typed, closed among themselves, and reference only cells below
`N₀`. -/
def srcOK (N₀ : Nat) (S : Store) : Prop :=
  ∀ a c, a < N₀ → S.lookup a = some c →
    goodCell c = true ∧ refsBelowCell N₀ c = true ∧ closedCell S c = true

/-! ## Paths through the object graph -/

/-- One step of a path through the object graph: dereference a pointer,
select a struct field, an array element, a slice element (within the
length), or the key/value of the `i`-th map entry. -/
inductive PStep where
  | pDeref
  | pField (i : Nat)
  | pElem (i : Nat)
  | pIdx (i : Nat)
  | pKey (i : Nat)
  | pMVal (i : Nat)
deriving DecidableEq, Repr

/-- Follow a path from a value through a store. -/
def walk (S : Store) : Val → List PStep → Option Val
  | v, [] => some v
  | .ptrV _ (some a), .pDeref :: p =>
    match S.lookup a with
    | some (.cPtr w) => walk S w p
    | _ => none
  | .structV _ fs, .pField i :: p =>
    match fs.get? i with
    | some f => walk S f p
    | _ => none
  | .arrayV _ es, .pElem i :: p =>
    match es.get? i with
    | some f => walk S f p
    | _ => none
  | .sliceV _ (some (a, len, _)), .pIdx i :: p =>
    match S.lookup a with
    | some (.cSeq vs) =>
      match (vs.take len).get? i with
      | some f => walk S f p
      | _ => none
    | _ => none
  | .mapV _ _ (some a), .pKey i :: p =>
    match S.lookup a with
    | some (.cMap kvs) =>
      match kvs.get? i with
      | some kv => walk S kv.1 p
      | _ => none
    | _ => none
  | .mapV _ _ (some a), .pMVal i :: p =>
    match S.lookup a with
    | some (.cMap kvs) =>
      match kvs.get? i with
      | some kv => walk S kv.2 p
      | _ => none
    | _ => none
  | _, _ => none

/-! ## Key space for the termination argument -/

/-- All visit-map keys a slow-mode run started on `(S, v)` can ever probe:
those of the root value and those of any cell's contents. -/
def keySpace (S : Store) (v : Val) : List VKey :=
  keysIn v ++ S.flatMap fun ac => keysInCell ac.2

/-! ## The registry entry points (`allocator.go`) -/

/-- Association-list store with overwrite semantics (`sync.Map.Store`). -/
def assocStore {α : Type} (k : Ty) (x : α) (l : List (Ty × α)) : List (Ty × α) :=
  (k, x) :: l.filter fun p => p.1 ≠ k

/-- `sync.Map.Delete`. -/
def assocDelete {α : Type} (k : Ty) (l : List (Ty × α)) : List (Ty × α) :=
  l.filter fun p => p.1 ≠ k

def assocLookup {α : Type} : List (Ty × α) → Ty → Option α
  | [], _ => none
  | (k, x) :: l, k' => if k' = k then some x else assocLookup l k'

/-- The registry part of the source's `Allocator`: the three caches mutated
by `MarkAsScalar`, `MarkAsOpaquePointer` and `SetCustomFunc`.  Custom clone
functions are modelled as opaque identifiers. -/
structure Allocator where
  cachedStructTypes : List (Ty × structType)
  cachedPointerTypes : List (Ty × Unit)
  cachedCustomFuncTypes : List (Ty × Nat)

/-- `for t.Kind() == reflect.Ptr { t = t.Elem() }`. -/
def stripPtr : Ty → Ty
  | .ptrT e => stripPtr e
  | t => t

def isStructTy : Ty → Bool
  | .structT _ => true
  | _ => false

def isPtrTy : Ty → Bool
  | .ptrT _ => true
  | _ => false

/-- The source's `zeroStructType`. -/
def zeroStructType : structType := ⟨[]⟩

/-- `Allocator.MarkAsScalar`: strip pointers; ignore `t` unless a struct
remains; else store the empty classification. -/
def MarkAsScalar (al : Allocator) (t : Ty) : Allocator :=
  let t := stripPtr t
  if isStructTy t then
    { al with cachedStructTypes := assocStore t zeroStructType al.cachedStructTypes }
  else al

/-- `Allocator.MarkAsOpaquePointer`: ignore `t` unless it is a pointer;
else record it. -/
def MarkAsOpaquePointer (al : Allocator) (t : Ty) : Allocator :=
  if isPtrTy t then
    { al with cachedPointerTypes := assocStore t () al.cachedPointerTypes }
  else al

/-- `Allocator.SetCustomFunc`: a nil function deletes the entry for `t`
as given; otherwise strip pointers, ignore `t` unless a struct remains,
else store the function. -/
def SetCustomFunc (al : Allocator) (t : Ty) (fn : Option Nat) : Allocator :=
  match fn with
  | none => { al with cachedCustomFuncTypes := assocDelete t al.cachedCustomFuncTypes }
  | some f =>
    let t := stripPtr t
    if isStructTy t then
      { al with cachedCustomFuncTypes := assocStore t f al.cachedCustomFuncTypes }
    else al

/-! ## Elision conditions for the classifier claims -/

/-- The elision condition exactly as the examined claim states it: the
member's declared type is scalar, or is a struct — or a non-empty array of
structs — whose recursive classification yields zero reference-bearing
members. -/
def claimElideCond (t : Ty) : Prop :=
  isScalar t = true ∨
  (∃ fs, t = .structT fs ∧ (loadStructType fs).PointerFields = []) ∨
  (∃ n fs, t = .arrayT (n+1) (.structT fs) ∧ (loadStructType fs).PointerFields = [])

/-- The elision condition actually implemented by `loadStructType`: as the
claim's condition, plus zero-length arrays and non-empty arrays of scalar
element kind. -/
def codeElideCond (t : Ty) : Prop :=
  isScalar t = true ∨
  (∃ e, t = .arrayT 0 e) ∨
  (∃ n, t = .arrayT (n+1) .scalarT) ∨
  (∃ n fs, t = .arrayT (n+1) (.structT fs) ∧ (loadStructType fs).PointerFields = []) ∨
  (∃ fs, t = .structT fs ∧ (loadStructType fs).PointerFields = [])

/-! ## The custom-function re-entrancy engine

Modelled from the spec: the file holding `cloneState.clone` /
`cloneState.copyStruct` (the dispatch that consults the custom-function
registry and the `skipCustomFuncValue` slot) is not part of the provided
sources — only its caller `Allocator.clone` / `Allocator.cloneSlowly`
(allocator.go), which creates a fresh `cloneState` and, for a nested call
issued from inside a custom function, sets `state.skipCustomFuncValue` to
the value being cloned.  Per §3/§4.4 of the spec: a registered override for
a struct type is invoked instead of the default field-by-field copy unless
the value being cloned is the currently-excluded value, in which case the
default algorithm runs; the canonical override modelled here is one that
clones its own input through the engine handle (`allocator.Clone(old)`),
which per `Allocator.clone` re-enters the engine with the excluded-value
slot set to that input.  Reference kinds are copied by the heap engine
above and are orthogonal to the override mechanism, so this model treats
them as opaque leaves. -/
def cloneFieldsCustom (g : Val → Option Val) : Vals → Option Vals
  | .vnil => some .vnil
  | .vcons f fs => do
    let f' ← g f
    let fs' ← cloneFieldsCustom g fs
    some (.vcons f' fs')

/-- The engine with the override registry and the excluded-value slot
(see the module comment above this definition's helper). -/
def cloneWithCustom : Nat → List Ty → Option Val → Val → Option Val
  | 0, _, _, _ => none
  | n+1, reg, skip, .structV fts fs =>
    if (Ty.structT fts) ∈ reg ∧ skip ≠ some (.structV fts fs) then
      -- the override runs; its canonical body is `allocator.Clone(old)`,
      -- which restarts the engine with the excluded-value slot set to `old`
      cloneWithCustom n reg (some (.structV fts fs)) (.structV fts fs)
    else
      -- default field-by-field copy, keeping the current excluded value
      match cloneFieldsCustom (cloneWithCustom n reg skip) fs with
      | some fs' => some (.structV fts fs')
      | none => none
  | _+1, _, _, v => some v

/-! ## The wrapper facade

Modelled from the spec: `wrapper.go` (`Wrap`, `Unwrap`) is not part of the
provided sources — only its tests.  Per §4.5 of the spec: `wrap` is a no-op
on any value that is not a pointer to a struct and on an already-wrapped
value; for a qualifying pointer it fast-clones the pointee and retains,
keyed by the new pointer's identity, the original pointer; `unwrap` is a
table lookup returning the retained original, and returns its argument
unchanged when it is not a known wrapper output. -/
structure WrapSt where
  heap : St
  table : List (Nat × Val)

def lookupTable : List (Nat × Val) → Nat → Option Val
  | [], _ => none
  | (b, v) :: l, b' => if b' = b then some v else lookupTable l b'

/-- `Wrap(v)` (spec §4.5); the fuel is that of the underlying fast clone. -/
def Wrap (n : Nat) (w : WrapSt) (v : Val) : Option (WrapSt × Val) :=
  match v with
  | .ptrV (.structT fts) (some b) =>
    match lookupTable w.table b with
    | some _ => some (w, v)
    | none =>
      match clone n false w.heap (.ptrV (.structT fts) (some b)) with
      | some (st', .ptrV e' (some b')) =>
        some (⟨st', (b', .ptrV (.structT fts) (some b)) :: w.table⟩,
          .ptrV e' (some b'))
      | _ => none
  | _ => some (w, v)

/-- `Unwrap(v)` (spec §4.5). -/
def Unwrap (w : WrapSt) (v : Val) : Val :=
  match v with
  | .ptrV _ (some b) =>
    match lookupTable w.table b with
    | some orig => orig
    | none => v
  | _ => v

/-- The keys currently present in a visit map. -/
def visKeys (V : List (VKey × Val)) : List VKey := V.map Prod.fst

/-- Number of keys of the key space not yet visited (the decreasing part of
the termination measure of the slow mode). -/
def unvisited (K : Finset VKey) (st : St) : Nat :=
  (K \ (visKeys st.vis).toFinset).card

/-- State-extension relation: what any single `clone` call guarantees about
the state it returns, relative to the state it received: the allocation
counter grows, cells below the received counter are untouched, every new
cell lies in the freshly allocated range, and visit-map entries are
preserved. -/
def StExt (st st' : St) : Prop :=
  st.next ≤ st'.next ∧
  (∀ a, a < st.next → st'.mem.lookup a = st.mem.lookup a) ∧
  (∀ a, (st'.mem.lookup a).isSome →
    (st.mem.lookup a).isSome ∨ (st.next ≤ a ∧ a < st'.next)) ∧
  (∀ k tv, lookupVis st.vis k = some tv → lookupVis st'.vis k = some tv)

/-- Store agreement on the window `[lo, st'.next)`: the parametric form in
which the fast-mode master lemma states where the clone's deep value can be
read back. -/
def agreeFresh (lo : Nat) (st' : St) (S₂ : Store) : Prop :=
  ∀ x, lo ≤ x → x < st'.next → S₂.lookup x = st'.mem.lookup x

/-- The deep value of the cloned value can be read in any store that agrees
with the final one on the freshly allocated window. -/
def dreadOut (n lo : Nat) (st' : St) (v' : Val) (d : DVal) : Prop :=
  ∀ S₂ : Store, agreeFresh lo st' S₂ → deepRead n S₂ v' = some d

def dreadOutVals (n lo : Nat) (st' : St) (fs' : Vals) (ds : List DVal) : Prop :=
  ∀ S₂ : Store, agreeFresh lo st' S₂ → readVals (deepRead n S₂) fs' = some ds

def dreadOutList (n lo : Nat) (st' : St) (vs' : List Val) (ds : List DVal) : Prop :=
  ∀ S₂ : Store, agreeFresh lo st' S₂ → readList (deepRead n S₂) vs' = some ds

def dreadOutPairs (n lo : Nat) (st' : St) (kvs' : List (Val × Val))
    (ds : List (DVal × DVal)) : Prop :=
  ∀ S₂ : Store, agreeFresh lo st' S₂ → readPairs (deepRead n S₂) kvs' = some ds

/-! # Theorems -/

/-! ## C7: nil references clone to nil -/

/-- C7: cloning a nil pointer, nil slice, or nil map yields the typed nil
value unchanged — no allocation happens (the state is untouched) — in both
the fast path (`slow = false`) and the slow path (`slow = true`). -/
theorem clone_nil_is_nil (n : Nat) (slow : Bool) (st : St) :
    (∀ e, clone (n+1) slow st (.ptrV e none) = some (st, .ptrV e none)) ∧
    (∀ e, clone (n+1) slow st (.sliceV e none) = some (st, .sliceV e none)) ∧
    (∀ kt vt, clone (n+1) slow st (.mapV kt vt none) = some (st, .mapV kt vt none)) :=
  ⟨fun _ => rfl, fun _ => rfl, fun _ _ => rfl⟩

/-! ## C4: the classifier's elision condition -/

theorem mem_pointerFieldsAux : ∀ (ts : Tys) (i j : Nat),
    j ∈ pointerFieldsAux i ts ↔
      ∃ k t, j = i + k ∧ ts.get? k = some t ∧ fieldElided t = false
  | .tnil, i, j => by simp [pointerFieldsAux, Tys.get?]
  | .tcons t ts, i, j => by
    constructor
    · intro h
      by_cases he : fieldElided t
      · rw [pointerFieldsAux, if_pos he] at h
        obtain ⟨k, t', hj, hg, hne⟩ := (mem_pointerFieldsAux ts (i+1) j).mp h
        exact ⟨k+1, t', by omega, hg, hne⟩
      · rw [pointerFieldsAux, if_neg he] at h
        rcases List.mem_cons.mp h with h | h
        · exact ⟨0, t, by omega, rfl, by simpa using he⟩
        · obtain ⟨k, t', hj, hg, hne⟩ := (mem_pointerFieldsAux ts (i+1) j).mp h
          exact ⟨k+1, t', by omega, hg, hne⟩
    · rintro ⟨k, t', hj, hg, hne⟩
      match k, hg with
      | 0, hg =>
        simp only [Tys.get?] at hg
        cases hg
        rw [pointerFieldsAux, if_neg (by simp [hne])]
        simp [hj]
      | k+1, hg =>
        simp only [Tys.get?] at hg
        have hm : j ∈ pointerFieldsAux (i+1) ts :=
          (mem_pointerFieldsAux ts (i+1) j).mpr ⟨k, t', by omega, hg, hne⟩
        by_cases he : fieldElided t
        · rwa [pointerFieldsAux, if_pos he]
        · rw [pointerFieldsAux, if_neg he]
          exact List.mem_cons_of_mem _ hm

theorem fieldElided_iff_codeElideCond (t : Ty) :
    fieldElided t = true ↔ codeElideCond t := by
  cases t with
  | scalarT => simp [fieldElided, codeElideCond, isScalar]
  | chanT =>
    simp only [fieldElided, codeElideCond, isScalar]
    constructor
    · intro h; cases h
    · rintro (h | ⟨e, h⟩ | ⟨n, h⟩ | ⟨n, fs, h, _⟩ | ⟨fs, h, _⟩) <;> cases h
  | ptrT e =>
    simp only [fieldElided, codeElideCond, isScalar]
    constructor
    · intro h; cases h
    · rintro (h | ⟨e, h⟩ | ⟨n, h⟩ | ⟨n, fs, h, _⟩ | ⟨fs, h, _⟩) <;> cases h
  | sliceT e =>
    simp only [fieldElided, codeElideCond, isScalar]
    constructor
    · intro h; cases h
    · rintro (h | ⟨e, h⟩ | ⟨n, h⟩ | ⟨n, fs, h, _⟩ | ⟨fs, h, _⟩) <;> cases h
  | mapT kt vt =>
    simp only [fieldElided, codeElideCond, isScalar]
    constructor
    · intro h; cases h
    · rintro (h | ⟨e, h⟩ | ⟨n, h⟩ | ⟨n, fs, h, _⟩ | ⟨fs, h, _⟩) <;> cases h
  | arrayT n e =>
    cases n with
    | zero =>
      simp only [fieldElided, codeElideCond]
      constructor
      · intro _; exact Or.inr (Or.inl ⟨e, rfl⟩)
      · intro _; trivial
    | succ n =>
      cases e with
      | scalarT =>
        constructor
        · intro _; exact Or.inr (Or.inr (Or.inl ⟨n, rfl⟩))
        · intro _; rfl
      | structT fs =>
        simp only [fieldElided, codeElideCond]
        constructor
        · intro h
          refine Or.inr (Or.inr (Or.inr (Or.inl ⟨n, fs, rfl, ?_⟩)))
          simpa [loadStructType, List.isEmpty_iff] using h
        · rintro (h | ⟨e, h⟩ | ⟨m, h⟩ | ⟨m, fs', h, hpf⟩ | ⟨fs', h, _⟩)
          · cases h
          · cases h
          · cases h
          · cases h
            simpa [loadStructType, List.isEmpty_iff] using hpf
          · cases h
      | chanT =>
        simp only [fieldElided, codeElideCond, isScalar]
        constructor
        · intro h; cases h
        · rintro (h | ⟨e, h⟩ | ⟨m, h⟩ | ⟨m, fs, h, _⟩ | ⟨fs, h, _⟩) <;> cases h
      | ptrT e' =>
        simp only [fieldElided, codeElideCond, isScalar]
        constructor
        · intro h; cases h
        · rintro (h | ⟨e, h⟩ | ⟨m, h⟩ | ⟨m, fs, h, _⟩ | ⟨fs, h, _⟩) <;> cases h
      | sliceT e' =>
        simp only [fieldElided, codeElideCond, isScalar]
        constructor
        · intro h; cases h
        · rintro (h | ⟨e, h⟩ | ⟨m, h⟩ | ⟨m, fs, h, _⟩ | ⟨fs, h, _⟩) <;> cases h
      | mapT kt vt =>
        simp only [fieldElided, codeElideCond, isScalar]
        constructor
        · intro h; cases h
        · rintro (h | ⟨e, h⟩ | ⟨m, h⟩ | ⟨m, fs, h, _⟩ | ⟨fs, h, _⟩) <;> cases h
      | arrayT m e' =>
        simp only [fieldElided, codeElideCond, isScalar]
        constructor
        · intro h; cases h
        · rintro (h | ⟨e, h⟩ | ⟨m', h⟩ | ⟨m', fs, h, _⟩ | ⟨fs, h, _⟩) <;> cases h
  | structT fs =>
    simp only [fieldElided, codeElideCond]
    constructor
    · intro h
      refine Or.inr (Or.inr (Or.inr (Or.inr ⟨fs, rfl, ?_⟩)))
      simpa [loadStructType, List.isEmpty_iff] using h
    · rintro (h | ⟨e, h⟩ | ⟨m, h⟩ | ⟨m, fs', h, _⟩ | ⟨fs', h, hpf⟩)
      · cases h
      · cases h
      · cases h
      · cases h
      · cases h
        simpa [loadStructType, List.isEmpty_iff] using hpf

/-- C4 (counterexample): the claim's "iff" fails on a member of type
`[3]int` (a non-empty array of a scalar element kind): `loadStructType`
elides it — the classification of `struct { a [3]int }` has no
reference-bearing members — yet the claim's elision condition ("scalar, or
a struct or non-empty array of structs with zero reference-bearing
members") does not hold of `[3]int`.  (A member of type `[0]*T` is a second
such counterexample.) -/
theorem loadStructType_claim_counterexample :
    (loadStructType (.tcons (.arrayT 3 .scalarT) .tnil)).PointerFields = [] ∧
    ¬ claimElideCond (.arrayT 3 .scalarT) := by
  refine ⟨rfl, ?_⟩
  rintro (h | ⟨fs, h, _⟩ | ⟨n, fs, h, _⟩)
  · cases h
  · cases h
  · cases h

/-- C4 (amended): `loadStructType` elides a struct member if and only if
the member's declared type is scalar, or a zero-length array, or a
non-empty array of scalar element kind, or a struct — or a non-empty array
of structs — whose recursive classification yields zero reference-bearing
members; every other member (in particular every pointer-kinded member) is
recorded by index in `PointerFields` to be individually cloned. -/
theorem loadStructType_elides_iff (fts : Tys) (i : Nat) (t : Ty)
    (hg : fts.get? i = some t) :
    i ∉ (loadStructType fts).PointerFields ↔ codeElideCond t := by
  constructor
  · intro hn
    by_contra hc
    have he : fieldElided t = false := by
      rcases h : fieldElided t with _ | _
      · rfl
      · exact absurd ((fieldElided_iff_codeElideCond t).mp h) hc
    exact hn ((mem_pointerFieldsAux fts 0 i).mpr ⟨i, t, by omega, hg, he⟩)
  · intro hcond hmem
    obtain ⟨k, t', hj, hg', hne⟩ := (mem_pointerFieldsAux fts 0 i).mp hmem
    have hk : k = i := by omega
    subst hk
    rw [hg] at hg'
    cases hg'
    rw [(fieldElided_iff_codeElideCond t).mpr hcond] at hne
    cases hne

/-- Witness for `loadStructType_elides_iff`: concrete instantiation at the
struct type `struct { p *T; x int }`, field 0 (a pointer member: recorded)
and the elision condition evaluated. -/
theorem loadStructType_elides_iff_witness :
    ¬ (0 ∉ (loadStructType (.tcons (.ptrT .scalarT) (.tcons .scalarT .tnil))).PointerFields) :=
  fun h =>
    have hiff := loadStructType_elides_iff
      (.tcons (.ptrT .scalarT) (.tcons .scalarT .tnil)) 0 (.ptrT .scalarT) rfl
    by
      rcases hiff.mp h with hc | ⟨e, he⟩ | ⟨n, hn⟩ | ⟨n, fs, hfs, _⟩ | ⟨fs, hfs, _⟩
      · cases hc
      · cases he
      · cases hn
      · cases hfs
      · cases hfs

/-! ## Core lemmas about `clone` -/

theorem copyFields_frame
    (g : St → Val → Option (St × Val)) (Q : St → St → Prop)
    (hrefl : ∀ st, Q st st) (htrans : ∀ a b c, Q a b → Q b c → Q a c)
    (hg : ∀ st v st' v', g st v = some (st', v') → Q st st') :
    ∀ (pf : List Nat) (i : Nat) (st : St) (fs : Vals) (st' : St) (fs' : Vals),
      copyFields g pf i st fs = some (st', fs') → Q st st'
  | pf, i, st, .vnil, st', fs', h => by
    simp only [copyFields] at h
    cases h
    exact hrefl st
  | pf, i, st, .vcons f fs, st', fs', h => by
    by_cases hi : i ∈ pf
    · simp only [copyFields, if_pos hi, Option.bind_eq_bind, Option.bind_eq_some] at h
      obtain ⟨⟨st₁, f'⟩, h₁, ⟨st₂, fs₂⟩, h₂, h₃⟩ := h
      cases h₃
      exact htrans _ _ _ (hg _ _ _ _ h₁)
        (copyFields_frame g Q hrefl htrans hg pf (i+1) st₁ fs st₂ fs₂ h₂)
    · simp only [copyFields, if_neg hi, Option.bind_eq_bind, Option.bind_eq_some,
        Option.some_bind] at h
      obtain ⟨⟨st₂, fs₂⟩, h₂, h₃⟩ := h
      cases h₃
      exact copyFields_frame g Q hrefl htrans hg pf (i+1) st fs st₂ fs₂ h₂

theorem cloneElems_frame
    (g : St → Val → Option (St × Val)) (Q : St → St → Prop)
    (hrefl : ∀ st, Q st st) (htrans : ∀ a b c, Q a b → Q b c → Q a c)
    (hg : ∀ st v st' v', g st v = some (st', v') → Q st st') :
    ∀ (st : St) (vs : Vals) (st' : St) (vs' : Vals),
      cloneElems g st vs = some (st', vs') → Q st st'
  | st, .vnil, st', vs', h => by
    simp only [cloneElems] at h
    cases h
    exact hrefl st
  | st, .vcons v vs, st', vs', h => by
    simp only [cloneElems, Option.bind_eq_bind, Option.bind_eq_some] at h
    obtain ⟨⟨st₁, v'⟩, h₁, ⟨st₂, vs₂⟩, h₂, h₃⟩ := h
    cases h₃
    exact htrans _ _ _ (hg _ _ _ _ h₁)
      (cloneElems_frame g Q hrefl htrans hg st₁ vs st₂ vs₂ h₂)

theorem cloneList_frame
    (g : St → Val → Option (St × Val)) (Q : St → St → Prop)
    (hrefl : ∀ st, Q st st) (htrans : ∀ a b c, Q a b → Q b c → Q a c)
    (hg : ∀ st v st' v', g st v = some (st', v') → Q st st') :
    ∀ (st : St) (vs : List Val) (st' : St) (vs' : List Val),
      cloneList g st vs = some (st', vs') → Q st st'
  | st, [], st', vs', h => by
    simp only [cloneList] at h
    cases h
    exact hrefl st
  | st, v :: vs, st', vs', h => by
    simp only [cloneList, Option.bind_eq_bind, Option.bind_eq_some] at h
    obtain ⟨⟨st₁, v'⟩, h₁, ⟨st₂, vs₂⟩, h₂, h₃⟩ := h
    cases h₃
    exact htrans _ _ _ (hg _ _ _ _ h₁)
      (cloneList_frame g Q hrefl htrans hg st₁ vs st₂ vs₂ h₂)

theorem clonePairs_frame
    (g : St → Val → Option (St × Val)) (Q : St → St → Prop)
    (hrefl : ∀ st, Q st st) (htrans : ∀ a b c, Q a b → Q b c → Q a c)
    (hg : ∀ st v st' v', g st v = some (st', v') → Q st st') :
    ∀ (st : St) (kvs : List (Val × Val)) (st' : St) (kvs' : List (Val × Val)),
      clonePairs g st kvs = some (st', kvs') → Q st st'
  | st, [], st', kvs', h => by
    simp only [clonePairs] at h
    cases h
    exact hrefl st
  | st, (k, v) :: kvs, st', kvs', h => by
    simp only [clonePairs, Option.bind_eq_bind, Option.bind_eq_some] at h
    obtain ⟨⟨st₁, k'⟩, h₁, ⟨st₂, v'⟩, h₂, ⟨st₃, kvs₃⟩, h₃, h₄⟩ := h
    cases h₄
    exact htrans _ _ _ (hg _ _ _ _ h₁) (htrans _ _ _ (hg _ _ _ _ h₂)
      (clonePairs_frame g Q hrefl htrans hg st₂ kvs st₃ kvs₃ h₃))

theorem lookup_setCell_self (a : Nat) (c : Cell) (S : Store) :
    (setCell a c S).lookup a = some c := by
  simp [setCell, Store.lookup]

theorem lookup_setCell_ne (a a' : Nat) (c : Cell) (S : Store) (h : a' ≠ a) :
    (setCell a c S).lookup a' = S.lookup a' := by
  simp [setCell, Store.lookup, h]

theorem lookupVis_cons_self (k : VKey) (tv : Val) (V : List (VKey × Val)) :
    lookupVis ((k, tv) :: V) k = some tv := by
  simp [lookupVis]

theorem lookupVis_cons_ne (k k' : VKey) (tv : Val) (V : List (VKey × Val))
    (h : k' ≠ k) : lookupVis ((k, tv) :: V) k' = lookupVis V k' := by
  simp [lookupVis, h]

theorem StExt.refl (st : St) : StExt st st :=
  ⟨le_refl _, fun _ _ => rfl, fun a h => Or.inl h, fun _ _ h => h⟩

theorem StExt.trans {a b c : St} (h₁ : StExt a b) (h₂ : StExt b c) : StExt a c := by
  obtain ⟨n₁, m₁, f₁, v₁⟩ := h₁
  obtain ⟨n₂, m₂, f₂, v₂⟩ := h₂
  refine ⟨le_trans n₁ n₂, ?_, ?_, fun k tv h => v₂ k tv (v₁ k tv h)⟩
  · intro x hx
    rw [m₂ x (lt_of_lt_of_le hx n₁), m₁ x hx]
  · intro x hx
    rcases f₂ x hx with h | ⟨h₁', h₂'⟩
    · rcases f₁ x h with h' | ⟨h₁', h₂'⟩
      · exact Or.inl h'
      · exact Or.inr ⟨h₁', lt_of_lt_of_le h₂' n₂⟩
    · exact Or.inr ⟨le_trans n₁ h₁', h₂'⟩

theorem refcase_ext (st st₂ : St) (c₀ c' : Cell) (vis₁ : List (VKey × Val))
    (hvis : ∀ k tv, lookupVis st.vis k = some tv → lookupVis vis₁ k = some tv)
    (hmid : StExt ⟨setCell st.next c₀ st.mem, st.next + 1, vis₁⟩ st₂) :
    StExt st ⟨setCell st.next c' st₂.mem, st₂.next, st₂.vis⟩ := by
  obtain ⟨hn₂, hm₂, hf₂, hv₂⟩ := hmid
  have hn₂' : st.next + 1 ≤ st₂.next := hn₂
  refine ⟨show st.next ≤ st₂.next by omega, ?_, ?_, ?_⟩
  · intro x hx
    have hxb : x ≠ st.next := Nat.ne_of_lt hx
    show (setCell st.next c' st₂.mem).lookup x = st.mem.lookup x
    rw [lookup_setCell_ne _ _ _ _ hxb]
    have hx' : x < (⟨setCell st.next c₀ st.mem, st.next + 1, vis₁⟩ : St).next := by
      show x < st.next + 1
      omega
    rw [hm₂ x hx']
    exact lookup_setCell_ne _ _ _ _ hxb
  · intro x hx
    by_cases hxb : x = st.next
    · subst hxb
      exact Or.inr ⟨le_refl _, show st.next < st₂.next by omega⟩
    · replace hx : (st₂.mem.lookup x).isSome := by
        rwa [lookup_setCell_ne _ _ _ _ hxb] at hx
      rcases hf₂ x hx with hx' | ⟨hx₁, hx₂⟩
      · replace hx' : (st.mem.lookup x).isSome := by
          rwa [lookup_setCell_ne _ _ _ _ hxb] at hx'
        exact Or.inl hx'
      · have hx₁' : st.next + 1 ≤ x := hx₁
        exact Or.inr ⟨by omega, hx₂⟩
  · intro k tv hk
    exact hv₂ k tv (hvis k tv hk)

theorem clone_frame : ∀ (n : Nat) (slow : Bool) (st : St) (v : Val) (st' : St) (v' : Val),
    clone n slow st v = some (st', v') →
    StExt st st' ∧ (slow = false → st'.vis = st.vis)
  | 0, _, _, _, _, _, h => by simp [clone] at h
  | n+1, slow, st, v, st', v', h => by
    have hQrefl : ∀ s : St, StExt s s ∧ (slow = false → s.vis = s.vis) :=
      fun s => ⟨StExt.refl s, fun _ => rfl⟩
    have hQtrans : ∀ s₁ s₂ s₃ : St,
        (StExt s₁ s₂ ∧ (slow = false → s₂.vis = s₁.vis)) →
        (StExt s₂ s₃ ∧ (slow = false → s₃.vis = s₂.vis)) →
        (StExt s₁ s₃ ∧ (slow = false → s₃.vis = s₁.vis)) :=
      fun s₁ s₂ s₃ h₁ h₂ => ⟨StExt.trans h₁.1 h₂.1, fun hs => (h₂.2 hs).trans (h₁.2 hs)⟩
    have hg : ∀ (s : St) (w : Val) (s' : St) (w' : Val), clone n slow s w = some (s', w') →
        StExt s s' ∧ (slow = false → s'.vis = s.vis) :=
      fun s w s' w' hh => clone_frame n slow s w s' w' hh
    cases v with
    | scalarV k =>
      simp only [clone] at h
      cases h
      exact hQrefl st
    | chanV c =>
      simp only [clone] at h
      cases h
      exact hQrefl st
    | arrayV e es =>
      simp only [clone] at h
      by_cases hs : isScalar e
      · rw [if_pos hs] at h
        cases h
        exact hQrefl st
      · rw [if_neg hs] at h
        simp only [Option.bind_eq_bind, Option.bind_eq_some] at h
        obtain ⟨⟨st₂, es'⟩, h₁, h₂⟩ := h
        cases h₂
        exact cloneElems_frame _ _ hQrefl hQtrans hg st es st₂ es' h₁
    | structV fts fs =>
      simp only [clone, Option.bind_eq_bind, Option.bind_eq_some] at h
      obtain ⟨⟨st₂, fs'⟩, h₁, h₂⟩ := h
      cases h₂
      exact copyFields_frame _ _ hQrefl hQtrans hg _ 0 st fs st₂ fs' h₁
    | ptrV e oa =>
      cases oa with
      | none =>
        simp only [clone] at h
        cases h
        exact hQrefl st
      | some a =>
        simp only [clone] at h
        cases hvl : (if slow = true then lookupVis st.vis (VKey.kPtr a (.ptrT e)) else none) with
        | some tv =>
          simp only [hvl] at h
          cases h
          exact hQrefl st
        | none =>
          simp only [hvl, Option.bind_eq_bind, Option.bind_eq_some] at h
          obtain ⟨w, hd, ⟨st₂, w'⟩, h₁, h₂⟩ := h
          cases h₂
          obtain ⟨hmid, hvis₂⟩ := hg _ _ _ _ h₁
          have hvis : ∀ k tv, lookupVis st.vis k = some tv →
              lookupVis (if slow = true
                then (VKey.kPtr a (.ptrT e), Val.ptrV e (some st.next)) :: st.vis
                else st.vis) k = some tv := by
            intro k tv hk
            by_cases hs : slow = true
            · rw [if_pos hs]
              rw [hs] at hvl
              have hk₀ : lookupVis st.vis (VKey.kPtr a (.ptrT e)) = none := by
                simpa using hvl
              have hkne : k ≠ VKey.kPtr a (.ptrT e) := by
                intro hkk
                rw [hkk, hk₀] at hk
                cases hk
              rw [lookupVis_cons_ne _ _ _ _ hkne]
              exact hk
            · rw [if_neg hs]
              exact hk
          refine ⟨refcase_ext st st₂ _ _ _ hvis hmid, ?_⟩
          intro hs
          subst hs
          simpa using hvis₂ rfl
    | sliceV e or =>
      cases or with
      | none =>
        simp only [clone] at h
        cases h
        exact hQrefl st
      | some r =>
        obtain ⟨a, len, cap⟩ := r
        simp only [clone] at h
        cases hvl : (if slow = true then lookupVis st.vis (VKey.kSlice a len (.sliceT e)) else none) with
        | some tv =>
          simp only [hvl] at h
          cases h
          exact hQrefl st
        | none =>
          simp only [hvl, Option.bind_eq_bind, Option.bind_eq_some] at h
          obtain ⟨vs, hd, h⟩ := h
          have hvis : ∀ k tv, lookupVis st.vis k = some tv →
              lookupVis (if slow = true
                then (VKey.kSlice a len (.sliceT e),
                  Val.sliceV e (some (st.next, len, cap))) :: st.vis
                else st.vis) k = some tv := by
            intro k tv hk
            by_cases hs : slow = true
            · rw [if_pos hs]
              rw [hs] at hvl
              have hk₀ : lookupVis st.vis (VKey.kSlice a len (.sliceT e)) = none := by
                simpa using hvl
              have hkne : k ≠ VKey.kSlice a len (.sliceT e) := by
                intro hkk
                rw [hkk, hk₀] at hk
                cases hk
              rw [lookupVis_cons_ne _ _ _ _ hkne]
              exact hk
            · rw [if_neg hs]
              exact hk
          by_cases hsc : isScalar e
          · rw [if_pos hsc] at h
            cases h
            refine ⟨refcase_ext st _ (Cell.cSeq []) _ _ hvis (StExt.refl _), ?_⟩
            intro hs
            subst hs
            rfl
          · rw [if_neg hsc] at h
            simp only [Option.bind_eq_bind, Option.bind_eq_some] at h
            obtain ⟨⟨st₂, es'⟩, h₁, h₂⟩ := h
            cases h₂
            have hmid := cloneList_frame _ _ hQrefl hQtrans hg _ _ _ _ h₁
            refine ⟨refcase_ext st st₂ (Cell.cSeq []) _ _ hvis hmid.1, ?_⟩
            intro hs
            subst hs
            simpa using hmid.2 rfl
    | mapV kt vt oa =>
      cases oa with
      | none =>
        simp only [clone] at h
        cases h
        exact hQrefl st
      | some a =>
        simp only [clone] at h
        cases hvl : (if slow = true then lookupVis st.vis (VKey.kMap a (.mapT kt vt)) else none) with
        | some tv =>
          simp only [hvl] at h
          cases h
          exact hQrefl st
        | none =>
          simp only [hvl, Option.bind_eq_bind, Option.bind_eq_some] at h
          obtain ⟨kvs, hd, ⟨st₂, kvs'⟩, h₁, h₂⟩ := h
          cases h₂
          have hvis : ∀ k tv, lookupVis st.vis k = some tv →
              lookupVis (if slow = true
                then (VKey.kMap a (.mapT kt vt), Val.mapV kt vt (some st.next)) :: st.vis
                else st.vis) k = some tv := by
            intro k tv hk
            by_cases hs : slow = true
            · rw [if_pos hs]
              rw [hs] at hvl
              have hk₀ : lookupVis st.vis (VKey.kMap a (.mapT kt vt)) = none := by
                simpa using hvl
              have hkne : k ≠ VKey.kMap a (.mapT kt vt) := by
                intro hkk
                rw [hkk, hk₀] at hk
                cases hk
              rw [lookupVis_cons_ne _ _ _ _ hkne]
              exact hk
            · rw [if_neg hs]
              exact hk
          have hmid := clonePairs_frame _ _ hQrefl hQtrans hg _ _ _ _ h₁
          refine ⟨refcase_ext st st₂ (Cell.cMap []) _ _ hvis hmid.1, ?_⟩
          intro hs
          subst hs
          simpa using hmid.2 rfl

theorem copyFields_mono (g g' : St → Val → Option (St × Val))
    (hgg : ∀ st v r, g st v = some r → g' st v = some r) :
    ∀ (pf : List Nat) (i : Nat) (st : St) (fs : Vals) (r : St × Vals),
      copyFields g pf i st fs = some r → copyFields g' pf i st fs = some r
  | pf, i, st, .vnil, r, h => h
  | pf, i, st, .vcons f fs, r, h => by
    by_cases hi : i ∈ pf
    · simp only [copyFields, if_pos hi, Option.bind_eq_bind, Option.bind_eq_some] at h ⊢
      obtain ⟨⟨st₁, f'⟩, h₁, ⟨st₂, fs₂⟩, h₂, h₃⟩ := h
      exact ⟨⟨st₁, f'⟩, hgg _ _ _ h₁, ⟨st₂, fs₂⟩,
        copyFields_mono g g' hgg pf (i+1) st₁ fs _ h₂, h₃⟩
    · simp only [copyFields, if_neg hi, Option.bind_eq_bind, Option.bind_eq_some,
        Option.some_bind] at h ⊢
      obtain ⟨⟨st₂, fs₂⟩, h₂, h₃⟩ := h
      exact ⟨⟨st₂, fs₂⟩, copyFields_mono g g' hgg pf (i+1) st fs _ h₂, h₃⟩

theorem cloneElems_mono (g g' : St → Val → Option (St × Val))
    (hgg : ∀ st v r, g st v = some r → g' st v = some r) :
    ∀ (st : St) (vs : Vals) (r : St × Vals),
      cloneElems g st vs = some r → cloneElems g' st vs = some r
  | st, .vnil, r, h => h
  | st, .vcons v vs, r, h => by
    simp only [cloneElems, Option.bind_eq_bind, Option.bind_eq_some] at h ⊢
    obtain ⟨⟨st₁, v'⟩, h₁, ⟨st₂, vs₂⟩, h₂, h₃⟩ := h
    exact ⟨⟨st₁, v'⟩, hgg _ _ _ h₁, ⟨st₂, vs₂⟩,
      cloneElems_mono g g' hgg st₁ vs _ h₂, h₃⟩

theorem cloneList_mono (g g' : St → Val → Option (St × Val))
    (hgg : ∀ st v r, g st v = some r → g' st v = some r) :
    ∀ (st : St) (vs : List Val) (r : St × List Val),
      cloneList g st vs = some r → cloneList g' st vs = some r
  | st, [], r, h => h
  | st, v :: vs, r, h => by
    simp only [cloneList, Option.bind_eq_bind, Option.bind_eq_some] at h ⊢
    obtain ⟨⟨st₁, v'⟩, h₁, ⟨st₂, vs₂⟩, h₂, h₃⟩ := h
    exact ⟨⟨st₁, v'⟩, hgg _ _ _ h₁, ⟨st₂, vs₂⟩,
      cloneList_mono g g' hgg st₁ vs _ h₂, h₃⟩

theorem clonePairs_mono (g g' : St → Val → Option (St × Val))
    (hgg : ∀ st v r, g st v = some r → g' st v = some r) :
    ∀ (st : St) (kvs : List (Val × Val)) (r : St × List (Val × Val)),
      clonePairs g st kvs = some r → clonePairs g' st kvs = some r
  | st, [], r, h => h
  | st, (k, v) :: kvs, r, h => by
    simp only [clonePairs, Option.bind_eq_bind, Option.bind_eq_some] at h ⊢
    obtain ⟨⟨st₁, k'⟩, h₁, ⟨st₂, v'⟩, h₂, ⟨st₃, kvs₃⟩, h₃, h₄⟩ := h
    exact ⟨⟨st₁, k'⟩, hgg _ _ _ h₁, ⟨st₂, v'⟩, hgg _ _ _ h₂, ⟨st₃, kvs₃⟩,
      clonePairs_mono g g' hgg st₂ kvs _ h₃, h₄⟩

/-- More fuel never changes a successful result. -/
theorem clone_mono : ∀ (n m : Nat), n ≤ m →
    ∀ (slow : Bool) (st : St) (v : Val) (r : St × Val),
      clone n slow st v = some r → clone m slow st v = some r
  | 0, m, _, slow, st, v, r, h => by simp [clone] at h
  | n+1, m, hnm, slow, st, v, r, h => by
    obtain ⟨m', rfl⟩ : ∃ m', m = m' + 1 := ⟨m - 1, by omega⟩
    have hnm' : n ≤ m' := by omega
    have hgg : ∀ st v r, clone n slow st v = some r → clone m' slow st v = some r :=
      fun st v r hh => clone_mono n m' hnm' slow st v r hh
    cases v with
    | scalarV k => exact h
    | chanV c => exact h
    | arrayV e es =>
      simp only [clone] at h ⊢
      by_cases hs : isScalar e
      · rwa [if_pos hs] at h ⊢
      · rw [if_neg hs] at h ⊢
        simp only [Option.bind_eq_bind, Option.bind_eq_some] at h ⊢
        obtain ⟨⟨st₂, es'⟩, h₁, h₂⟩ := h
        exact ⟨⟨st₂, es'⟩, cloneElems_mono _ _ hgg st es _ h₁, h₂⟩
    | structV fts fs =>
      simp only [clone, Option.bind_eq_bind, Option.bind_eq_some] at h ⊢
      obtain ⟨⟨st₂, fs'⟩, h₁, h₂⟩ := h
      exact ⟨⟨st₂, fs'⟩, copyFields_mono _ _ hgg _ 0 st fs _ h₁, h₂⟩
    | ptrV e oa =>
      cases oa with
      | none => exact h
      | some a =>
        simp only [clone] at h ⊢
        cases hvl : (if slow = true then lookupVis st.vis (VKey.kPtr a (.ptrT e)) else none) with
        | some tv =>
          simp only [hvl] at h ⊢
          exact h
        | none =>
          simp only [hvl, Option.bind_eq_bind, Option.bind_eq_some] at h ⊢
          obtain ⟨w, hd, ⟨st₂, w'⟩, h₁, h₂⟩ := h
          exact ⟨w, hd, ⟨st₂, w'⟩, hgg _ _ _ h₁, h₂⟩
    | sliceV e or =>
      cases or with
      | none => exact h
      | some r' =>
        obtain ⟨a, len, cap⟩ := r'
        simp only [clone] at h ⊢
        cases hvl : (if slow = true then lookupVis st.vis (VKey.kSlice a len (.sliceT e)) else none) with
        | some tv =>
          simp only [hvl] at h ⊢
          exact h
        | none =>
          simp only [hvl, Option.bind_eq_bind, Option.bind_eq_some] at h ⊢
          obtain ⟨vs, hd, h⟩ := h
          refine ⟨vs, hd, ?_⟩
          by_cases hsc : isScalar e
          · rwa [if_pos hsc] at h ⊢
          · rw [if_neg hsc] at h ⊢
            simp only [Option.bind_eq_bind, Option.bind_eq_some] at h ⊢
            obtain ⟨⟨st₂, es'⟩, h₁, h₂⟩ := h
            exact ⟨⟨st₂, es'⟩, cloneList_mono _ _ hgg _ _ _ h₁, h₂⟩
    | mapV kt vt oa =>
      cases oa with
      | none => exact h
      | some a =>
        simp only [clone] at h ⊢
        cases hvl : (if slow = true then lookupVis st.vis (VKey.kMap a (.mapT kt vt)) else none) with
        | some tv =>
          simp only [hvl] at h ⊢
          exact h
        | none =>
          simp only [hvl, Option.bind_eq_bind, Option.bind_eq_some] at h ⊢
          obtain ⟨kvs, hd, ⟨st₂, kvs'⟩, h₁, h₂⟩ := h
          exact ⟨kvs, hd, ⟨st₂, kvs'⟩, clonePairs_mono _ _ hgg _ _ _ h₁, h₂⟩

/-! ## Unfolding equations for `clone` and `deepRead` -/

theorem clone_eq_ptr (n : Nat) (slow : Bool) (st : St) (e : Ty) (a : Nat) :
    clone (n+1) slow st (.ptrV e (some a)) =
      match (if slow then lookupVis st.vis (.kPtr a (.ptrT e)) else none) with
      | some tv => some (st, tv)
      | none =>
        (derefPtr st.mem a).bind fun w =>
          (clone n slow
            ⟨setCell st.next (.cPtr (zeroVal e)) st.mem, st.next + 1,
              if slow then (VKey.kPtr a (.ptrT e), Val.ptrV e (some st.next)) :: st.vis
              else st.vis⟩ w).bind fun p =>
            some (⟨setCell st.next (.cPtr p.2) p.1.mem, p.1.next, p.1.vis⟩,
              .ptrV e (some st.next)) := rfl

theorem clone_eq_slice (n : Nat) (slow : Bool) (st : St) (e : Ty) (a len cap : Nat) :
    clone (n+1) slow st (.sliceV e (some (a, len, cap))) =
      match (if slow then lookupVis st.vis (.kSlice a len (.sliceT e)) else none) with
      | some tv => some (st, tv)
      | none =>
        (derefSeq st.mem a).bind fun vs =>
          if isScalar e then
            some (⟨setCell st.next
              (.cSeq (vs.take len ++ List.replicate (cap - len) (zeroVal e)))
              (setCell st.next (.cSeq []) st.mem), st.next + 1,
              if slow then (VKey.kSlice a len (.sliceT e),
                Val.sliceV e (some (st.next, len, cap))) :: st.vis else st.vis⟩,
              .sliceV e (some (st.next, len, cap)))
          else
            (cloneList (clone n slow)
              ⟨setCell st.next (.cSeq []) st.mem, st.next + 1,
                if slow then (VKey.kSlice a len (.sliceT e),
                  Val.sliceV e (some (st.next, len, cap))) :: st.vis else st.vis⟩
              (vs.take len)).bind fun p =>
              some (⟨setCell st.next
                (.cSeq (p.2 ++ List.replicate (cap - len) (zeroVal e))) p.1.mem,
                p.1.next, p.1.vis⟩, .sliceV e (some (st.next, len, cap))) := rfl

theorem clone_eq_map (n : Nat) (slow : Bool) (st : St) (kt vt : Ty) (a : Nat) :
    clone (n+1) slow st (.mapV kt vt (some a)) =
      match (if slow then lookupVis st.vis (.kMap a (.mapT kt vt)) else none) with
      | some tv => some (st, tv)
      | none =>
        (derefMap st.mem a).bind fun kvs =>
          (clonePairs (clone n slow)
            ⟨setCell st.next (.cMap []) st.mem, st.next + 1,
              if slow then (VKey.kMap a (.mapT kt vt), Val.mapV kt vt (some st.next)) :: st.vis
              else st.vis⟩ kvs).bind fun p =>
            some (⟨setCell st.next (.cMap p.2) p.1.mem, p.1.next, p.1.vis⟩,
              .mapV kt vt (some st.next)) := rfl

theorem clone_eq_struct (n : Nat) (slow : Bool) (st : St) (fts : Tys) (fs : Vals) :
    clone (n+1) slow st (.structV fts fs) =
      (copyFields (clone n slow) (loadStructType fts).PointerFields 0 st fs).bind fun p =>
        some (p.1, .structV fts p.2) := rfl

theorem clone_eq_array (n : Nat) (slow : Bool) (st : St) (e : Ty) (es : Vals) :
    clone (n+1) slow st (.arrayV e es) =
      if isScalar e then some (st, .arrayV e es)
      else (cloneElems (clone n slow) st es).bind fun p =>
        some (p.1, .arrayV e p.2) := rfl

theorem deepRead_eq_ptr (n : Nat) (S : Store) (e : Ty) (a : Nat) :
    deepRead (n+1) S (.ptrV e (some a)) =
      (derefPtr S a).bind fun w =>
        (deepRead n S w).bind fun d => some (.dPtr d) := rfl

theorem deepRead_eq_slice (n : Nat) (S : Store) (e : Ty) (a len cap : Nat) :
    deepRead (n+1) S (.sliceV e (some (a, len, cap))) =
      (derefSeq S a).bind fun vs =>
        (readList (deepRead n S) (vs.take len)).bind fun ds => some (.dSlice ds) := rfl

theorem deepRead_eq_map (n : Nat) (S : Store) (kt vt : Ty) (a : Nat) :
    deepRead (n+1) S (.mapV kt vt (some a)) =
      (derefMap S a).bind fun kvs =>
        (readPairs (deepRead n S) kvs).bind fun ds => some (.dMap ds) := rfl

theorem deepRead_eq_struct (n : Nat) (S : Store) (fts : Tys) (fs : Vals) :
    deepRead (n+1) S (.structV fts fs) =
      (readVals (deepRead n S) fs).bind fun ds => some (.dStruct ds) := rfl

theorem deepRead_eq_array (n : Nat) (S : Store) (e : Ty) (es : Vals) :
    deepRead (n+1) S (.arrayV e es) =
      (readVals (deepRead n S) es).bind fun ds => some (.dArray ds) := rfl

theorem derefPtr_eq_some (S : Store) (a : Nat) (w : Val) :
    derefPtr S a = some w ↔ S.lookup a = some (.cPtr w) := by
  unfold derefPtr
  cases hm : S.lookup a with
  | none => simp
  | some c => cases c <;> simp

theorem derefSeq_eq_some (S : Store) (a : Nat) (vs : List Val) :
    derefSeq S a = some vs ↔ S.lookup a = some (.cSeq vs) := by
  unfold derefSeq
  cases hm : S.lookup a with
  | none => simp
  | some c => cases c <;> simp

theorem derefMap_eq_some (S : Store) (a : Nat) (kvs : List (Val × Val)) :
    derefMap S a = some kvs ↔ S.lookup a = some (.cMap kvs) := by
  unfold derefMap
  cases hm : S.lookup a with
  | none => simp
  | some c => cases c <;> simp

/-! ## Transfer lemmas for `deepRead`, `closedIn`, `srcOK` -/

theorem readVals_imp (g g' : Val → Option DVal)
    (hgg : ∀ v d, g v = some d → g' v = some d) :
    ∀ (vs : Vals) (ds : List DVal), readVals g vs = some ds → readVals g' vs = some ds
  | .vnil, ds, h => h
  | .vcons v vs, ds, h => by
    simp only [readVals, Option.bind_eq_bind, Option.bind_eq_some] at h ⊢
    obtain ⟨d, hd, ds', hds, h₃⟩ := h
    exact ⟨d, hgg v d hd, ds', readVals_imp g g' hgg vs ds' hds, h₃⟩

theorem readList_imp (g g' : Val → Option DVal)
    (hgg : ∀ v d, g v = some d → g' v = some d) :
    ∀ (vs : List Val) (ds : List DVal), readList g vs = some ds → readList g' vs = some ds
  | [], ds, h => h
  | v :: vs, ds, h => by
    simp only [readList, Option.bind_eq_bind, Option.bind_eq_some] at h ⊢
    obtain ⟨d, hd, ds', hds, h₃⟩ := h
    exact ⟨d, hgg v d hd, ds', readList_imp g g' hgg vs ds' hds, h₃⟩

theorem readPairs_imp (g g' : Val → Option DVal)
    (hgg : ∀ v d, g v = some d → g' v = some d) :
    ∀ (kvs : List (Val × Val)) (ds : List (DVal × DVal)),
      readPairs g kvs = some ds → readPairs g' kvs = some ds
  | [], ds, h => h
  | (k, v) :: kvs, ds, h => by
    simp only [readPairs, Option.bind_eq_bind, Option.bind_eq_some] at h ⊢
    obtain ⟨dk, hdk, dv, hdv, ds', hds, h₃⟩ := h
    exact ⟨dk, hgg k dk hdk, dv, hgg v dv hdv, ds',
      readPairs_imp g g' hgg kvs ds' hds, h₃⟩

/-- `deepRead` only looks at cells that exist in its store: any store that
agrees on those cells yields the same deep value. -/
theorem deepRead_frame : ∀ (n : Nat) (S S' : Store)
    (hag : ∀ x, (S.lookup x).isSome → S'.lookup x = S.lookup x)
    (v : Val) (d : DVal), deepRead n S v = some d → deepRead n S' v = some d
  | 0, _, _, _, _, _, h => by simp [deepRead] at h
  | n+1, S, S', hag, v, d, h => by
    have hgg : ∀ w d', deepRead n S w = some d' → deepRead n S' w = some d' :=
      fun w d' hh => deepRead_frame n S S' hag w d' hh
    cases v with
    | scalarV k => exact h
    | chanV c => exact h
    | structV fts fs =>
      rw [deepRead_eq_struct] at h ⊢
      simp only [Option.bind_eq_some] at h ⊢
      obtain ⟨ds, hds, h₂⟩ := h
      exact ⟨ds, readVals_imp _ _ hgg fs ds hds, h₂⟩
    | arrayV e es =>
      rw [deepRead_eq_array] at h ⊢
      simp only [Option.bind_eq_some] at h ⊢
      obtain ⟨ds, hds, h₂⟩ := h
      exact ⟨ds, readVals_imp _ _ hgg es ds hds, h₂⟩
    | ptrV e oa =>
      cases oa with
      | none => exact h
      | some a =>
        rw [deepRead_eq_ptr] at h ⊢
        simp only [Option.bind_eq_some] at h ⊢
        obtain ⟨w, hw, d', hd', h₂⟩ := h
        have hw' : S.lookup a = some (.cPtr w) := (derefPtr_eq_some _ _ _).mp hw
        refine ⟨w, (derefPtr_eq_some _ _ _).mpr ?_, d', hgg w d' hd', h₂⟩
        rw [hag a (by simp [hw']), hw']
    | sliceV e or =>
      cases or with
      | none => exact h
      | some r =>
        obtain ⟨a, len, cap⟩ := r
        rw [deepRead_eq_slice] at h ⊢
        simp only [Option.bind_eq_some] at h ⊢
        obtain ⟨vs, hvs, ds, hds, h₂⟩ := h
        have hvs' : S.lookup a = some (.cSeq vs) := (derefSeq_eq_some _ _ _).mp hvs
        refine ⟨vs, (derefSeq_eq_some _ _ _).mpr ?_, ds,
          readList_imp _ _ hgg _ ds hds, h₂⟩
        rw [hag a (by simp [hvs']), hvs']
    | mapV kt vt oa =>
      cases oa with
      | none => exact h
      | some a =>
        rw [deepRead_eq_map] at h ⊢
        simp only [Option.bind_eq_some] at h ⊢
        obtain ⟨kvs, hkvs, ds, hds, h₂⟩ := h
        have hkvs' : S.lookup a = some (.cMap kvs) := (derefMap_eq_some _ _ _).mp hkvs
        refine ⟨kvs, (derefMap_eq_some _ _ _).mpr ?_, ds,
          readPairs_imp _ _ hgg kvs ds hds, h₂⟩
        rw [hag a (by simp [hkvs']), hkvs']

theorem readVals_refFree (g g' : Val → Option DVal)
    (hgg : ∀ v, refFree v = true → ∀ d, g v = some d → g' v = some d) :
    ∀ (vs : Vals) (ds : List DVal), refFreeL vs = true →
      readVals g vs = some ds → readVals g' vs = some ds
  | .vnil, ds, _, h => h
  | .vcons v vs, ds, hrf, h => by
    simp only [refFreeL, Bool.and_eq_true] at hrf
    simp only [readVals, Option.bind_eq_bind, Option.bind_eq_some] at h ⊢
    obtain ⟨d, hd, ds', hds, h₃⟩ := h
    exact ⟨d, hgg v hrf.1 d hd, ds',
      readVals_refFree g g' hgg vs ds' hrf.2 hds, h₃⟩

theorem readList_refFree (g g' : Val → Option DVal)
    (hgg : ∀ v, refFree v = true → ∀ d, g v = some d → g' v = some d) :
    ∀ (vs : List Val) (ds : List DVal), vs.all refFree = true →
      readList g vs = some ds → readList g' vs = some ds
  | [], ds, _, h => h
  | v :: vs, ds, hrf, h => by
    simp only [List.all_cons, Bool.and_eq_true] at hrf
    simp only [readList, Option.bind_eq_bind, Option.bind_eq_some] at h ⊢
    obtain ⟨d, hd, ds', hds, h₃⟩ := h
    exact ⟨d, hgg v hrf.1 d hd, ds',
      readList_refFree g g' hgg vs ds' hrf.2 hds, h₃⟩

/-- A reference-free value's deep value does not depend on the store. -/
theorem refFree_deepRead : ∀ (n : Nat) (S S' : Store) (v : Val) (d : DVal),
    refFree v = true → deepRead n S v = some d → deepRead n S' v = some d
  | 0, _, _, _, _, _, h => by simp [deepRead] at h
  | n+1, S, S', v, d, hrf, h => by
    have hgg : ∀ w, refFree w = true → ∀ d', deepRead n S w = some d' →
        deepRead n S' w = some d' :=
      fun w hw d' hh => refFree_deepRead n S S' w d' hw hh
    cases v with
    | scalarV k => exact h
    | chanV c => simp [refFree] at hrf
    | ptrV e oa => simp [refFree] at hrf
    | sliceV e or => simp [refFree] at hrf
    | mapV kt vt oa => simp [refFree] at hrf
    | structV fts fs =>
      simp only [refFree] at hrf
      rw [deepRead_eq_struct] at h ⊢
      simp only [Option.bind_eq_some] at h ⊢
      obtain ⟨ds, hds, h₂⟩ := h
      exact ⟨ds, readVals_refFree _ _ hgg fs ds hrf hds, h₂⟩
    | arrayV e es =>
      simp only [refFree] at hrf
      rw [deepRead_eq_array] at h ⊢
      simp only [Option.bind_eq_some] at h ⊢
      obtain ⟨ds, hds, h₂⟩ := h
      exact ⟨ds, readVals_refFree _ _ hgg es ds hrf hds, h₂⟩

mutual
/-- Well-formedness of references survives any store change that preserves
the cells below `N` referenced by the value. -/
theorem closedIn_below (N : Nat) (S S' : Store)
    (hag : ∀ x, x < N → S'.lookup x = S.lookup x) :
    ∀ v : Val, refsBelow N v = true → closedIn S v = true → closedIn S' v = true
  | .scalarV k, _, h => h
  | .chanV c, _, h => h
  | .ptrV e none, _, h => h
  | .ptrV e (some a), hrb, h => by
    simp only [refsBelow, decide_eq_true_eq] at hrb
    simp only [closedIn] at h ⊢
    rw [hag a hrb]
    exact h
  | .sliceV e none, _, h => h
  | .sliceV e (some (a, len, cap)), hrb, h => by
    simp only [refsBelow, decide_eq_true_eq] at hrb
    simp only [closedIn] at h ⊢
    rw [hag a hrb]
    exact h
  | .mapV kt vt none, _, h => h
  | .mapV kt vt (some a), hrb, h => by
    simp only [refsBelow, decide_eq_true_eq] at hrb
    simp only [closedIn] at h ⊢
    rw [hag a hrb]
    exact h
  | .structV fts fs, hrb, h => by
    simp only [refsBelow] at hrb
    simp only [closedIn] at h ⊢
    exact closedInL_below N S S' hag fs hrb h
  | .arrayV e es, hrb, h => by
    simp only [refsBelow] at hrb
    simp only [closedIn] at h ⊢
    exact closedInL_below N S S' hag es hrb h

theorem closedInL_below (N : Nat) (S S' : Store)
    (hag : ∀ x, x < N → S'.lookup x = S.lookup x) :
    ∀ vs : Vals, refsBelowL N vs = true → closedInL S vs = true → closedInL S' vs = true
  | .vnil, _, h => h
  | .vcons v vs, hrb, h => by
    simp only [refsBelowL, Bool.and_eq_true] at hrb
    simp only [closedInL, Bool.and_eq_true] at h ⊢
    exact ⟨closedIn_below N S S' hag v hrb.1 h.1, closedInL_below N S S' hag vs hrb.2 h.2⟩
end

theorem closedCell_below (N : Nat) (S S' : Store)
    (hag : ∀ x, x < N → S'.lookup x = S.lookup x)
    (c : Cell) (hrb : refsBelowCell N c = true) (h : closedCell S c = true) :
    closedCell S' c = true := by
  cases c with
  | cPtr v => exact closedIn_below N S S' hag v hrb h
  | cSeq vs =>
    simp only [refsBelowCell, List.all_eq_true] at hrb
    simp only [closedCell, List.all_eq_true] at h ⊢
    exact fun v hv => closedIn_below N S S' hag v (hrb v hv) (h v hv)
  | cMap kvs =>
    simp only [refsBelowCell, List.all_eq_true, Bool.and_eq_true] at hrb
    simp only [closedCell, List.all_eq_true, Bool.and_eq_true] at h ⊢
    exact fun kv hkv => ⟨closedIn_below N S S' hag kv.1 (hrb kv hkv).1 (h kv hkv).1,
      closedIn_below N S S' hag kv.2 (hrb kv hkv).2 (h kv hkv).2⟩

/-- `srcOK` survives any store change that preserves the cells below `N`. -/
theorem srcOK_frame (N : Nat) (S S' : Store)
    (hag : ∀ x, x < N → S'.lookup x = S.lookup x)
    (h : srcOK N S) : srcOK N S' := by
  intro a c ha hc
  rw [hag a ha] at hc
  obtain ⟨hg, hrb, hcl⟩ := h a c ha hc
  exact ⟨hg, hrb, closedCell_below N S S' hag c hrb hcl⟩

/-! ## Fast-mode specializations and the fast-mode master lemma -/

theorem clone_fast_ptr (n : Nat) (st : St) (e : Ty) (a : Nat) :
    clone (n+1) false st (.ptrV e (some a)) =
      (derefPtr st.mem a).bind fun w =>
        (clone n false ⟨setCell st.next (.cPtr (zeroVal e)) st.mem, st.next + 1, st.vis⟩ w).bind
          fun p => some (⟨setCell st.next (.cPtr p.2) p.1.mem, p.1.next, p.1.vis⟩,
            .ptrV e (some st.next)) := rfl

theorem clone_fast_slice (n : Nat) (st : St) (e : Ty) (a len cap : Nat) :
    clone (n+1) false st (.sliceV e (some (a, len, cap))) =
      (derefSeq st.mem a).bind fun vs =>
        if isScalar e then
          some (⟨setCell st.next
            (.cSeq (vs.take len ++ List.replicate (cap - len) (zeroVal e)))
            (setCell st.next (.cSeq []) st.mem), st.next + 1, st.vis⟩,
            .sliceV e (some (st.next, len, cap)))
        else
          (cloneList (clone n false)
            ⟨setCell st.next (.cSeq []) st.mem, st.next + 1, st.vis⟩
            (vs.take len)).bind fun p =>
            some (⟨setCell st.next
              (.cSeq (p.2 ++ List.replicate (cap - len) (zeroVal e))) p.1.mem,
              p.1.next, p.1.vis⟩, .sliceV e (some (st.next, len, cap))) := rfl

theorem clone_fast_map (n : Nat) (st : St) (kt vt : Ty) (a : Nat) :
    clone (n+1) false st (.mapV kt vt (some a)) =
      (derefMap st.mem a).bind fun kvs =>
        (clonePairs (clone n false)
          ⟨setCell st.next (.cMap []) st.mem, st.next + 1, st.vis⟩ kvs).bind fun p =>
          some (⟨setCell st.next (.cMap p.2) p.1.mem, p.1.next, p.1.vis⟩,
            .mapV kt vt (some st.next)) := rfl

theorem cloneList_length (g : St → Val → Option (St × Val)) :
    ∀ (st : St) (vs : List Val) (st' : St) (vs' : List Val),
      cloneList g st vs = some (st', vs') → vs'.length = vs.length
  | st, [], st', vs', h => by
    simp only [cloneList] at h
    cases h
    rfl
  | st, v :: vs, st', vs', h => by
    simp only [cloneList, Option.bind_eq_bind, Option.bind_eq_some] at h
    obtain ⟨⟨st₁, v'⟩, h₁, ⟨st₂, vs₂⟩, h₂, h₃⟩ := h
    cases h₃
    simp only [List.length_cons, cloneList_length g st₁ vs st₂ vs₂ h₂]

theorem fast_master_fields
    (n N₀ : Nat) (S₀ : Store)
    (hIH : ∀ (st : St) (v : Val) (d : DVal),
      deepRead n st.mem v = some d → good v = true → refsBelow N₀ v = true →
      closedIn st.mem v = true → srcOK N₀ st.mem → N₀ ≤ st.next →
      (∀ x, (st.mem.lookup x).isSome → x < st.next) →
      ∃ st' v', clone n false st v = some (st', v') ∧ dreadOut n st.next st' v' d) :
    ∀ (pf : List Nat) (i : Nat) (st : St) (fs : Vals) (ds : List DVal),
      readVals (deepRead n S₀) fs = some ds →
      goodFields pf i fs = true → refsBelowL N₀ fs = true → closedInL S₀ fs = true →
      srcOK N₀ st.mem → N₀ ≤ st.next →
      (∀ x, (st.mem.lookup x).isSome → x < st.next) →
      (∀ x, (S₀.lookup x).isSome → st.mem.lookup x = S₀.lookup x) →
      (∀ x, (S₀.lookup x).isSome → x < st.next) →
      (∀ x, x < N₀ → st.mem.lookup x = S₀.lookup x) →
      ∃ st' fs', copyFields (clone n false) pf i st fs = some (st', fs') ∧
        st.next ≤ st'.next ∧ dreadOutVals n st.next st' fs' ds
  | pf, i, st, .vnil, ds, hds, _, _, _, _, _, _, _, _, _ => by
    simp only [readVals] at hds
    cases hds
    refine ⟨st, .vnil, rfl, le_refl _, ?_⟩
    intro S₂ _
    rfl
  | pf, i, st, .vcons f fs, ds, hds, hgood, hrb, hcl, hsrc, hN, hwf, hext, hwf0, hbel => by
    simp only [readVals, Option.bind_eq_bind, Option.bind_eq_some] at hds
    obtain ⟨d, hd, ds', hds', h₃⟩ := hds
    cases h₃
    simp only [goodFields, Bool.and_eq_true] at hgood
    simp only [refsBelowL, Bool.and_eq_true] at hrb
    simp only [closedInL, Bool.and_eq_true] at hcl
    by_cases hi : i ∈ pf
    · -- this field is cloned
      have hgf : good f = true := by
        have := hgood.1
        rwa [if_pos hi] at this
      have hdm : deepRead n st.mem f = some d :=
        deepRead_frame n S₀ st.mem hext f d hd
      have hclm : closedIn st.mem f = true :=
        closedIn_below N₀ S₀ st.mem hbel f hrb.1 hcl.1
      obtain ⟨st₁, f', hrun₁, hout₁⟩ :=
        hIH st f d hdm hgf hrb.1 hclm hsrc hN hwf
      obtain ⟨⟨hnx₁, hpre₁, hfr₁, _⟩, _⟩ := clone_frame n false st f st₁ f' hrun₁
      -- tail hypotheses at st₁
      have hext₁ : ∀ x, (S₀.lookup x).isSome → st₁.mem.lookup x = S₀.lookup x := by
        intro x hx
        rw [hpre₁ x (hwf0 x hx)]
        exact hext x hx
      have hwf0₁ : ∀ x, (S₀.lookup x).isSome → x < st₁.next :=
        fun x hx => lt_of_lt_of_le (hwf0 x hx) hnx₁
      have hbel₁ : ∀ x, x < N₀ → st₁.mem.lookup x = S₀.lookup x := by
        intro x hx
        rw [hpre₁ x (lt_of_lt_of_le hx hN)]
        exact hbel x hx
      have hsrc₁ : srcOK N₀ st₁.mem :=
        srcOK_frame N₀ st.mem st₁.mem
          (fun x hx => hpre₁ x (lt_of_lt_of_le hx hN)) hsrc
      have hwf₁ : ∀ x, (st₁.mem.lookup x).isSome → x < st₁.next := by
        intro x hx
        rcases hfr₁ x hx with hx' | ⟨_, hx₂⟩
        · exact lt_of_lt_of_le (hwf x hx') hnx₁
        · exact hx₂
      obtain ⟨st', fs', hrun₂, hnx₂, hout₂⟩ :=
        fast_master_fields n N₀ S₀ hIH pf (i+1) st₁ fs ds' hds' hgood.2 hrb.2 hcl.2
          hsrc₁ (le_trans hN hnx₁) hwf₁ hext₁ hwf0₁ hbel₁
      -- tail run's state extension (for transferring the head's window)
      have htail := copyFields_frame (clone n false) StExt StExt.refl
        (fun _ _ _ => StExt.trans)
        (fun s w s' w' hh => (clone_frame n false s w s' w' hh).1)
        pf (i+1) st₁ fs st' fs' hrun₂
      refine ⟨st', .vcons f' fs', ?_, le_trans hnx₁ hnx₂, ?_⟩
      · simp only [copyFields, if_pos hi, Option.bind_eq_bind, Option.bind_eq_some]
        exact ⟨⟨st₁, f'⟩, hrun₁, ⟨st', fs'⟩, hrun₂, rfl⟩
      · intro S₂ hag
        simp only [readVals, Option.bind_eq_bind, Option.bind_eq_some]
        refine ⟨d, ?_, ds', hout₂ S₂ (fun x hx₁ hx₂ => hag x (le_trans hnx₁ hx₁) hx₂), rfl⟩
        refine hout₁ S₂ ?_
        intro x hx₁ hx₂
        rw [hag x hx₁ (lt_of_lt_of_le hx₂ hnx₂)]
        exact (htail.2.1 x hx₂)
    · -- this field is copied verbatim (it is reference-free)
      have hrf : refFree f = true := by
        have := hgood.1
        rw [if_neg hi] at this
        simp only [Bool.and_eq_true] at this
        exact this.1
      obtain ⟨st', fs', hrun₂, hnx₂, hout₂⟩ :=
        fast_master_fields n N₀ S₀ hIH pf (i+1) st fs ds' hds' hgood.2 hrb.2 hcl.2
          hsrc hN hwf hext hwf0 hbel
      refine ⟨st', .vcons f fs', ?_, hnx₂, ?_⟩
      · simp only [copyFields, if_neg hi, Option.bind_eq_bind, Option.bind_eq_some,
          Option.some_bind]
        exact ⟨⟨st', fs'⟩, hrun₂, rfl⟩
      · intro S₂ hag
        simp only [readVals, Option.bind_eq_bind, Option.bind_eq_some]
        exact ⟨d, refFree_deepRead n S₀ S₂ f d hrf hd, ds', hout₂ S₂ hag, rfl⟩

theorem fast_master_list
    (n N₀ : Nat) (S₀ : Store)
    (hIH : ∀ (st : St) (v : Val) (d : DVal),
      deepRead n st.mem v = some d → good v = true → refsBelow N₀ v = true →
      closedIn st.mem v = true → srcOK N₀ st.mem → N₀ ≤ st.next →
      (∀ x, (st.mem.lookup x).isSome → x < st.next) →
      ∃ st' v', clone n false st v = some (st', v') ∧ dreadOut n st.next st' v' d) :
    ∀ (st : St) (vs : List Val) (ds : List DVal),
      readList (deepRead n S₀) vs = some ds →
      vs.all good = true → vs.all (refsBelow N₀) = true → vs.all (closedIn S₀) = true →
      srcOK N₀ st.mem → N₀ ≤ st.next →
      (∀ x, (st.mem.lookup x).isSome → x < st.next) →
      (∀ x, (S₀.lookup x).isSome → st.mem.lookup x = S₀.lookup x) →
      (∀ x, (S₀.lookup x).isSome → x < st.next) →
      (∀ x, x < N₀ → st.mem.lookup x = S₀.lookup x) →
      ∃ st' vs', cloneList (clone n false) st vs = some (st', vs') ∧
        st.next ≤ st'.next ∧ dreadOutList n st.next st' vs' ds
  | st, [], ds, hds, _, _, _, _, _, _, _, _, _ => by
    simp only [readList] at hds
    cases hds
    refine ⟨st, [], rfl, le_refl _, ?_⟩
    intro S₂ _
    rfl
  | st, v :: vs, ds, hds, hgood, hrb, hcl, hsrc, hN, hwf, hext, hwf0, hbel => by
    simp only [readList, Option.bind_eq_bind, Option.bind_eq_some] at hds
    obtain ⟨d, hd, ds', hds', h₃⟩ := hds
    cases h₃
    simp only [List.all_cons, Bool.and_eq_true] at hgood hrb hcl
    have hdm : deepRead n st.mem v = some d :=
      deepRead_frame n S₀ st.mem hext v d hd
    have hclm : closedIn st.mem v = true :=
      closedIn_below N₀ S₀ st.mem hbel v hrb.1 hcl.1
    obtain ⟨st₁, v', hrun₁, hout₁⟩ :=
      hIH st v d hdm hgood.1 hrb.1 hclm hsrc hN hwf
    obtain ⟨⟨hnx₁, hpre₁, hfr₁, _⟩, _⟩ := clone_frame n false st v st₁ v' hrun₁
    have hext₁ : ∀ x, (S₀.lookup x).isSome → st₁.mem.lookup x = S₀.lookup x := by
      intro x hx
      rw [hpre₁ x (hwf0 x hx)]
      exact hext x hx
    have hwf0₁ : ∀ x, (S₀.lookup x).isSome → x < st₁.next :=
      fun x hx => lt_of_lt_of_le (hwf0 x hx) hnx₁
    have hbel₁ : ∀ x, x < N₀ → st₁.mem.lookup x = S₀.lookup x := by
      intro x hx
      rw [hpre₁ x (lt_of_lt_of_le hx hN)]
      exact hbel x hx
    have hsrc₁ : srcOK N₀ st₁.mem :=
      srcOK_frame N₀ st.mem st₁.mem
        (fun x hx => hpre₁ x (lt_of_lt_of_le hx hN)) hsrc
    have hwf₁ : ∀ x, (st₁.mem.lookup x).isSome → x < st₁.next := by
      intro x hx
      rcases hfr₁ x hx with hx' | ⟨_, hx₂⟩
      · exact lt_of_lt_of_le (hwf x hx') hnx₁
      · exact hx₂
    obtain ⟨st', vs', hrun₂, hnx₂, hout₂⟩ :=
      fast_master_list n N₀ S₀ hIH st₁ vs ds' hds' hgood.2 hrb.2 hcl.2
        hsrc₁ (le_trans hN hnx₁) hwf₁ hext₁ hwf0₁ hbel₁
    have htail := cloneList_frame (clone n false) StExt StExt.refl
      (fun _ _ _ => StExt.trans)
      (fun s w s' w' hh => (clone_frame n false s w s' w' hh).1)
      st₁ vs st' vs' hrun₂
    refine ⟨st', v' :: vs', ?_, le_trans hnx₁ hnx₂, ?_⟩
    · simp only [cloneList, Option.bind_eq_bind, Option.bind_eq_some]
      exact ⟨⟨st₁, v'⟩, hrun₁, ⟨st', vs'⟩, hrun₂, rfl⟩
    · intro S₂ hag
      simp only [readList, Option.bind_eq_bind, Option.bind_eq_some]
      refine ⟨d, ?_, ds', hout₂ S₂ (fun x hx₁ hx₂ => hag x (le_trans hnx₁ hx₁) hx₂), rfl⟩
      refine hout₁ S₂ ?_
      intro x hx₁ hx₂
      rw [hag x hx₁ (lt_of_lt_of_le hx₂ hnx₂)]
      exact htail.2.1 x hx₂

theorem fast_master_pairs
    (n N₀ : Nat) (S₀ : Store)
    (hIH : ∀ (st : St) (v : Val) (d : DVal),
      deepRead n st.mem v = some d → good v = true → refsBelow N₀ v = true →
      closedIn st.mem v = true → srcOK N₀ st.mem → N₀ ≤ st.next →
      (∀ x, (st.mem.lookup x).isSome → x < st.next) →
      ∃ st' v', clone n false st v = some (st', v') ∧ dreadOut n st.next st' v' d) :
    ∀ (st : St) (kvs : List (Val × Val)) (ds : List (DVal × DVal)),
      readPairs (deepRead n S₀) kvs = some ds →
      (kvs.all fun kv => good kv.1 && good kv.2) = true →
      (kvs.all fun kv => refsBelow N₀ kv.1 && refsBelow N₀ kv.2) = true →
      (kvs.all fun kv => closedIn S₀ kv.1 && closedIn S₀ kv.2) = true →
      srcOK N₀ st.mem → N₀ ≤ st.next →
      (∀ x, (st.mem.lookup x).isSome → x < st.next) →
      (∀ x, (S₀.lookup x).isSome → st.mem.lookup x = S₀.lookup x) →
      (∀ x, (S₀.lookup x).isSome → x < st.next) →
      (∀ x, x < N₀ → st.mem.lookup x = S₀.lookup x) →
      ∃ st' kvs', clonePairs (clone n false) st kvs = some (st', kvs') ∧
        st.next ≤ st'.next ∧ dreadOutPairs n st.next st' kvs' ds
  | st, [], ds, hds, _, _, _, _, _, _, _, _, _ => by
    simp only [readPairs] at hds
    cases hds
    refine ⟨st, [], rfl, le_refl _, ?_⟩
    intro S₂ _
    rfl
  | st, (k, v) :: kvs, ds, hds, hgood, hrb, hcl, hsrc, hN, hwf, hext, hwf0, hbel => by
    simp only [readPairs, Option.bind_eq_bind, Option.bind_eq_some] at hds
    obtain ⟨dk, hdk, dv, hdv, ds', hds', h₃⟩ := hds
    cases h₃
    simp only [List.all_cons, Bool.and_eq_true] at hgood hrb hcl
    -- clone the key
    have hdkm : deepRead n st.mem k = some dk :=
      deepRead_frame n S₀ st.mem hext k dk hdk
    have hclk : closedIn st.mem k = true :=
      closedIn_below N₀ S₀ st.mem hbel k hrb.1.1 hcl.1.1
    obtain ⟨st₁, k', hrun₁, hout₁⟩ :=
      hIH st k dk hdkm hgood.1.1 hrb.1.1 hclk hsrc hN hwf
    obtain ⟨⟨hnx₁, hpre₁, hfr₁, _⟩, _⟩ := clone_frame n false st k st₁ k' hrun₁
    have hext₁ : ∀ x, (S₀.lookup x).isSome → st₁.mem.lookup x = S₀.lookup x := by
      intro x hx
      rw [hpre₁ x (hwf0 x hx)]
      exact hext x hx
    have hwf0₁ : ∀ x, (S₀.lookup x).isSome → x < st₁.next :=
      fun x hx => lt_of_lt_of_le (hwf0 x hx) hnx₁
    have hbel₁ : ∀ x, x < N₀ → st₁.mem.lookup x = S₀.lookup x := by
      intro x hx
      rw [hpre₁ x (lt_of_lt_of_le hx hN)]
      exact hbel x hx
    have hsrc₁ : srcOK N₀ st₁.mem :=
      srcOK_frame N₀ st.mem st₁.mem
        (fun x hx => hpre₁ x (lt_of_lt_of_le hx hN)) hsrc
    have hwf₁ : ∀ x, (st₁.mem.lookup x).isSome → x < st₁.next := by
      intro x hx
      rcases hfr₁ x hx with hx' | ⟨_, hx₂⟩
      · exact lt_of_lt_of_le (hwf x hx') hnx₁
      · exact hx₂
    -- clone the value
    have hdvm : deepRead n st₁.mem v = some dv :=
      deepRead_frame n S₀ st₁.mem hext₁ v dv hdv
    have hclv : closedIn st₁.mem v = true :=
      closedIn_below N₀ S₀ st₁.mem hbel₁ v hrb.1.2 hcl.1.2
    obtain ⟨st₂, v', hrun₂, hout₂⟩ :=
      hIH st₁ v dv hdvm hgood.1.2 hrb.1.2 hclv hsrc₁ (le_trans hN hnx₁) hwf₁
    obtain ⟨⟨hnx₂, hpre₂, hfr₂, _⟩, _⟩ := clone_frame n false st₁ v st₂ v' hrun₂
    have hext₂ : ∀ x, (S₀.lookup x).isSome → st₂.mem.lookup x = S₀.lookup x := by
      intro x hx
      rw [hpre₂ x (hwf0₁ x hx)]
      exact hext₁ x hx
    have hwf0₂ : ∀ x, (S₀.lookup x).isSome → x < st₂.next :=
      fun x hx => lt_of_lt_of_le (hwf0₁ x hx) hnx₂
    have hbel₂ : ∀ x, x < N₀ → st₂.mem.lookup x = S₀.lookup x := by
      intro x hx
      rw [hpre₂ x (lt_of_lt_of_le hx (le_trans hN hnx₁))]
      exact hbel₁ x hx
    have hsrc₂ : srcOK N₀ st₂.mem :=
      srcOK_frame N₀ st₁.mem st₂.mem
        (fun x hx => hpre₂ x (lt_of_lt_of_le hx (le_trans hN hnx₁))) hsrc₁
    have hwf₂ : ∀ x, (st₂.mem.lookup x).isSome → x < st₂.next := by
      intro x hx
      rcases hfr₂ x hx with hx' | ⟨_, hx₂⟩
      · exact lt_of_lt_of_le (hwf₁ x hx') hnx₂
      · exact hx₂
    -- tail
    obtain ⟨st', kvs', hrun₃, hnx₃, hout₃⟩ :=
      fast_master_pairs n N₀ S₀ hIH st₂ kvs ds' hds' hgood.2 hrb.2 hcl.2
        hsrc₂ (le_trans (le_trans hN hnx₁) hnx₂) hwf₂ hext₂ hwf0₂ hbel₂
    have htail := clonePairs_frame (clone n false) StExt StExt.refl
      (fun _ _ _ => StExt.trans)
      (fun s w s' w' hh => (clone_frame n false s w s' w' hh).1)
      st₂ kvs st' kvs' hrun₃
    refine ⟨st', (k', v') :: kvs', ?_, le_trans hnx₁ (le_trans hnx₂ hnx₃), ?_⟩
    · simp only [clonePairs, Option.bind_eq_bind, Option.bind_eq_some]
      exact ⟨⟨st₁, k'⟩, hrun₁, ⟨st₂, v'⟩, hrun₂, ⟨st', kvs'⟩, hrun₃, rfl⟩
    · intro S₂ hag
      simp only [readPairs, Option.bind_eq_bind, Option.bind_eq_some]
      refine ⟨dk, ?_, dv, ?_, ds',
        hout₃ S₂ (fun x hx₁ hx₂ => hag x (le_trans hnx₁ (le_trans hnx₂ hx₁)) hx₂), rfl⟩
      · refine hout₁ S₂ ?_
        intro x hx₁ hx₂
        rw [hag x hx₁ (lt_of_lt_of_le hx₂ (le_trans hnx₂ hnx₃))]
        rw [htail.2.1 x (lt_of_lt_of_le hx₂ hnx₂)]
        exact hpre₂ x hx₂
      · refine hout₂ S₂ ?_
        intro x hx₁ hx₂
        rw [hag x (le_trans hnx₁ hx₁) (lt_of_lt_of_le hx₂ hnx₃)]
        exact htail.2.1 x hx₂

theorem fast_master_elems
    (n N₀ : Nat) (S₀ : Store)
    (hIH : ∀ (st : St) (v : Val) (d : DVal),
      deepRead n st.mem v = some d → good v = true → refsBelow N₀ v = true →
      closedIn st.mem v = true → srcOK N₀ st.mem → N₀ ≤ st.next →
      (∀ x, (st.mem.lookup x).isSome → x < st.next) →
      ∃ st' v', clone n false st v = some (st', v') ∧ dreadOut n st.next st' v' d) :
    ∀ (st : St) (es : Vals) (ds : List DVal),
      readVals (deepRead n S₀) es = some ds →
      goodL es = true → refsBelowL N₀ es = true → closedInL S₀ es = true →
      srcOK N₀ st.mem → N₀ ≤ st.next →
      (∀ x, (st.mem.lookup x).isSome → x < st.next) →
      (∀ x, (S₀.lookup x).isSome → st.mem.lookup x = S₀.lookup x) →
      (∀ x, (S₀.lookup x).isSome → x < st.next) →
      (∀ x, x < N₀ → st.mem.lookup x = S₀.lookup x) →
      ∃ st' es', cloneElems (clone n false) st es = some (st', es') ∧
        st.next ≤ st'.next ∧ dreadOutVals n st.next st' es' ds
  | st, .vnil, ds, hds, _, _, _, _, _, _, _, _, _ => by
    simp only [readVals] at hds
    cases hds
    refine ⟨st, .vnil, rfl, le_refl _, ?_⟩
    intro S₂ _
    rfl
  | st, .vcons v vs, ds, hds, hgood, hrb, hcl, hsrc, hN, hwf, hext, hwf0, hbel => by
    simp only [readVals, Option.bind_eq_bind, Option.bind_eq_some] at hds
    obtain ⟨d, hd, ds', hds', h₃⟩ := hds
    cases h₃
    simp only [goodL, Bool.and_eq_true] at hgood
    simp only [refsBelowL, Bool.and_eq_true] at hrb
    simp only [closedInL, Bool.and_eq_true] at hcl
    have hdm : deepRead n st.mem v = some d :=
      deepRead_frame n S₀ st.mem hext v d hd
    have hclm : closedIn st.mem v = true :=
      closedIn_below N₀ S₀ st.mem hbel v hrb.1 hcl.1
    obtain ⟨st₁, v', hrun₁, hout₁⟩ :=
      hIH st v d hdm hgood.1 hrb.1 hclm hsrc hN hwf
    obtain ⟨⟨hnx₁, hpre₁, hfr₁, _⟩, _⟩ := clone_frame n false st v st₁ v' hrun₁
    have hext₁ : ∀ x, (S₀.lookup x).isSome → st₁.mem.lookup x = S₀.lookup x := by
      intro x hx
      rw [hpre₁ x (hwf0 x hx)]
      exact hext x hx
    have hwf0₁ : ∀ x, (S₀.lookup x).isSome → x < st₁.next :=
      fun x hx => lt_of_lt_of_le (hwf0 x hx) hnx₁
    have hbel₁ : ∀ x, x < N₀ → st₁.mem.lookup x = S₀.lookup x := by
      intro x hx
      rw [hpre₁ x (lt_of_lt_of_le hx hN)]
      exact hbel x hx
    have hsrc₁ : srcOK N₀ st₁.mem :=
      srcOK_frame N₀ st.mem st₁.mem
        (fun x hx => hpre₁ x (lt_of_lt_of_le hx hN)) hsrc
    have hwf₁ : ∀ x, (st₁.mem.lookup x).isSome → x < st₁.next := by
      intro x hx
      rcases hfr₁ x hx with hx' | ⟨_, hx₂⟩
      · exact lt_of_lt_of_le (hwf x hx') hnx₁
      · exact hx₂
    obtain ⟨st', es', hrun₂, hnx₂, hout₂⟩ :=
      fast_master_elems n N₀ S₀ hIH st₁ vs ds' hds' hgood.2 hrb.2 hcl.2
        hsrc₁ (le_trans hN hnx₁) hwf₁ hext₁ hwf0₁ hbel₁
    have htail := cloneElems_frame (clone n false) StExt StExt.refl
      (fun _ _ _ => StExt.trans)
      (fun s w s' w' hh => (clone_frame n false s w s' w' hh).1)
      st₁ vs st' es' hrun₂
    refine ⟨st', .vcons v' es', ?_, le_trans hnx₁ hnx₂, ?_⟩
    · simp only [cloneElems, Option.bind_eq_bind, Option.bind_eq_some]
      exact ⟨⟨st₁, v'⟩, hrun₁, ⟨st', es'⟩, hrun₂, rfl⟩
    · intro S₂ hag
      simp only [readVals, Option.bind_eq_bind, Option.bind_eq_some]
      refine ⟨d, ?_, ds', hout₂ S₂ (fun x hx₁ hx₂ => hag x (le_trans hnx₁ hx₁) hx₂), rfl⟩
      refine hout₁ S₂ ?_
      intro x hx₁ hx₂
      rw [hag x hx₁ (lt_of_lt_of_le hx₂ hnx₂)]
      exact htail.2.1 x hx₂

/-- Master lemma for the fast mode: on a cycle-free, well-formed input the
fast clone succeeds, and the clone's deep value — read in any store that
agrees with the final one on the freshly allocated window — equals the
source's deep value. -/
theorem fast_master : ∀ (n N₀ : Nat) (st : St) (v : Val) (d : DVal),
    deepRead n st.mem v = some d → good v = true → refsBelow N₀ v = true →
    closedIn st.mem v = true → srcOK N₀ st.mem → N₀ ≤ st.next →
    (∀ x, (st.mem.lookup x).isSome → x < st.next) →
    ∃ st' v', clone n false st v = some (st', v') ∧ dreadOut n st.next st' v' d
  | 0, _, _, _, _, hdr, _, _, _, _, _, _ => by simp [deepRead] at hdr
  | n+1, N₀, st, v, d, hdr, hgood, hrb, hcl, hsrc, hN, hwf => by
    have hIH := fun st v d h1 h2 h3 h4 h5 h6 h7 =>
      fast_master n N₀ st v d h1 h2 h3 h4 h5 h6 h7
    cases v with
    | scalarV k =>
      simp only [deepRead] at hdr
      exact ⟨st, .scalarV k, rfl, fun S₂ _ => hdr⟩
    | chanV c =>
      simp only [deepRead] at hdr
      exact ⟨st, .chanV c, rfl, fun S₂ _ => hdr⟩
    | ptrV e oa =>
      cases oa with
      | none =>
        simp only [deepRead] at hdr
        exact ⟨st, .ptrV e none, rfl, fun S₂ _ => hdr⟩
      | some a =>
        rw [deepRead_eq_ptr] at hdr
        simp only [Option.bind_eq_some] at hdr
        obtain ⟨w, hw, d', hd', h₃⟩ := hdr
        cases h₃
        have hwcell : st.mem.lookup a = some (.cPtr w) := (derefPtr_eq_some _ _ _).mp hw
        simp only [refsBelow, decide_eq_true_eq] at hrb
        obtain ⟨hgw, hrbw, hclw⟩ := hsrc a (.cPtr w) hrb hwcell
        -- child state
        have hb := hwf a (by simp [hwcell])
        set b := st.next with hbdef
        have hext₁ : ∀ x, (st.mem.lookup x).isSome →
            (setCell b (Cell.cPtr (zeroVal e)) st.mem).lookup x = st.mem.lookup x := by
          intro x hx
          exact lookup_setCell_ne _ _ _ _ (Nat.ne_of_lt (hwf x hx))
        have hdm : deepRead n (setCell b (Cell.cPtr (zeroVal e)) st.mem) w = some d' :=
          deepRead_frame n st.mem _ hext₁ w d' hd'
        have hclm : closedIn (setCell b (Cell.cPtr (zeroVal e)) st.mem) w = true :=
          closedIn_below N₀ st.mem _
            (fun x hx => lookup_setCell_ne _ _ _ _ (Nat.ne_of_lt (lt_of_lt_of_le hx hN)))
            w hrbw hclw
        have hsrc₁ : srcOK N₀ (setCell b (Cell.cPtr (zeroVal e)) st.mem) :=
          srcOK_frame N₀ st.mem _
            (fun x hx => lookup_setCell_ne _ _ _ _ (Nat.ne_of_lt (lt_of_lt_of_le hx hN)))
            hsrc
        have hwf₁ : ∀ x, ((setCell b (Cell.cPtr (zeroVal e)) st.mem).lookup x).isSome →
            x < b + 1 := by
          intro x hx
          by_cases hxb : x = b
          · omega
          · rw [lookup_setCell_ne _ _ _ _ hxb] at hx
            have := hwf x hx
            omega
        obtain ⟨st₂, w', hrun₂, hout₂⟩ :=
          hIH ⟨setCell b (Cell.cPtr (zeroVal e)) st.mem, b + 1, st.vis⟩ w d'
            hdm hgw hrbw hclm hsrc₁ (show N₀ ≤ b + 1 by omega) hwf₁
        have hfr₂ : b + 1 ≤ st₂.next := (clone_frame n false _ w st₂ w' hrun₂).1.1
        refine ⟨⟨setCell b (.cPtr w') st₂.mem, st₂.next, st₂.vis⟩, .ptrV e (some b),
          ?_, ?_⟩
        · rw [clone_fast_ptr, hw]
          simp only [Option.some_bind, hrun₂]
        · intro S₂ hag
          have hb₂ : b < st₂.next := by omega
          rw [deepRead_eq_ptr]
          have hlb : S₂.lookup b = some (.cPtr w') := by
            rw [hag b (le_refl _) hb₂]
            exact lookup_setCell_self _ _ _
          rw [(derefPtr_eq_some S₂ b w').mpr hlb]
          simp only [Option.some_bind]
          have hrd : deepRead n S₂ w' = some d' := by
            refine hout₂ S₂ ?_
            intro x hx₁ hx₂
            have hx₁' : b + 1 ≤ x := hx₁
            have hxb : x ≠ b := by omega
            rw [hag x (by omega) hx₂]
            exact lookup_setCell_ne _ _ _ _ hxb
          rw [hrd]
          rfl
    | sliceV e or =>
      cases or with
      | none =>
        simp only [deepRead] at hdr
        exact ⟨st, .sliceV e none, rfl, fun S₂ _ => hdr⟩
      | some r =>
        obtain ⟨a, len, cap⟩ := r
        rw [deepRead_eq_slice] at hdr
        simp only [Option.bind_eq_some] at hdr
        obtain ⟨vs, hvs, ds, hds, h₃⟩ := hdr
        cases h₃
        have hvcell : st.mem.lookup a = some (.cSeq vs) := (derefSeq_eq_some _ _ _).mp hvs
        simp only [refsBelow, decide_eq_true_eq] at hrb
        obtain ⟨hgc, hrbc, hclc⟩ := hsrc a (.cSeq vs) hrb hvcell
        simp only [closedIn, hvcell, Bool.and_eq_true, decide_eq_true_eq,
          Bool.or_eq_true, Bool.not_eq_true'] at hcl
        obtain ⟨hlen, hscrf⟩ := hcl
        set b := st.next with hbdef
        by_cases hsc : isScalar e
        · -- bulk copy of a scalar slice
          have hrf : (vs.take len).all refFree = true := by
            rcases hscrf with h | h
            · rw [hsc] at h
              cases h
            · exact h
          clear hscrf
          refine ⟨⟨setCell b
            (.cSeq (vs.take len ++ List.replicate (cap - len) (zeroVal e)))
            (setCell b (.cSeq []) st.mem), b + 1, st.vis⟩,
            .sliceV e (some (b, len, cap)), ?_, ?_⟩
          · rw [clone_fast_slice, hvs]
            simp only [Option.some_bind, if_pos hsc]
          · intro S₂ hag
            rw [deepRead_eq_slice]
            have hlb : S₂.lookup b = some (.cSeq
                (vs.take len ++ List.replicate (cap - len) (zeroVal e))) := by
              rw [hag b (le_refl _) (Nat.lt_succ_self b)]
              exact lookup_setCell_self _ _ _
            rw [(derefSeq_eq_some S₂ b _).mpr hlb]
            simp only [Option.some_bind]
            have htake : (vs.take len ++ List.replicate (cap - len) (zeroVal e)).take len
                = vs.take len := by
              rw [List.take_append_of_le_length (by rw [List.length_take]; omega)]
              rw [List.take_take, min_self]
            rw [htake]
            have : readList (deepRead n S₂) (vs.take len) = some ds := by
              refine readList_refFree _ _ ?_ _ _ hrf hds
              intro v hv d' hd'
              exact refFree_deepRead n st.mem S₂ v d' hv hd'
            rw [this]
            rfl
        · -- element-wise clone
          have hgl : (vs.take len).all good = true := by
            simp only [goodCell, List.all_eq_true] at hgc
            simp only [List.all_eq_true]
            exact fun v hv => hgc v (List.mem_of_mem_take hv)
          have hrbl : (vs.take len).all (refsBelow N₀) = true := by
            simp only [refsBelowCell, List.all_eq_true] at hrbc
            simp only [List.all_eq_true]
            exact fun v hv => hrbc v (List.mem_of_mem_take hv)
          have hcll : (vs.take len).all (closedIn st.mem) = true := by
            simp only [closedCell, List.all_eq_true] at hclc
            simp only [List.all_eq_true]
            exact fun v hv => hclc v (List.mem_of_mem_take hv)
          have hext₁ : ∀ x, (st.mem.lookup x).isSome →
              (setCell b (Cell.cSeq []) st.mem).lookup x = st.mem.lookup x :=
            fun x hx => lookup_setCell_ne _ _ _ _ (Nat.ne_of_lt (hwf x hx))
          have hds₁ : readList (deepRead n (setCell b (Cell.cSeq []) st.mem))
              (vs.take len) = some ds :=
            readList_imp _ _ (fun w d' hd' => deepRead_frame n st.mem _ hext₁ w d' hd')
              _ ds hds
          have hcl₁ : (vs.take len).all (closedIn (setCell b (Cell.cSeq []) st.mem))
              = true := by
            simp only [List.all_eq_true] at hcll ⊢
            intro v hv
            refine closedIn_below N₀ st.mem _
              (fun x hx => lookup_setCell_ne _ _ _ _ (Nat.ne_of_lt (lt_of_lt_of_le hx hN)))
              v ?_ (hcll v hv)
            simp only [List.all_eq_true] at hrbl
            exact hrbl v hv
          have hsrc₁ : srcOK N₀ (setCell b (Cell.cSeq []) st.mem) :=
            srcOK_frame N₀ st.mem _
              (fun x hx => lookup_setCell_ne _ _ _ _ (Nat.ne_of_lt (lt_of_lt_of_le hx hN)))
              hsrc
          have hwf₁ : ∀ x, ((setCell b (Cell.cSeq []) st.mem).lookup x).isSome →
              x < b + 1 := by
            intro x hx
            by_cases hxb : x = b
            · omega
            · rw [lookup_setCell_ne _ _ _ _ hxb] at hx
              have := hwf x hx
              omega
          obtain ⟨st₂, es', hrun₂, hnx₂, hout₂⟩ :=
            fast_master_list n N₀ (setCell b (Cell.cSeq []) st.mem) hIH
              ⟨setCell b (Cell.cSeq []) st.mem, b + 1, st.vis⟩ (vs.take len) ds
              hds₁ hgl hrbl hcl₁ hsrc₁ (show N₀ ≤ b + 1 by omega) hwf₁
              (fun x _ => rfl) (fun x hx => hwf₁ x hx) (fun x _ => rfl)
          have hlen' : es'.length = len := by
            rw [cloneList_length _ _ _ _ _ hrun₂, List.length_take]
            omega
          refine ⟨⟨setCell b (.cSeq (es' ++ List.replicate (cap - len) (zeroVal e)))
            st₂.mem, st₂.next, st₂.vis⟩, .sliceV e (some (b, len, cap)), ?_, ?_⟩
          · rw [clone_fast_slice, hvs]
            simp only [Option.some_bind, if_neg hsc, hrun₂, Option.bind_eq_bind]
          · intro S₂ hag
            have hnx₂' : b + 1 ≤ st₂.next := hnx₂
            have hb₂ : b < st₂.next := by omega
            rw [deepRead_eq_slice]
            have hlb : S₂.lookup b = some (.cSeq
                (es' ++ List.replicate (cap - len) (zeroVal e))) := by
              rw [hag b (le_refl _) hb₂]
              exact lookup_setCell_self _ _ _
            rw [(derefSeq_eq_some S₂ b _).mpr hlb]
            simp only [Option.some_bind]
            have htake : (es' ++ List.replicate (cap - len) (zeroVal e)).take len = es' := by
              rw [List.take_append_of_le_length (le_of_eq hlen'.symm)]
              rw [show len = es'.length from hlen'.symm, List.take_length]
            rw [htake]
            have hrd : readList (deepRead n S₂) es' = some ds := by
              refine hout₂ S₂ ?_
              intro x hx₁ hx₂
              have hx₁' : b + 1 ≤ x := hx₁
              have hxb : x ≠ b := by omega
              rw [hag x (by omega) hx₂]
              exact lookup_setCell_ne _ _ _ _ hxb
            rw [hrd]
            rfl
    | mapV kt vt oa =>
      cases oa with
      | none =>
        simp only [deepRead] at hdr
        exact ⟨st, .mapV kt vt none, rfl, fun S₂ _ => hdr⟩
      | some a =>
        rw [deepRead_eq_map] at hdr
        simp only [Option.bind_eq_some] at hdr
        obtain ⟨kvs, hkv, ds, hds, h₃⟩ := hdr
        cases h₃
        have hvcell : st.mem.lookup a = some (.cMap kvs) := (derefMap_eq_some _ _ _).mp hkv
        simp only [refsBelow, decide_eq_true_eq] at hrb
        obtain ⟨hgc, hrbc, hclc⟩ := hsrc a (.cMap kvs) hrb hvcell
        set b := st.next with hbdef
        have hext₁ : ∀ x, (st.mem.lookup x).isSome →
            (setCell b (Cell.cMap []) st.mem).lookup x = st.mem.lookup x :=
          fun x hx => lookup_setCell_ne _ _ _ _ (Nat.ne_of_lt (hwf x hx))
        have hds₁ : readPairs (deepRead n (setCell b (Cell.cMap []) st.mem)) kvs
            = some ds :=
          readPairs_imp _ _ (fun w d' hd' => deepRead_frame n st.mem _ hext₁ w d' hd')
            kvs ds hds
        have hcl₁ : (kvs.all fun kv => closedIn (setCell b (Cell.cMap []) st.mem) kv.1 &&
            closedIn (setCell b (Cell.cMap []) st.mem) kv.2) = true := by
          simp only [closedCell, List.all_eq_true, Bool.and_eq_true] at hclc ⊢
          simp only [refsBelowCell, List.all_eq_true, Bool.and_eq_true] at hrbc
          intro kv hkv'
          have hagb : ∀ x, x < N₀ →
              (setCell b (Cell.cMap []) st.mem).lookup x = st.mem.lookup x :=
            fun x hx => lookup_setCell_ne _ _ _ _ (Nat.ne_of_lt (lt_of_lt_of_le hx hN))
          exact ⟨closedIn_below N₀ st.mem _ hagb kv.1 (hrbc kv hkv').1 (hclc kv hkv').1,
            closedIn_below N₀ st.mem _ hagb kv.2 (hrbc kv hkv').2 (hclc kv hkv').2⟩
        have hsrc₁ : srcOK N₀ (setCell b (Cell.cMap []) st.mem) :=
          srcOK_frame N₀ st.mem _
            (fun x hx => lookup_setCell_ne _ _ _ _ (Nat.ne_of_lt (lt_of_lt_of_le hx hN)))
            hsrc
        have hwf₁ : ∀ x, ((setCell b (Cell.cMap []) st.mem).lookup x).isSome →
            x < b + 1 := by
          intro x hx
          by_cases hxb : x = b
          · omega
          · rw [lookup_setCell_ne _ _ _ _ hxb] at hx
            have := hwf x hx
            omega
        obtain ⟨st₂, kvs', hrun₂, hnx₂, hout₂⟩ :=
          fast_master_pairs n N₀ (setCell b (Cell.cMap []) st.mem) hIH
            ⟨setCell b (Cell.cMap []) st.mem, b + 1, st.vis⟩ kvs ds
            hds₁ (by simpa [goodCell] using hgc)
            (by simpa [refsBelowCell] using hrbc) hcl₁ hsrc₁
            (show N₀ ≤ b + 1 by omega) hwf₁
            (fun x _ => rfl) (fun x hx => hwf₁ x hx) (fun x _ => rfl)
        refine ⟨⟨setCell b (.cMap kvs') st₂.mem, st₂.next, st₂.vis⟩,
          .mapV kt vt (some b), ?_, ?_⟩
        · rw [clone_fast_map, hkv]
          simp only [Option.some_bind, hrun₂, Option.bind_eq_bind]
        · intro S₂ hag
          have hnx₂' : b + 1 ≤ st₂.next := hnx₂
          have hb₂ : b < st₂.next := by omega
          rw [deepRead_eq_map]
          have hlb : S₂.lookup b = some (.cMap kvs') := by
            rw [hag b (le_refl _) hb₂]
            exact lookup_setCell_self _ _ _
          rw [(derefMap_eq_some S₂ b _).mpr hlb]
          simp only [Option.some_bind]
          have hrd : readPairs (deepRead n S₂) kvs' = some ds := by
            refine hout₂ S₂ ?_
            intro x hx₁ hx₂
            have hx₁' : b + 1 ≤ x := hx₁
            have hxb : x ≠ b := by omega
            rw [hag x (by omega) hx₂]
            exact lookup_setCell_ne _ _ _ _ hxb
          rw [hrd]
          rfl
    | structV fts fs =>
      rw [deepRead_eq_struct] at hdr
      simp only [Option.bind_eq_some] at hdr
      obtain ⟨ds, hds, h₃⟩ := hdr
      cases h₃
      simp only [good, Bool.and_eq_true] at hgood
      simp only [refsBelow] at hrb
      simp only [closedIn] at hcl
      -- goodFields needs closedInL in List form?  closedInL is fine as is
      obtain ⟨st', fs', hrun, hnx, hout⟩ :=
        fast_master_fields n N₀ st.mem hIH (loadStructType fts).PointerFields 0 st fs ds
          hds hgood.2 hrb
          (by
            -- closedInL st.mem fs, as needed with S₀ := st.mem
            exact hcl)
          hsrc hN hwf (fun x _ => rfl) (fun x hx => hwf x hx) (fun x _ => rfl)
      refine ⟨st', .structV fts fs', ?_, ?_⟩
      · rw [clone_eq_struct]
        simp only [hrun, Option.some_bind]
      · intro S₂ hag
        rw [deepRead_eq_struct]
        rw [hout S₂ hag]
        rfl
    | arrayV e es =>
      rw [deepRead_eq_array] at hdr
      simp only [Option.bind_eq_some] at hdr
      obtain ⟨ds, hds, h₃⟩ := hdr
      cases h₃
      simp only [good, Bool.and_eq_true] at hgood
      simp only [refsBelow] at hrb
      simp only [closedIn] at hcl
      by_cases hsc : isScalar e
      · have hrf : refFreeL es = true := by
          have := hgood.1
          rwa [if_pos hsc] at this
        refine ⟨st, .arrayV e es, ?_, ?_⟩
        · rw [clone_eq_array, if_pos hsc]
        · intro S₂ hag
          rw [deepRead_eq_array]
          have : readVals (deepRead n S₂) es = some ds := by
            refine readVals_refFree _ _ ?_ es ds hrf hds
            intro v hv d' hd'
            exact refFree_deepRead n st.mem S₂ v d' hv hd'
          rw [this]
          rfl
      · obtain ⟨st', es', hrun, hnx, hout⟩ :=
          fast_master_elems n N₀ st.mem hIH st es ds hds hgood.2 hrb hcl
            hsrc hN hwf (fun x _ => rfl) (fun x hx => hwf x hx) (fun x _ => rfl)
        refine ⟨st', .arrayV e es', ?_, ?_⟩
        · rw [clone_eq_array, if_neg hsc]
          simp only [hrun, Option.bind_eq_bind, Option.some_bind]
        · intro S₂ hag
          rw [deepRead_eq_array]
          rw [hout S₂ hag]
          rfl

/-- C1: for every cycle-free, well-formed value `v` (cycle-freedom is
witnessed by `deepRead` succeeding with some fuel; well-formedness says the
heap has no dangling references, values are well-typed for the classifier's
elision decisions, and all cells live below the allocation counter `N`),
the fast-path `clone` (i) succeeds, (ii) returns a value deep-value-equal
to `v`, (iii) mutating any cell the clone can possibly reference (all of
them are freshly allocated, at addresses `≥ N`) never changes `v`'s deep
value, and (iv) mutating any of the original cells (below `N`) never
changes the clone's deep value. -/
theorem Clone_roundtrip_isolation
    (S : Store) (v : Val) (d : DVal) (n N : Nat)
    (hdr : deepRead n S v = some d)
    (hgood : good v = true) (hrb : refsBelow N v = true)
    (hcl : closedIn S v = true) (hsrc : srcOK N S)
    (hwf : ∀ x, (S.lookup x).isSome → x < N) :
    ∃ st' v', clone n false ⟨S, N, []⟩ v = some (st', v') ∧
      deepRead n st'.mem v' = some d ∧
      (∀ b c, N ≤ b → deepRead n (setCell b c st'.mem) v = some d) ∧
      (∀ a c, a < N → deepRead n (setCell a c st'.mem) v' = some d) := by
  obtain ⟨st', v', hrun, hout⟩ :=
    fast_master n N ⟨S, N, []⟩ v d hdr hgood hrb hcl hsrc (le_refl N)
      (fun x hx => hwf x hx)
  have hpre := (clone_frame n false ⟨S, N, []⟩ v st' v' hrun).1.2.1
  refine ⟨st', v', hrun, ?_, ?_, ?_⟩
  · exact hout st'.mem (fun _ _ _ => rfl)
  · intro b c hb
    refine deepRead_frame n S _ ?_ v d hdr
    intro x hx
    have hxN : x < N := hwf x hx
    rw [lookup_setCell_ne _ _ _ _ (by omega)]
    exact hpre x hxN
  · intro a c ha
    refine hout _ ?_
    intro x hx₁ hx₂
    have hxN : N ≤ x := hx₁
    exact lookup_setCell_ne _ _ _ _ (by omega)

/-- In the fast mode, a successful clone of a non-nil pointer always
allocates its new referent at the current allocation counter. -/
theorem clone_fast_ptr_shape (n : Nat) (st : St) (e : Ty) (a : Nat)
    (st' : St) (w : Val) (h : clone (n+1) false st (.ptrV e (some a)) = some (st', w)) :
    w = .ptrV e (some st.next) ∧ st.next < st'.next := by
  rw [clone_fast_ptr] at h
  simp only [Option.bind_eq_some] at h
  obtain ⟨w₀, hd, ⟨st₂, w'⟩, h₁, h₂⟩ := h
  cases h₂
  have hn : st.next + 1 ≤ st₂.next := (clone_frame n false _ w₀ st₂ w' h₁).1.1
  exact ⟨rfl, show st.next < st₂.next by omega⟩

/-- C10: the fast path preserves no aliasing: cloning a struct whose two
pointer fields hold the *same* non-nil pointer produces two *distinct*
freshly allocated referents, because no visit map is consulted in the fast
mode.  (The two fields are both listed in `PointerFields`, and each
successful pointer clone allocates a new cell.) -/
theorem Clone_fast_no_aliasing
    (n : Nat) (st : St) (e : Ty) (a : Nat) (st' : St) (v' : Val)
    (h : clone (n+2) false st
      (.structV (.tcons (.ptrT e) (.tcons (.ptrT e) .tnil))
        (.vcons (.ptrV e (some a)) (.vcons (.ptrV e (some a)) .vnil))) = some (st', v')) :
    ∃ b₁ b₂, v' = .structV (.tcons (.ptrT e) (.tcons (.ptrT e) .tnil))
      (.vcons (.ptrV e (some b₁)) (.vcons (.ptrV e (some b₂)) .vnil)) ∧ b₁ ≠ b₂ := by
  rw [clone_eq_struct] at h
  simp only [Option.bind_eq_some] at h
  obtain ⟨⟨st₂, fs'⟩, h₁, h₂⟩ := h
  cases h₂
  have hpf : (loadStructType (.tcons (.ptrT e) (.tcons (.ptrT e) .tnil))).PointerFields
      = [0, 1] := rfl
  rw [hpf] at h₁
  simp only [copyFields, if_pos (show (0 : Nat) ∈ [0, 1] by decide),
    if_pos (show (1 : Nat) ∈ [0, 1] by decide),
    Option.bind_eq_bind, Option.bind_eq_some] at h₁
  obtain ⟨⟨st₁, f₁⟩, hf₁, ⟨stm, fsm⟩, hm, hmm⟩ := h₁
  obtain ⟨⟨stb, f₂⟩, hf₂, ⟨stc, fsc⟩, hc, hcc⟩ := hm
  simp only [copyFields] at hc
  cases hc
  cases hcc
  cases hmm
  obtain ⟨he₁, hlt₁⟩ := clone_fast_ptr_shape n st e a st₁ f₁ hf₁
  obtain ⟨he₂, hlt₂⟩ := clone_fast_ptr_shape n st₁ e a stb f₂ hf₂
  subst he₁
  subst he₂
  exact ⟨st.next, st₁.next, rfl, by omega⟩

/-! ## C9: the registry entry points -/

theorem assocLookup_delete {α : Type} (t : Ty) : ∀ l : List (Ty × α),
    assocLookup (assocDelete t l) t = none := by
  intro l
  induction l with
  | nil => rfl
  | cons p l ih =>
    obtain ⟨k, x⟩ := p
    simp only [assocDelete, List.filter_cons] at ih ⊢
    by_cases hk : k = t
    · rw [if_neg (by simp [hk])]
      exact ih
    · rw [if_pos (by simp [hk])]
      simp only [assocLookup]
      rw [if_neg (fun h => hk h.symm)]
      exact ih

/-- C9: each registry mutation entry point is a silent no-op when its
argument has the wrong shape — `MarkAsScalar` ignores any type that is not
a struct or (iterated) pointer to struct, `MarkAsOpaquePointer` ignores any
non-pointer type, `SetCustomFunc` with a non-nil function ignores any type
that is not a struct or pointer to struct — and `SetCustomFunc` with a nil
function removes the registered custom function under the given type key. -/
theorem registry_noops :
    (∀ (al : Allocator) (t : Ty), isStructTy (stripPtr t) = false →
      MarkAsScalar al t = al) ∧
    (∀ (al : Allocator) (t : Ty), isPtrTy t = false →
      MarkAsOpaquePointer al t = al) ∧
    (∀ (al : Allocator) (t : Ty) (f : Nat), isStructTy (stripPtr t) = false →
      SetCustomFunc al t (some f) = al) ∧
    (∀ (al : Allocator) (t : Ty),
      assocLookup (SetCustomFunc al t none).cachedCustomFuncTypes t = none) := by
  refine ⟨?_, ?_, ?_, ?_⟩
  · intro al t h
    simp only [MarkAsScalar]
    rw [if_neg (by simp [h])]
  · intro al t h
    simp only [MarkAsOpaquePointer]
    rw [if_neg (by simp [h])]
  · intro al t f h
    simp only [SetCustomFunc]
    rw [if_neg (by simp [h])]
  · intro al t
    simp only [SetCustomFunc]
    exact assocLookup_delete t al.cachedCustomFuncTypes

/-! ## C5: custom-function re-entrancy -/

theorem cloneFieldsCustom_mono (g g' : Val → Option Val)
    (hgg : ∀ v r, g v = some r → g' v = some r) :
    ∀ (fs : Vals) (r : Vals), cloneFieldsCustom g fs = some r → cloneFieldsCustom g' fs = some r
  | .vnil, r, h => h
  | .vcons f fs, r, h => by
    simp only [cloneFieldsCustom, Option.bind_eq_bind, Option.bind_eq_some] at h ⊢
    obtain ⟨f', hf, fs', hfs, h₃⟩ := h
    exact ⟨f', hgg f f' hf, fs', cloneFieldsCustom_mono g g' hgg fs fs' hfs, h₃⟩

theorem cloneWithCustom_mono : ∀ (n m : Nat), n ≤ m →
    ∀ (reg : List Ty) (skip : Option Val) (v : Val) (r : Val),
      cloneWithCustom n reg skip v = some r → cloneWithCustom m reg skip v = some r
  | 0, m, _, reg, skip, v, r, h => by simp [cloneWithCustom] at h
  | n+1, m, hnm, reg, skip, v, r, h => by
    obtain ⟨m', rfl⟩ : ∃ m', m = m' + 1 := ⟨m - 1, by omega⟩
    have hnm' : n ≤ m' := by omega
    have hgg : ∀ skip v r, cloneWithCustom n reg skip v = some r →
        cloneWithCustom m' reg skip v = some r :=
      fun skip v r hh => cloneWithCustom_mono n m' hnm' reg skip v r hh
    cases v with
    | structV fts fs =>
      simp only [cloneWithCustom] at h ⊢
      by_cases hc : (Ty.structT fts) ∈ reg ∧ skip ≠ some (Val.structV fts fs)
      · rw [if_pos hc] at h ⊢
        exact hgg _ _ _ h
      · rw [if_neg hc] at h ⊢
        cases hfs : cloneFieldsCustom (cloneWithCustom n reg skip) fs with
        | none => rw [hfs] at h; cases h
        | some fs' =>
          rw [hfs] at h
          rw [cloneFieldsCustom_mono _ _ (fun v r hh => hgg skip v r hh) fs fs' hfs]
          exact h
    | scalarV k => exact h
    | chanV c => exact h
    | ptrV e oa => exact h
    | sliceV e or => exact h
    | mapV kt vt oa => exact h
    | arrayV e es => exact h

theorem cloneFieldsCustom_total (s : Nat) (reg : List Ty)
    (ih : ∀ v, sizeV v ≤ s → ∀ skip : Option Val,
      ∃ n, (cloneWithCustom n reg skip v).isSome) :
    ∀ fs : Vals, sizeVL fs ≤ s → ∀ skip : Option Val,
      ∃ n, (cloneFieldsCustom (cloneWithCustom n reg skip) fs).isSome
  | .vnil, _, skip => ⟨1, rfl⟩
  | .vcons f fs, hsz, skip => by
    simp only [sizeVL] at hsz
    obtain ⟨n₁, h₁⟩ := ih f (by omega) skip
    obtain ⟨n₂, h₂⟩ := cloneFieldsCustom_total s reg ih fs (by omega) skip
    obtain ⟨f', hf'⟩ := Option.isSome_iff_exists.mp h₁
    obtain ⟨fs', hfs'⟩ := Option.isSome_iff_exists.mp h₂
    refine ⟨max n₁ n₂, ?_⟩
    simp only [cloneFieldsCustom, Option.bind_eq_bind]
    rw [cloneWithCustom_mono n₁ (max n₁ n₂) (le_max_left _ _) _ _ _ _ hf']
    simp only [Option.some_bind]
    rw [cloneFieldsCustom_mono _ _
      (fun v r hh => cloneWithCustom_mono n₂ (max n₁ n₂) (le_max_right _ _) _ _ _ _ hh)
      fs fs' hfs']
    rfl

/-- C5: while a value is inside its own custom clone function, a nested
clone request for that same value bypasses the custom function — the
excluded-value slot set by `Allocator.clone` makes the engine take the
default field-by-field copy — and consequently an override that clones its
own input terminates on every (finite) value: some fuel always suffices. -/
theorem customFunc_reentrancy :
    (∀ (n : Nat) (reg : List Ty) (fts : Tys) (fs : Vals),
      (Ty.structT fts) ∈ reg →
      cloneWithCustom (n+2) reg none (.structV fts fs) =
        Option.map (Val.structV fts)
          (cloneFieldsCustom (cloneWithCustom n reg (some (.structV fts fs))) fs)) ∧
    (∀ (v : Val) (reg : List Ty) (skip : Option Val),
      ∃ n, (cloneWithCustom n reg skip v).isSome) := by
  constructor
  · intro n reg fts fs hreg
    have h₁ : cloneWithCustom (n+2) reg none (.structV fts fs) =
        cloneWithCustom (n+1) reg (some (.structV fts fs)) (.structV fts fs) := by
      simp only [cloneWithCustom]
      rw [if_pos ⟨hreg, by simp⟩]
    rw [h₁]
    have h₂ : ¬((Ty.structT fts) ∈ reg ∧
        (some (Val.structV fts fs) : Option Val) ≠ some (.structV fts fs)) := by
      rintro ⟨_, hne⟩
      exact hne rfl
    simp only [cloneWithCustom]
    rw [if_neg h₂]
    cases cloneFieldsCustom (cloneWithCustom n reg (some (.structV fts fs))) fs with
    | none => rfl
    | some fs' => rfl
  · -- termination by structural induction on the value (via its size)
    have main : ∀ (s : Nat) (v : Val), sizeV v ≤ s → ∀ (reg : List Ty) (skip : Option Val),
        ∃ n, (cloneWithCustom n reg skip v).isSome := by
      intro s
      induction s with
      | zero =>
        intro v hv
        cases v <;> simp [sizeV] at hv
      | succ s ih =>
        have fields : ∀ (reg : List Ty) (fs : Vals), sizeVL fs ≤ s → ∀ skip : Option Val,
            ∃ n, (cloneFieldsCustom (cloneWithCustom n reg skip) fs).isSome :=
          fun reg fs hsz skip =>
            cloneFieldsCustom_total s reg (fun v hv skip' => ih v hv reg skip') fs hsz skip
        intro v hv reg skip
        cases v with
        | structV fts fs =>
          simp only [sizeV] at hv
          by_cases hc : (Ty.structT fts) ∈ reg ∧ skip ≠ some (Val.structV fts fs)
          · -- override fires, then the nested call takes the default path
            obtain ⟨n₀, h₀⟩ :=
              fields reg fs (by omega) (some (.structV fts fs))
            obtain ⟨fs', hfs'⟩ := Option.isSome_iff_exists.mp h₀
            refine ⟨n₀ + 2, ?_⟩
            simp only [cloneWithCustom]
            rw [if_pos hc]
            rw [if_neg (by rintro ⟨_, hne⟩; exact hne rfl)]
            rw [hfs']
            rfl
          · obtain ⟨n₀, h₀⟩ := fields reg fs (by omega) skip
            obtain ⟨fs', hfs'⟩ := Option.isSome_iff_exists.mp h₀
            refine ⟨n₀ + 1, ?_⟩
            simp only [cloneWithCustom]
            rw [if_neg hc]
            rw [hfs']
            rfl
        | scalarV k => exact ⟨1, rfl⟩
        | chanV c => exact ⟨1, rfl⟩
        | ptrV e oa => exact ⟨1, rfl⟩
        | sliceV e or => exact ⟨1, rfl⟩
        | mapV kt vt oa => exact ⟨1, rfl⟩
        | arrayV e es => exact ⟨1, rfl⟩
    intro v reg skip
    exact main (sizeV v) v (le_refl _) reg skip

/-! ## C6: the wrapper facade -/

theorem lookupTable_cons_self (b : Nat) (v : Val) (l : List (Nat × Val)) :
    lookupTable ((b, v) :: l) b = some v := by
  simp [lookupTable]

/-- C6: `Unwrap` after `Wrap` returns the original pointer itself (the
wrapper table maps the fresh pointer produced by the fast clone back to the
retained original), and `Unwrap` on any value that is not a wrapper output
— any non-pointer, or a pointer whose identity is not a table key — returns
its argument unchanged. -/
theorem Unwrap_Wrap_identity :
    (∀ (n : Nat) (w : WrapSt) (fts : Tys) (b : Nat) (w' : WrapSt) (v' : Val),
      lookupTable w.table b = none →
      Wrap n w (.ptrV (.structT fts) (some b)) = some (w', v') →
      Unwrap w' v' = .ptrV (.structT fts) (some b)) ∧
    (∀ (w : WrapSt) (v : Val),
      (∀ e b, v = .ptrV e (some b) → lookupTable w.table b = none) →
      Unwrap w v = v) := by
  constructor
  · intro n w fts b w' v' hl hw
    simp only [Wrap, hl] at hw
    cases hc : clone n false w.heap (.ptrV (.structT fts) (some b)) with
    | none => rw [hc] at hw; cases hw
    | some p =>
      obtain ⟨st', vc⟩ := p
      rw [hc] at hw
      cases vc with
      | ptrV e' oa =>
        cases oa with
        | none => cases hw
        | some b' =>
          cases hw
          simp only [Unwrap]
          rw [lookupTable_cons_self]
      | scalarV k => cases hw
      | chanV c => cases hw
      | sliceV e r => cases hw
      | mapV kt vt a => cases hw
      | structV fts' fs => cases hw
      | arrayV e es => cases hw
  · intro w v hv
    cases v with
    | ptrV e oa =>
      cases oa with
      | none => rfl
      | some b =>
        simp only [Unwrap]
        rw [hv e b rfl]
    | scalarV k => rfl
    | chanV c => rfl
    | sliceV e r => rfl
    | mapV kt vt a => rfl
    | structV fts fs => rfl
    | arrayV e es => rfl

/-! ## Properties of the simulation relation -/

mutual
theorem sim_mono (V V' : List (VKey × Val))
    (hvv : ∀ k tv, lookupVis V k = some tv → lookupVis V' k = some tv) :
    ∀ v w : Val, sim V v w = true → sim V' v w = true
  | .scalarV k, w, h => h
  | .chanV c, w, h => h
  | .ptrV e none, w, h => h
  | .ptrV e (some a), w, h => by
    simp only [sim, beq_iff_eq] at h ⊢
    exact hvv _ _ h
  | .sliceV e none, w, h => h
  | .sliceV e (some (a, len, cap)), w, h => by
    simp only [sim, beq_iff_eq] at h ⊢
    exact hvv _ _ h
  | .mapV kt vt none, w, h => h
  | .mapV kt vt (some a), w, h => by
    simp only [sim, beq_iff_eq] at h ⊢
    exact hvv _ _ h
  | .structV fts fs, w, h => by
    cases w with
    | structV fts' gs =>
      simp only [sim, Bool.and_eq_true] at h ⊢
      exact ⟨h.1, simFields_mono V V' hvv _ 0 fs gs h.2⟩
    | scalarV k => exact h
    | chanV c => exact h
    | ptrV e oa => exact h
    | sliceV e r => exact h
    | mapV kt vt oa => exact h
    | arrayV e es => exact h
  | .arrayV e es, w, h => by
    cases w with
    | arrayV e' es' =>
      simp only [sim, Bool.and_eq_true] at h ⊢
      refine ⟨h.1, ?_⟩
      have h2 := h.2
      by_cases hsc : isScalar e
      · rwa [if_pos hsc] at h2 ⊢
      · rw [if_neg hsc] at h2 ⊢
        exact simElems_mono V V' hvv es es' h2
    | scalarV k => exact h
    | chanV c => exact h
    | ptrV e' oa => exact h
    | sliceV e' r => exact h
    | mapV kt vt oa => exact h
    | structV fts fs => exact h

theorem simFields_mono (V V' : List (VKey × Val))
    (hvv : ∀ k tv, lookupVis V k = some tv → lookupVis V' k = some tv) :
    ∀ (pf : List Nat) (i : Nat) (fs gs : Vals),
      simFields V pf i fs gs = true → simFields V' pf i fs gs = true
  | pf, i, .vnil, .vnil, h => h
  | pf, i, .vnil, .vcons g gs, h => by simp [simFields] at h
  | pf, i, .vcons f fs, .vnil, h => by simp [simFields] at h
  | pf, i, .vcons f fs, .vcons g gs, h => by
    simp only [simFields, Bool.and_eq_true] at h ⊢
    refine ⟨?_, simFields_mono V V' hvv pf (i+1) fs gs h.2⟩
    have h1 := h.1
    by_cases hi : i ∈ pf
    · rw [if_pos hi] at h1 ⊢
      exact sim_mono V V' hvv f g h1
    · rwa [if_neg hi] at h1 ⊢

theorem simElems_mono (V V' : List (VKey × Val))
    (hvv : ∀ k tv, lookupVis V k = some tv → lookupVis V' k = some tv) :
    ∀ (vs ws : Vals), simElems V vs ws = true → simElems V' vs ws = true
  | .vnil, .vnil, h => h
  | .vnil, .vcons w ws, h => by simp [simElems] at h
  | .vcons v vs, .vnil, h => by simp [simElems] at h
  | .vcons v vs, .vcons w ws, h => by
    simp only [simElems, Bool.and_eq_true] at h ⊢
    exact ⟨sim_mono V V' hvv v w h.1, simElems_mono V V' hvv vs ws h.2⟩
end

theorem simList_mono (V V' : List (VKey × Val))
    (hvv : ∀ k tv, lookupVis V k = some tv → lookupVis V' k = some tv) :
    ∀ (vs ws : List Val), simList V vs ws = true → simList V' vs ws = true
  | [], [], h => h
  | [], w :: ws, h => by simp [simList] at h
  | v :: vs, [], h => by simp [simList] at h
  | v :: vs, w :: ws, h => by
    simp only [simList, Bool.and_eq_true] at h ⊢
    exact ⟨sim_mono V V' hvv v w h.1, simList_mono V V' hvv vs ws h.2⟩

theorem simPairs_mono (V V' : List (VKey × Val))
    (hvv : ∀ k tv, lookupVis V k = some tv → lookupVis V' k = some tv) :
    ∀ (kvs kvs' : List (Val × Val)), simPairs V kvs kvs' = true → simPairs V' kvs kvs' = true
  | [], [], h => h
  | [], kv :: kvs', h => by simp [simPairs] at h
  | kv :: kvs, [], h => by simp [simPairs] at h
  | (k, v) :: kvs, (k', v') :: kvs', h => by
    simp only [simPairs, Bool.and_eq_true] at h ⊢
    exact ⟨⟨sim_mono V V' hvv k k' h.1.1, sim_mono V V' hvv v v' h.1.2⟩,
      simPairs_mono V V' hvv kvs kvs' h.2⟩

mutual
theorem refFree_sim (V : List (VKey × Val)) :
    ∀ v : Val, refFree v = true → sim V v v = true
  | .scalarV k, _ => by simp [sim]
  | .chanV c, h => by simp [refFree] at h
  | .ptrV e oa, h => by simp [refFree] at h
  | .sliceV e r, h => by simp [refFree] at h
  | .mapV kt vt oa, h => by simp [refFree] at h
  | .structV fts fs, h => by
    simp only [refFree] at h
    simp only [sim, Bool.and_eq_true, beq_self_eq_true]
    exact ⟨trivial, refFree_simFields V _ 0 fs h⟩
  | .arrayV e es, h => by
    simp only [refFree] at h
    simp only [sim, Bool.and_eq_true, beq_self_eq_true]
    refine ⟨trivial, ?_⟩
    by_cases hsc : isScalar e
    · rw [if_pos hsc]
      simp only [Bool.and_eq_true, beq_self_eq_true]
      exact ⟨trivial, h⟩
    · rw [if_neg hsc]
      exact refFree_simElems V es h

theorem refFree_simFields (V : List (VKey × Val)) :
    ∀ (pf : List Nat) (i : Nat) (fs : Vals), refFreeL fs = true →
      simFields V pf i fs fs = true
  | pf, i, .vnil, _ => rfl
  | pf, i, .vcons f fs, h => by
    simp only [refFreeL, Bool.and_eq_true] at h
    simp only [simFields, Bool.and_eq_true]
    refine ⟨?_, refFree_simFields V pf (i+1) fs h.2⟩
    by_cases hi : i ∈ pf
    · rw [if_pos hi]
      exact refFree_sim V f h.1
    · rw [if_neg hi]
      simp only [Bool.and_eq_true, beq_self_eq_true]
      exact ⟨trivial, h.1⟩

theorem refFree_simElems (V : List (VKey × Val)) :
    ∀ vs : Vals, refFreeL vs = true → simElems V vs vs = true
  | .vnil, _ => rfl
  | .vcons v vs, h => by
    simp only [refFreeL, Bool.and_eq_true] at h
    simp only [simElems, Bool.and_eq_true]
    exact ⟨refFree_sim V v h.1, refFree_simElems V vs h.2⟩
end

theorem refFree_simList (V : List (VKey × Val)) :
    ∀ vs : List Val, vs.all refFree = true → simList V vs vs = true
  | [], _ => rfl
  | v :: vs, h => by
    simp only [List.all_cons, Bool.and_eq_true] at h
    simp only [simList, Bool.and_eq_true]
    exact ⟨refFree_sim V v h.1, refFree_simList V vs h.2⟩

/-! ## Preservation of the slow-mode invariants -/

theorem entryDone_frame (mem mem' : Store) (V : List (VKey × Val)) (k : VKey) (tv : Val)
    (hd : entryDone mem V k tv)
    (hsrcp : mem'.lookup (keySrc k) = mem.lookup (keySrc k))
    (hdstp : ∀ b, tvDest tv = some b → mem'.lookup b = mem.lookup b) :
    entryDone mem' V k tv := by
  cases k with
  | kPtr a t =>
    obtain ⟨e, w, b, w', ht, htv, ha, hb, hsim⟩ := hd
    refine ⟨e, w, b, w', ht, htv, ?_, ?_, hsim⟩
    · rw [show mem'.lookup a = mem.lookup a from hsrcp]
      exact ha
    · rw [hdstp b (by rw [htv]; rfl)]
      exact hb
  | kSlice a len t =>
    obtain ⟨e, vs, b, cap, ws, ht, htv, ha, hb, hsim⟩ := hd
    refine ⟨e, vs, b, cap, ws, ht, htv, ?_, ?_, hsim⟩
    · rw [show mem'.lookup a = mem.lookup a from hsrcp]
      exact ha
    · rw [hdstp b (by rw [htv]; rfl)]
      exact hb
  | kMap a t =>
    obtain ⟨kt, vt, kvs, b, kvs', ht, htv, ha, hb, hsim⟩ := hd
    refine ⟨kt, vt, kvs, b, kvs', ht, htv, ?_, ?_, hsim⟩
    · rw [show mem'.lookup a = mem.lookup a from hsrcp]
      exact ha
    · rw [hdstp b (by rw [htv]; rfl)]
      exact hb

theorem entryDone_mono_vis (mem : Store) (V V' : List (VKey × Val)) (k : VKey) (tv : Val)
    (hd : entryDone mem V k tv)
    (hvv : ∀ k' tv', lookupVis V k' = some tv' → lookupVis V' k' = some tv') :
    entryDone mem V' k tv := by
  cases k with
  | kPtr a t =>
    obtain ⟨e, w, b, w', ht, htv, ha, hb, hsim⟩ := hd
    exact ⟨e, w, b, w', ht, htv, ha, hb, sim_mono V V' hvv w w' hsim⟩
  | kSlice a len t =>
    obtain ⟨e, vs, b, cap, ws, ht, htv, ha, hb, hsim⟩ := hd
    exact ⟨e, vs, b, cap, ws, ht, htv, ha, hb, simList_mono V V' hvv _ _ hsim⟩
  | kMap a t =>
    obtain ⟨kt, vt, kvs, b, kvs', ht, htv, ha, hb, hsim⟩ := hd
    exact ⟨kt, vt, kvs, b, kvs', ht, htv, ha, hb, simPairs_mono V V' hvv _ _ hsim⟩

theorem SInv_reserve (N₀ : Nat) (st : St) (c : Cell) (k₀ : VKey) (nv : Val)
    (hS : SInv N₀ st)
    (hks : keySrc k₀ < N₀)
    (hdn : tvDest nv = some st.next)
    (hmiss : lookupVis st.vis k₀ = none) :
    SInv N₀ ⟨setCell st.next c st.mem, st.next + 1, (k₀, nv) :: st.vis⟩ := by
  obtain ⟨hwf, hN, hdest, hdis⟩ := hS
  refine ⟨?_, ?_, ?_, ?_⟩
  · intro a ha
    show a < st.next + 1
    by_cases hab : a = st.next
    · omega
    · replace ha : ((st.mem.lookup a).isSome : Prop) := by
        rwa [show (setCell st.next c st.mem).lookup a = st.mem.lookup a from
          lookup_setCell_ne _ _ _ _ hab] at ha
      have := hwf a ha
      omega
  · show N₀ ≤ st.next + 1
    omega
  · intro k tv hk
    by_cases hkk : k = k₀
    · subst hkk
      rw [lookupVis_cons_self] at hk
      cases hk
      exact ⟨hks, st.next, hdn, hN, show st.next < st.next + 1 by omega⟩
    · rw [lookupVis_cons_ne _ _ _ _ hkk] at hk
      obtain ⟨h₁, b, h₂, h₃, h₄⟩ := hdest k tv hk
      exact ⟨h₁, b, h₂, h₃, show b < st.next + 1 by omega⟩
  · intro k k' tv tv' hk hk' hne
    by_cases hkk : k = k₀
    · subst hkk
      rw [lookupVis_cons_self] at hk
      cases hk
      rw [lookupVis_cons_ne _ _ _ _ (fun h => absurd h.symm hne)] at hk'
      obtain ⟨_, b, h₂, _, h₄⟩ := hdest k' tv' hk'
      rw [hdn, h₂]
      intro hbb
      cases hbb
      omega
    · rw [lookupVis_cons_ne _ _ _ _ hkk] at hk
      by_cases hkk' : k' = k₀
      · subst hkk'
        rw [lookupVis_cons_self] at hk'
        cases hk'
        obtain ⟨_, b, h₂, _, h₄⟩ := hdest k tv hk
        rw [hdn, h₂]
        intro hbb
        cases hbb
        omega
      · rw [lookupVis_cons_ne _ _ _ _ hkk'] at hk'
        exact hdis k k' tv tv' hk hk' hne

theorem CompleteE_reserve (N₀ : Nat) (P : List VKey) (st : St) (c : Cell)
    (k₀ : VKey) (nv : Val)
    (hS : SInv N₀ st) (hC : CompleteE P st)
    (hmiss : lookupVis st.vis k₀ = none) :
    CompleteE (k₀ :: P) ⟨setCell st.next c st.mem, st.next + 1, (k₀, nv) :: st.vis⟩ := by
  obtain ⟨hwf, hN, hdest, hdis⟩ := hS
  intro k tv hk hkP
  simp only [List.mem_cons, not_or] at hkP
  obtain ⟨hkk, hkP⟩ := hkP
  rw [show lookupVis ((k₀, nv) :: st.vis) k = lookupVis st.vis k from
    lookupVis_cons_ne _ _ _ _ hkk] at hk
  have hd := hC k tv hk hkP
  obtain ⟨h₁, b, h₂, h₃, h₄⟩ := hdest k tv hk
  refine entryDone_mono_vis (setCell st.next c st.mem) st.vis _ k tv ?_ ?_
  · refine entryDone_frame st.mem _ _ _ _ hd ?_ ?_
    · exact lookup_setCell_ne _ _ _ _ (by omega)
    · intro b' hb'
      rw [h₂] at hb'
      cases hb'
      exact lookup_setCell_ne _ _ _ _ (by omega)
  · intro k' tv' hk'
    by_cases hkk' : k' = k₀
    · subst hkk'
      rw [hmiss] at hk'
      cases hk'
    · rw [lookupVis_cons_ne _ _ _ _ hkk']
      exact hk'

theorem SInv_finalize (N₀ b : Nat) (st₂ : St) (c' : Cell)
    (hS : SInv N₀ st₂) (hb : b < st₂.next) :
    SInv N₀ ⟨setCell b c' st₂.mem, st₂.next, st₂.vis⟩ := by
  obtain ⟨hwf, hN, hdest, hdis⟩ := hS
  refine ⟨?_, hN, hdest, hdis⟩
  intro a ha
  show a < st₂.next
  by_cases hab : a = b
  · omega
  · replace ha : ((st₂.mem.lookup a).isSome : Prop) := by
      rwa [show (setCell b c' st₂.mem).lookup a = st₂.mem.lookup a from
        lookup_setCell_ne _ _ _ _ hab] at ha
    exact hwf a ha

theorem CompleteE_finalize (N₀ : Nat) (P : List VKey) (st₂ : St) (k₀ : VKey)
    (nv : Val) (b : Nat) (c' : Cell)
    (hS : SInv N₀ st₂) (hC : CompleteE (k₀ :: P) st₂)
    (hk₀ : lookupVis st₂.vis k₀ = some nv) (hdb : tvDest nv = some b)
    (hN : N₀ ≤ b)
    (hdone₀ : entryDone (setCell b c' st₂.mem) st₂.vis k₀ nv) :
    CompleteE P ⟨setCell b c' st₂.mem, st₂.next, st₂.vis⟩ := by
  obtain ⟨hwf, hNn, hdest, hdis⟩ := hS
  intro k tv hk hkP
  by_cases hkk : k = k₀
  · subst hkk
    rw [hk₀] at hk
    cases hk
    exact hdone₀
  · have hd := hC k tv hk (by simp [hkk, hkP])
    obtain ⟨h₁, b', h₂, h₃, h₄⟩ := hdest k tv hk
    have hbne : b' ≠ b := by
      intro hbb
      subst hbb
      have := hdis k k₀ tv nv hk hk₀ hkk
      rw [h₂, hdb] at this
      exact this rfl
    refine entryDone_frame _ _ _ _ _ hd ?_ ?_
    · exact lookup_setCell_ne _ _ _ _ (by omega)
    · intro b'' hb''
      rw [h₂] at hb''
      cases hb''
      exact lookup_setCell_ne _ _ _ _ hbne

/-! ## The slow-mode master lemma -/

theorem slow_master_fields (n N₀ : Nat)
    (hIH : ∀ (st : St) (v : Val) (st' : St) (v' : Val) (P : List VKey),
      clone n true st v = some (st', v') →
      good v = true → refsBelow N₀ v = true → closedIn st.mem v = true →
      srcOK N₀ st.mem → SInv N₀ st → CompleteE P st →
      SInv N₀ st' ∧ CompleteE P st' ∧ sim st'.vis v v' = true) :
    ∀ (pf : List Nat) (i : Nat) (st : St) (fs : Vals) (st' : St) (fs' : Vals)
      (P : List VKey),
      copyFields (clone n true) pf i st fs = some (st', fs') →
      goodFields pf i fs = true → refsBelowL N₀ fs = true →
      closedInL st.mem fs = true →
      srcOK N₀ st.mem → SInv N₀ st → CompleteE P st →
      SInv N₀ st' ∧ CompleteE P st' ∧ simFields st'.vis pf i fs fs' = true
  | pf, i, st, .vnil, st', fs', P, hrun, _, _, _, _, hS, hC => by
    simp only [copyFields] at hrun
    cases hrun
    exact ⟨hS, hC, rfl⟩
  | pf, i, st, .vcons f fs, st', fs', P, hrun, hgood, hrb, hcl, hsrc, hS, hC => by
    simp only [goodFields, Bool.and_eq_true] at hgood
    simp only [refsBelowL, Bool.and_eq_true] at hrb
    simp only [closedInL, Bool.and_eq_true] at hcl
    have hN : N₀ ≤ st.next := hS.2.1
    by_cases hi : i ∈ pf
    · simp only [copyFields, if_pos hi, Option.bind_eq_bind, Option.bind_eq_some] at hrun
      obtain ⟨⟨st₁, f'⟩, h₁, ⟨st₂, fs₂'⟩, h₂, heq⟩ := hrun
      have hgf : good f = true := by
        have := hgood.1
        rwa [if_pos hi] at this
      obtain ⟨hS₁, hC₁, hsim₁⟩ :=
        hIH st f st₁ f' P h₁ hgf hrb.1 hcl.1 hsrc hS hC
      obtain ⟨⟨hnx₁, hpre₁, _, hvis₁⟩, _⟩ := clone_frame n true st f st₁ f' h₁
      have hbel₁ : ∀ x, x < N₀ → st₁.mem.lookup x = st.mem.lookup x :=
        fun x hx => hpre₁ x (lt_of_lt_of_le hx hN)
      obtain ⟨hS₂, hC₂, hsimT⟩ :=
        slow_master_fields n N₀ hIH pf (i+1) st₁ fs st₂ fs₂' P h₂ hgood.2 hrb.2
          (closedInL_below N₀ st.mem st₁.mem hbel₁ fs hrb.2 hcl.2)
          (srcOK_frame N₀ st.mem st₁.mem hbel₁ hsrc) hS₁ hC₁
      have htail := copyFields_frame (clone n true) StExt StExt.refl
        (fun _ _ _ => StExt.trans)
        (fun s w s' w' hh => (clone_frame n true s w s' w' hh).1)
        pf (i+1) st₁ fs st₂ fs₂' h₂
      cases heq
      refine ⟨hS₂, hC₂, ?_⟩
      simp only [simFields, Bool.and_eq_true]
      refine ⟨?_, hsimT⟩
      rw [if_pos hi]
      exact sim_mono st₁.vis st₂.vis htail.2.2.2 f f' hsim₁
    · simp only [copyFields, if_neg hi, Option.bind_eq_bind, Option.some_bind,
        Option.bind_eq_some] at hrun
      obtain ⟨⟨st₂, fs₂'⟩, h₂, heq⟩ := hrun
      have hrf : refFree f = true := by
        have := hgood.1
        rw [if_neg hi] at this
        simp only [Bool.and_eq_true] at this
        exact this.1
      obtain ⟨hS₂, hC₂, hsimT⟩ :=
        slow_master_fields n N₀ hIH pf (i+1) st fs st₂ fs₂' P h₂ hgood.2 hrb.2
          hcl.2 hsrc hS hC
      cases heq
      refine ⟨hS₂, hC₂, ?_⟩
      simp only [simFields, Bool.and_eq_true]
      refine ⟨?_, hsimT⟩
      rw [if_neg hi]
      simp only [Bool.and_eq_true, beq_self_eq_true]
      exact ⟨trivial, hrf⟩

theorem slow_master_elems (n N₀ : Nat)
    (hIH : ∀ (st : St) (v : Val) (st' : St) (v' : Val) (P : List VKey),
      clone n true st v = some (st', v') →
      good v = true → refsBelow N₀ v = true → closedIn st.mem v = true →
      srcOK N₀ st.mem → SInv N₀ st → CompleteE P st →
      SInv N₀ st' ∧ CompleteE P st' ∧ sim st'.vis v v' = true) :
    ∀ (st : St) (es : Vals) (st' : St) (es' : Vals) (P : List VKey),
      cloneElems (clone n true) st es = some (st', es') →
      goodL es = true → refsBelowL N₀ es = true → closedInL st.mem es = true →
      srcOK N₀ st.mem → SInv N₀ st → CompleteE P st →
      SInv N₀ st' ∧ CompleteE P st' ∧ simElems st'.vis es es' = true
  | st, .vnil, st', es', P, hrun, _, _, _, _, hS, hC => by
    simp only [cloneElems] at hrun
    cases hrun
    exact ⟨hS, hC, rfl⟩
  | st, .vcons v vs, st', es', P, hrun, hgood, hrb, hcl, hsrc, hS, hC => by
    simp only [cloneElems, Option.bind_eq_bind, Option.bind_eq_some] at hrun
    obtain ⟨⟨st₁, v₁'⟩, h₁, ⟨st₂, vs₂'⟩, h₂, heq⟩ := hrun
    simp only [goodL, Bool.and_eq_true] at hgood
    simp only [refsBelowL, Bool.and_eq_true] at hrb
    simp only [closedInL, Bool.and_eq_true] at hcl
    have hN : N₀ ≤ st.next := hS.2.1
    obtain ⟨hS₁, hC₁, hsim₁⟩ :=
      hIH st v st₁ v₁' P h₁ hgood.1 hrb.1 hcl.1 hsrc hS hC
    obtain ⟨⟨hnx₁, hpre₁, _, hvis₁⟩, _⟩ := clone_frame n true st v st₁ v₁' h₁
    have hbel₁ : ∀ x, x < N₀ → st₁.mem.lookup x = st.mem.lookup x :=
      fun x hx => hpre₁ x (lt_of_lt_of_le hx hN)
    obtain ⟨hS₂, hC₂, hsimT⟩ :=
      slow_master_elems n N₀ hIH st₁ vs st₂ vs₂' P h₂ hgood.2 hrb.2
        (closedInL_below N₀ st.mem st₁.mem hbel₁ vs hrb.2 hcl.2)
        (srcOK_frame N₀ st.mem st₁.mem hbel₁ hsrc) hS₁ hC₁
    have htail := cloneElems_frame (clone n true) StExt StExt.refl
      (fun _ _ _ => StExt.trans)
      (fun s w s' w' hh => (clone_frame n true s w s' w' hh).1)
      st₁ vs st₂ vs₂' h₂
    cases heq
    refine ⟨hS₂, hC₂, ?_⟩
    simp only [simElems, Bool.and_eq_true]
    exact ⟨sim_mono st₁.vis st₂.vis htail.2.2.2 v v₁' hsim₁, hsimT⟩

theorem slow_master_list (n N₀ : Nat)
    (hIH : ∀ (st : St) (v : Val) (st' : St) (v' : Val) (P : List VKey),
      clone n true st v = some (st', v') →
      good v = true → refsBelow N₀ v = true → closedIn st.mem v = true →
      srcOK N₀ st.mem → SInv N₀ st → CompleteE P st →
      SInv N₀ st' ∧ CompleteE P st' ∧ sim st'.vis v v' = true) :
    ∀ (st : St) (vs : List Val) (st' : St) (vs' : List Val) (P : List VKey),
      cloneList (clone n true) st vs = some (st', vs') →
      vs.all good = true → vs.all (refsBelow N₀) = true →
      vs.all (closedIn st.mem) = true →
      srcOK N₀ st.mem → SInv N₀ st → CompleteE P st →
      SInv N₀ st' ∧ CompleteE P st' ∧ simList st'.vis vs vs' = true
  | st, [], st', vs', P, hrun, _, _, _, _, hS, hC => by
    simp only [cloneList] at hrun
    cases hrun
    exact ⟨hS, hC, rfl⟩
  | st, v :: vs, st', vs', P, hrun, hgood, hrb, hcl, hsrc, hS, hC => by
    simp only [cloneList, Option.bind_eq_bind, Option.bind_eq_some] at hrun
    obtain ⟨⟨st₁, v₁'⟩, h₁, ⟨st₂, vs₂'⟩, h₂, heq⟩ := hrun
    simp only [List.all_cons, Bool.and_eq_true] at hgood hrb hcl
    have hN : N₀ ≤ st.next := hS.2.1
    obtain ⟨hS₁, hC₁, hsim₁⟩ :=
      hIH st v st₁ v₁' P h₁ hgood.1 hrb.1 hcl.1 hsrc hS hC
    obtain ⟨⟨hnx₁, hpre₁, _, hvis₁⟩, _⟩ := clone_frame n true st v st₁ v₁' h₁
    have hbel₁ : ∀ x, x < N₀ → st₁.mem.lookup x = st.mem.lookup x :=
      fun x hx => hpre₁ x (lt_of_lt_of_le hx hN)
    have hclvs := hcl.2
    have hrbvs := hrb.2
    have hcl₁ : vs.all (closedIn st₁.mem) = true := by
      simp only [List.all_eq_true] at hclvs hrbvs ⊢
      intro w hw
      exact closedIn_below N₀ st.mem st₁.mem hbel₁ w (hrbvs w hw) (hclvs w hw)
    obtain ⟨hS₂, hC₂, hsimT⟩ :=
      slow_master_list n N₀ hIH st₁ vs st₂ vs₂' P h₂ hgood.2 hrb.2 hcl₁
        (srcOK_frame N₀ st.mem st₁.mem hbel₁ hsrc) hS₁ hC₁
    have htail := cloneList_frame (clone n true) StExt StExt.refl
      (fun _ _ _ => StExt.trans)
      (fun s w s' w' hh => (clone_frame n true s w s' w' hh).1)
      st₁ vs st₂ vs₂' h₂
    cases heq
    refine ⟨hS₂, hC₂, ?_⟩
    simp only [simList, Bool.and_eq_true]
    exact ⟨sim_mono st₁.vis st₂.vis htail.2.2.2 v v₁' hsim₁, hsimT⟩

theorem slow_master_pairs (n N₀ : Nat)
    (hIH : ∀ (st : St) (v : Val) (st' : St) (v' : Val) (P : List VKey),
      clone n true st v = some (st', v') →
      good v = true → refsBelow N₀ v = true → closedIn st.mem v = true →
      srcOK N₀ st.mem → SInv N₀ st → CompleteE P st →
      SInv N₀ st' ∧ CompleteE P st' ∧ sim st'.vis v v' = true) :
    ∀ (st : St) (kvs : List (Val × Val)) (st' : St) (kvs' : List (Val × Val))
      (P : List VKey),
      clonePairs (clone n true) st kvs = some (st', kvs') →
      (kvs.all fun kv => good kv.1 && good kv.2) = true →
      (kvs.all fun kv => refsBelow N₀ kv.1 && refsBelow N₀ kv.2) = true →
      (kvs.all fun kv => closedIn st.mem kv.1 && closedIn st.mem kv.2) = true →
      srcOK N₀ st.mem → SInv N₀ st → CompleteE P st →
      SInv N₀ st' ∧ CompleteE P st' ∧ simPairs st'.vis kvs kvs' = true
  | st, [], st', kvs', P, hrun, _, _, _, _, hS, hC => by
    simp only [clonePairs] at hrun
    cases hrun
    exact ⟨hS, hC, rfl⟩
  | st, (k, v) :: kvs, st', kvs', P, hrun, hgood, hrb, hcl, hsrc, hS, hC => by
    simp only [clonePairs, Option.bind_eq_bind, Option.bind_eq_some] at hrun
    obtain ⟨⟨st₁, k₁'⟩, h₁, ⟨st₂, v₂'⟩, h₂, ⟨st₃, kvs₃'⟩, h₃, heq⟩ := hrun
    simp only [List.all_cons, Bool.and_eq_true] at hgood hrb hcl
    have hN : N₀ ≤ st.next := hS.2.1
    obtain ⟨hS₁, hC₁, hsimk⟩ :=
      hIH st k st₁ k₁' P h₁ hgood.1.1 hrb.1.1 hcl.1.1 hsrc hS hC
    obtain ⟨⟨hnx₁, hpre₁, _, hvis₁⟩, _⟩ := clone_frame n true st k st₁ k₁' h₁
    have hbel₁ : ∀ x, x < N₀ → st₁.mem.lookup x = st.mem.lookup x :=
      fun x hx => hpre₁ x (lt_of_lt_of_le hx hN)
    have hsrc₁ := srcOK_frame N₀ st.mem st₁.mem hbel₁ hsrc
    obtain ⟨hS₂, hC₂, hsimv⟩ :=
      hIH st₁ v st₂ v₂' P h₂ hgood.1.2 hrb.1.2
        (closedIn_below N₀ st.mem st₁.mem hbel₁ v hrb.1.2 hcl.1.2) hsrc₁ hS₁ hC₁
    obtain ⟨⟨hnx₂, hpre₂, _, hvis₂⟩, _⟩ := clone_frame n true st₁ v st₂ v₂' h₂
    have hN₁ : N₀ ≤ st₁.next := hS₁.2.1
    have hbel₂ : ∀ x, x < N₀ → st₂.mem.lookup x = st₁.mem.lookup x :=
      fun x hx => hpre₂ x (lt_of_lt_of_le hx hN₁)
    have hbel₁₂ : ∀ x, x < N₀ → st₂.mem.lookup x = st.mem.lookup x :=
      fun x hx => (hbel₂ x hx).trans (hbel₁ x hx)
    have hcltl := hcl.2
    have hrbtl := hrb.2
    have hcl₂ : (kvs.all fun kv => closedIn st₂.mem kv.1 && closedIn st₂.mem kv.2)
        = true := by
      simp only [List.all_eq_true, Bool.and_eq_true] at hcltl hrbtl ⊢
      intro kv hkv
      exact ⟨closedIn_below N₀ st.mem st₂.mem hbel₁₂ kv.1 (hrbtl kv hkv).1
          (hcltl kv hkv).1,
        closedIn_below N₀ st.mem st₂.mem hbel₁₂ kv.2 (hrbtl kv hkv).2
          (hcltl kv hkv).2⟩
    obtain ⟨hS₃, hC₃, hsimT⟩ :=
      slow_master_pairs n N₀ hIH st₂ kvs st₃ kvs₃' P h₃ hgood.2 hrb.2 hcl₂
        (srcOK_frame N₀ st.mem st₂.mem hbel₁₂ hsrc) hS₂ hC₂
    have htail := clonePairs_frame (clone n true) StExt StExt.refl
      (fun _ _ _ => StExt.trans)
      (fun s w s' w' hh => (clone_frame n true s w s' w' hh).1)
      st₂ kvs st₃ kvs₃' h₃
    cases heq
    refine ⟨hS₃, hC₃, ?_⟩
    simp only [simPairs, Bool.and_eq_true]
    refine ⟨⟨?_, ?_⟩, hsimT⟩
    · exact sim_mono st₁.vis st₃.vis
        (fun k' tv' hk' => htail.2.2.2 k' tv' (hvis₂ k' tv' hk')) k k₁' hsimk
    · exact sim_mono st₂.vis st₃.vis htail.2.2.2 v v₂' hsimv

theorem clone_slow_ptr (n : Nat) (st : St) (e : Ty) (a : Nat) :
    clone (n+1) true st (.ptrV e (some a)) =
      match lookupVis st.vis (.kPtr a (.ptrT e)) with
      | some tv => some (st, tv)
      | none =>
        (derefPtr st.mem a).bind fun w =>
          (clone n true
            ⟨setCell st.next (.cPtr (zeroVal e)) st.mem, st.next + 1,
              (VKey.kPtr a (.ptrT e), Val.ptrV e (some st.next)) :: st.vis⟩ w).bind fun p =>
            some (⟨setCell st.next (.cPtr p.2) p.1.mem, p.1.next, p.1.vis⟩,
              .ptrV e (some st.next)) := rfl

theorem clone_slow_slice (n : Nat) (st : St) (e : Ty) (a len cap : Nat) :
    clone (n+1) true st (.sliceV e (some (a, len, cap))) =
      match lookupVis st.vis (.kSlice a len (.sliceT e)) with
      | some tv => some (st, tv)
      | none =>
        (derefSeq st.mem a).bind fun vs =>
          if isScalar e then
            some (⟨setCell st.next
              (.cSeq (vs.take len ++ List.replicate (cap - len) (zeroVal e)))
              (setCell st.next (.cSeq []) st.mem), st.next + 1,
              (VKey.kSlice a len (.sliceT e),
                Val.sliceV e (some (st.next, len, cap))) :: st.vis⟩,
              .sliceV e (some (st.next, len, cap)))
          else
            (cloneList (clone n true)
              ⟨setCell st.next (.cSeq []) st.mem, st.next + 1,
                (VKey.kSlice a len (.sliceT e),
                  Val.sliceV e (some (st.next, len, cap))) :: st.vis⟩
              (vs.take len)).bind fun p =>
              some (⟨setCell st.next
                (.cSeq (p.2 ++ List.replicate (cap - len) (zeroVal e))) p.1.mem,
                p.1.next, p.1.vis⟩, .sliceV e (some (st.next, len, cap))) := rfl

theorem clone_slow_map (n : Nat) (st : St) (kt vt : Ty) (a : Nat) :
    clone (n+1) true st (.mapV kt vt (some a)) =
      match lookupVis st.vis (.kMap a (.mapT kt vt)) with
      | some tv => some (st, tv)
      | none =>
        (derefMap st.mem a).bind fun kvs =>
          (clonePairs (clone n true)
            ⟨setCell st.next (.cMap []) st.mem, st.next + 1,
              (VKey.kMap a (.mapT kt vt), Val.mapV kt vt (some st.next)) :: st.vis⟩
            kvs).bind fun p =>
            some (⟨setCell st.next (.cMap p.2) p.1.mem, p.1.next, p.1.vis⟩,
              .mapV kt vt (some st.next)) := rfl

theorem slow_master : ∀ (n N₀ : Nat) (st : St) (v : Val) (st' : St) (v' : Val)
    (P : List VKey),
    clone n true st v = some (st', v') →
    good v = true → refsBelow N₀ v = true → closedIn st.mem v = true →
    srcOK N₀ st.mem → SInv N₀ st → CompleteE P st →
    SInv N₀ st' ∧ CompleteE P st' ∧ sim st'.vis v v' = true
  | 0, _, _, _, _, _, _, h, _, _, _, _, _, _ => by simp [clone] at h
  | n+1, N₀, st, v, st', v', P, hrun, hgood, hrb, hcl, hsrc, hS, hC => by
    have hIH := fun st v st' v' P h1 h2 h3 h4 h5 h6 h7 =>
      slow_master n N₀ st v st' v' P h1 h2 h3 h4 h5 h6 h7
    have hN : N₀ ≤ st.next := hS.2.1
    cases v with
    | scalarV k =>
      simp only [clone] at hrun
      cases hrun
      exact ⟨hS, hC, by simp [sim]⟩
    | chanV c =>
      simp only [clone] at hrun
      cases hrun
      exact ⟨hS, hC, by simp [sim]⟩
    | structV fts fs =>
      rw [clone_eq_struct] at hrun
      simp only [Option.bind_eq_bind, Option.bind_eq_some] at hrun
      obtain ⟨⟨st₂, fs'⟩, h₁, heq⟩ := hrun
      simp only [good, Bool.and_eq_true] at hgood
      simp only [refsBelow] at hrb
      simp only [closedIn] at hcl
      obtain ⟨hS₂, hC₂, hsimF⟩ :=
        slow_master_fields n N₀ hIH (loadStructType fts).PointerFields 0 st fs st₂ fs' P
          h₁ hgood.2 hrb hcl hsrc hS hC
      cases heq
      refine ⟨hS₂, hC₂, ?_⟩
      simp only [sim, Bool.and_eq_true, beq_self_eq_true]
      exact ⟨trivial, hsimF⟩
    | arrayV e es =>
      rw [clone_eq_array] at hrun
      simp only [good, Bool.and_eq_true] at hgood
      simp only [refsBelow] at hrb
      simp only [closedIn] at hcl
      by_cases hsc : isScalar e
      · rw [if_pos hsc] at hrun
        cases hrun
        refine ⟨hS, hC, ?_⟩
        have hrf : refFreeL es = true := by
          have := hgood.1
          rwa [if_pos hsc] at this
        simp only [sim, Bool.and_eq_true, beq_self_eq_true, if_pos hsc]
        exact ⟨trivial, trivial, hrf⟩
      · rw [if_neg hsc] at hrun
        simp only [Option.bind_eq_bind, Option.bind_eq_some] at hrun
        obtain ⟨⟨st₂, es'⟩, h₁, heq⟩ := hrun
        obtain ⟨hS₂, hC₂, hsimE⟩ :=
          slow_master_elems n N₀ hIH st es st₂ es' P h₁ hgood.2 hrb hcl hsrc hS hC
        cases heq
        refine ⟨hS₂, hC₂, ?_⟩
        simp only [sim, Bool.and_eq_true, beq_self_eq_true, if_neg hsc]
        exact ⟨trivial, hsimE⟩
    | ptrV e oa =>
      cases oa with
      | none =>
        simp only [clone] at hrun
        cases hrun
        exact ⟨hS, hC, by simp [sim]⟩
      | some a =>
        rw [clone_slow_ptr] at hrun
        cases hvl : lookupVis st.vis (VKey.kPtr a (.ptrT e)) with
        | some tv =>
          simp only [hvl] at hrun
          cases hrun
          refine ⟨hS, hC, ?_⟩
          show (lookupVis st.vis (VKey.kPtr a (Ty.ptrT e)) == some v') = true
          rw [hvl]
          simp
        | none =>
          simp only [hvl, Option.bind_eq_bind, Option.bind_eq_some] at hrun
          obtain ⟨w, hw, ⟨st₂, w'⟩, h₁, heq⟩ := hrun
          have hwcell := (derefPtr_eq_some _ _ _).mp hw
          simp only [refsBelow, decide_eq_true_eq] at hrb
          obtain ⟨hgw, hrbw, hclw⟩ := hsrc a (.cPtr w) hrb hwcell
          have hS₁ := SInv_reserve N₀ st (.cPtr (zeroVal e)) (.kPtr a (.ptrT e))
            (.ptrV e (some st.next)) hS hrb rfl hvl
          have hC₁ := CompleteE_reserve N₀ P st (.cPtr (zeroVal e)) (.kPtr a (.ptrT e))
            (.ptrV e (some st.next)) hS hC hvl
          have hbel₁ : ∀ x, x < N₀ →
              (setCell st.next (.cPtr (zeroVal e)) st.mem).lookup x = st.mem.lookup x :=
            fun x hx => lookup_setCell_ne _ _ _ _ (by omega)
          obtain ⟨hS₂, hC₂, hsim₂⟩ :=
            hIH ⟨setCell st.next (.cPtr (zeroVal e)) st.mem, st.next + 1,
              (VKey.kPtr a (.ptrT e), Val.ptrV e (some st.next)) :: st.vis⟩ w st₂ w'
              (VKey.kPtr a (.ptrT e) :: P) h₁ hgw hrbw
              (closedIn_below N₀ st.mem _ hbel₁ w hrbw hclw)
              (srcOK_frame N₀ st.mem _ hbel₁ hsrc) hS₁ hC₁
          obtain ⟨⟨hnx₂, hpre₂, _, hvis₂⟩, _⟩ := clone_frame n true _ w st₂ w' h₁
          have hnx₂' : st.next + 1 ≤ st₂.next := hnx₂
          have hk₀ : lookupVis st₂.vis (VKey.kPtr a (.ptrT e))
              = some (.ptrV e (some st.next)) :=
            hvis₂ _ _ (lookupVis_cons_self _ _ _)
          have hacell₂ : st₂.mem.lookup a = some (.cPtr w) := by
            have h₁' := hpre₂ a (show a < st.next + 1 by omega)
            rw [h₁']
            show (setCell st.next (Cell.cPtr (zeroVal e)) st.mem).lookup a
              = some (.cPtr w)
            rw [lookup_setCell_ne _ _ _ _ (show a ≠ st.next by omega)]
            exact hwcell
          cases heq
          refine ⟨SInv_finalize N₀ st.next st₂ (.cPtr w') hS₂ (by omega), ?_, ?_⟩
          · refine CompleteE_finalize N₀ P st₂ (VKey.kPtr a (.ptrT e))
              (Val.ptrV e (some st.next)) st.next (.cPtr w') hS₂ hC₂ hk₀ rfl hN ?_
            refine ⟨e, w, st.next, w', rfl, rfl, ?_, lookup_setCell_self _ _ _, hsim₂⟩
            rw [lookup_setCell_ne _ _ _ _ (show a ≠ st.next by omega)]
            exact hacell₂
          · show (lookupVis st₂.vis (VKey.kPtr a (Ty.ptrT e))
              == some (Val.ptrV e (some st.next))) = true
            rw [hk₀]
            simp
    | sliceV e or =>
      cases or with
      | none =>
        simp only [clone] at hrun
        cases hrun
        exact ⟨hS, hC, by simp [sim]⟩
      | some r =>
        obtain ⟨a, len, cap⟩ := r
        rw [clone_slow_slice] at hrun
        cases hvl : lookupVis st.vis (VKey.kSlice a len (.sliceT e)) with
        | some tv =>
          simp only [hvl] at hrun
          cases hrun
          refine ⟨hS, hC, ?_⟩
          show (lookupVis st.vis (VKey.kSlice a len (Ty.sliceT e)) == some v') = true
          rw [hvl]
          simp
        | none =>
          simp only [hvl, Option.bind_eq_bind, Option.bind_eq_some] at hrun
          obtain ⟨vs, hvs, hrun⟩ := hrun
          have hvcell := (derefSeq_eq_some _ _ _).mp hvs
          simp only [refsBelow, decide_eq_true_eq] at hrb
          obtain ⟨hgc, hrbc, hclc⟩ := hsrc a (.cSeq vs) hrb hvcell
          simp only [closedIn, hvcell, Bool.and_eq_true, decide_eq_true_eq,
            Bool.or_eq_true, Bool.not_eq_true'] at hcl
          obtain ⟨hlen, hscrf⟩ := hcl
          have hS₁ := SInv_reserve N₀ st (.cSeq []) (.kSlice a len (.sliceT e))
            (.sliceV e (some (st.next, len, cap))) hS hrb rfl hvl
          have hC₁ := CompleteE_reserve N₀ P st (.cSeq []) (.kSlice a len (.sliceT e))
            (.sliceV e (some (st.next, len, cap))) hS hC hvl
          have hbel₁ : ∀ x, x < N₀ →
              (setCell st.next (.cSeq []) st.mem).lookup x = st.mem.lookup x :=
            fun x hx => lookup_setCell_ne _ _ _ _ (by omega)
          by_cases hsc : isScalar e
          · rw [if_pos hsc] at hrun
            cases hrun
            have hrf : (vs.take len).all refFree = true := by
              rcases hscrf with h | h
              · rw [hsc] at h
                cases h
              · exact h
            have htake : (vs.take len ++ List.replicate (cap - len) (zeroVal e)).take len
                = vs.take len := by
              rw [List.take_append_of_le_length (by rw [List.length_take]; omega)]
              rw [List.take_take, min_self]
            refine ⟨?_, ?_, ?_⟩
            · exact SInv_finalize N₀ st.next
                ⟨setCell st.next (Cell.cSeq []) st.mem, st.next + 1,
                  (VKey.kSlice a len (.sliceT e),
                    Val.sliceV e (some (st.next, len, cap))) :: st.vis⟩
                (.cSeq (vs.take len ++ List.replicate (cap - len) (zeroVal e)))
                hS₁ (Nat.lt_succ_self _)
            · refine CompleteE_finalize N₀ P
                ⟨setCell st.next (Cell.cSeq []) st.mem, st.next + 1,
                  (VKey.kSlice a len (.sliceT e),
                    Val.sliceV e (some (st.next, len, cap))) :: st.vis⟩
                (VKey.kSlice a len (.sliceT e))
                (Val.sliceV e (some (st.next, len, cap))) st.next
                (.cSeq (vs.take len ++ List.replicate (cap - len) (zeroVal e)))
                hS₁ hC₁ (lookupVis_cons_self _ _ _) rfl hN ?_
              refine ⟨e, vs, st.next, cap,
                vs.take len ++ List.replicate (cap - len) (zeroVal e), rfl, rfl, ?_,
                lookup_setCell_self _ _ _, ?_⟩
              · rw [lookup_setCell_ne _ _ _ _ (show a ≠ st.next by omega),
                  lookup_setCell_ne _ _ _ _ (show a ≠ st.next by omega)]
                exact hvcell
              · rw [htake]
                exact refFree_simList _ _ hrf
            · show (lookupVis ((VKey.kSlice a len (.sliceT e),
                Val.sliceV e (some (st.next, len, cap))) :: st.vis)
                  (VKey.kSlice a len (Ty.sliceT e))
                == some (Val.sliceV e (some (st.next, len, cap)))) = true
              rw [lookupVis_cons_self]
              simp
          · rw [if_neg hsc] at hrun
            simp only [Option.bind_eq_bind, Option.bind_eq_some] at hrun
            obtain ⟨⟨st₂, es'⟩, h₁, heq⟩ := hrun
            have hgl : (vs.take len).all good = true := by
              simp only [goodCell, List.all_eq_true] at hgc
              simp only [List.all_eq_true]
              exact fun v hv => hgc v (List.mem_of_mem_take hv)
            have hrbl : (vs.take len).all (refsBelow N₀) = true := by
              simp only [refsBelowCell, List.all_eq_true] at hrbc
              simp only [List.all_eq_true]
              exact fun v hv => hrbc v (List.mem_of_mem_take hv)
            have hcll : (vs.take len).all (closedIn
                (setCell st.next (.cSeq []) st.mem)) = true := by
              simp only [closedCell, List.all_eq_true] at hclc
              simp only [List.all_eq_true] at hrbl ⊢
              intro v hv
              exact closedIn_below N₀ st.mem _ hbel₁ v (hrbl v hv)
                (hclc v (List.mem_of_mem_take hv))
            obtain ⟨hS₂, hC₂, hsimL⟩ :=
              slow_master_list n N₀ hIH
                ⟨setCell st.next (.cSeq []) st.mem, st.next + 1,
                  (VKey.kSlice a len (.sliceT e),
                    Val.sliceV e (some (st.next, len, cap))) :: st.vis⟩
                (vs.take len) st₂ es' (VKey.kSlice a len (.sliceT e) :: P) h₁
                hgl hrbl hcll (srcOK_frame N₀ st.mem _ hbel₁ hsrc) hS₁ hC₁
            have hfr := cloneList_frame (clone n true) StExt StExt.refl
              (fun _ _ _ => StExt.trans)
              (fun s w s' w' hh => (clone_frame n true s w s' w' hh).1)
              _ (vs.take len) st₂ es' h₁
            obtain ⟨hnx₂, hpre₂, _, hvis₂⟩ := hfr
            have hnx₂' : st.next + 1 ≤ st₂.next := hnx₂
            have hk₀ : lookupVis st₂.vis (VKey.kSlice a len (.sliceT e))
                = some (.sliceV e (some (st.next, len, cap))) :=
              hvis₂ _ _ (lookupVis_cons_self _ _ _)
            have hacell₂ : st₂.mem.lookup a = some (.cSeq vs) := by
              have h₁' := hpre₂ a (show a < st.next + 1 by omega)
              rw [h₁']
              show (setCell st.next (Cell.cSeq []) st.mem).lookup a = some (.cSeq vs)
              rw [lookup_setCell_ne _ _ _ _ (show a ≠ st.next by omega)]
              exact hvcell
            have hlen' : es'.length = len := by
              rw [cloneList_length _ _ _ _ _ h₁, List.length_take]
              omega
            have htake : (es' ++ List.replicate (cap - len) (zeroVal e)).take len
                = es' := by
              rw [List.take_append_of_le_length (le_of_eq hlen'.symm)]
              rw [show len = es'.length from hlen'.symm, List.take_length]
            cases heq
            refine ⟨SInv_finalize N₀ st.next st₂ _ hS₂ (by omega), ?_, ?_⟩
            · refine CompleteE_finalize N₀ P st₂ (VKey.kSlice a len (.sliceT e))
                (Val.sliceV e (some (st.next, len, cap))) st.next
                (.cSeq (es' ++ List.replicate (cap - len) (zeroVal e)))
                hS₂ hC₂ hk₀ rfl hN ?_
              refine ⟨e, vs, st.next, cap,
                es' ++ List.replicate (cap - len) (zeroVal e), rfl, rfl, ?_,
                lookup_setCell_self _ _ _, ?_⟩
              · rw [lookup_setCell_ne _ _ _ _ (show a ≠ st.next by omega)]
                exact hacell₂
              · rw [htake]
                exact hsimL
            · show (lookupVis st₂.vis (VKey.kSlice a len (Ty.sliceT e))
                == some (Val.sliceV e (some (st.next, len, cap)))) = true
              rw [hk₀]
              simp
    | mapV kt vt oa =>
      cases oa with
      | none =>
        simp only [clone] at hrun
        cases hrun
        exact ⟨hS, hC, by simp [sim]⟩
      | some a =>
        rw [clone_slow_map] at hrun
        cases hvl : lookupVis st.vis (VKey.kMap a (.mapT kt vt)) with
        | some tv =>
          simp only [hvl] at hrun
          cases hrun
          refine ⟨hS, hC, ?_⟩
          show (lookupVis st.vis (VKey.kMap a (Ty.mapT kt vt)) == some v') = true
          rw [hvl]
          simp
        | none =>
          simp only [hvl, Option.bind_eq_bind, Option.bind_eq_some] at hrun
          obtain ⟨kvs, hkv, ⟨st₂, kvs'⟩, h₁, heq⟩ := hrun
          have hvcell := (derefMap_eq_some _ _ _).mp hkv
          simp only [refsBelow, decide_eq_true_eq] at hrb
          obtain ⟨hgc, hrbc, hclc⟩ := hsrc a (.cMap kvs) hrb hvcell
          have hS₁ := SInv_reserve N₀ st (.cMap []) (.kMap a (.mapT kt vt))
            (.mapV kt vt (some st.next)) hS hrb rfl hvl
          have hC₁ := CompleteE_reserve N₀ P st (.cMap []) (.kMap a (.mapT kt vt))
            (.mapV kt vt (some st.next)) hS hC hvl
          have hbel₁ : ∀ x, x < N₀ →
              (setCell st.next (.cMap []) st.mem).lookup x = st.mem.lookup x :=
            fun x hx => lookup_setCell_ne _ _ _ _ (by omega)
          have hcl₁ : (kvs.all fun kv =>
              closedIn (setCell st.next (.cMap []) st.mem) kv.1 &&
              closedIn (setCell st.next (.cMap []) st.mem) kv.2) = true := by
            simp only [closedCell, List.all_eq_true, Bool.and_eq_true] at hclc ⊢
            simp only [refsBelowCell, List.all_eq_true, Bool.and_eq_true] at hrbc
            intro kv hkv'
            exact ⟨closedIn_below N₀ st.mem _ hbel₁ kv.1 (hrbc kv hkv').1
                (hclc kv hkv').1,
              closedIn_below N₀ st.mem _ hbel₁ kv.2 (hrbc kv hkv').2 (hclc kv hkv').2⟩
          obtain ⟨hS₂, hC₂, hsimP⟩ :=
            slow_master_pairs n N₀ hIH
              ⟨setCell st.next (.cMap []) st.mem, st.next + 1,
                (VKey.kMap a (.mapT kt vt), Val.mapV kt vt (some st.next)) :: st.vis⟩
              kvs st₂ kvs' (VKey.kMap a (.mapT kt vt) :: P) h₁
              (by simpa [goodCell] using hgc) (by simpa [refsBelowCell] using hrbc)
              hcl₁ (srcOK_frame N₀ st.mem _ hbel₁ hsrc) hS₁ hC₁
          have hfr := clonePairs_frame (clone n true) StExt StExt.refl
            (fun _ _ _ => StExt.trans)
            (fun s w s' w' hh => (clone_frame n true s w s' w' hh).1)
            _ kvs st₂ kvs' h₁
          obtain ⟨hnx₂, hpre₂, _, hvis₂⟩ := hfr
          have hnx₂' : st.next + 1 ≤ st₂.next := hnx₂
          have hk₀ : lookupVis st₂.vis (VKey.kMap a (.mapT kt vt))
              = some (.mapV kt vt (some st.next)) :=
            hvis₂ _ _ (lookupVis_cons_self _ _ _)
          have hacell₂ : st₂.mem.lookup a = some (.cMap kvs) := by
            have h₁' := hpre₂ a (show a < st.next + 1 by omega)
            rw [h₁']
            show (setCell st.next (Cell.cMap []) st.mem).lookup a = some (.cMap kvs)
            rw [lookup_setCell_ne _ _ _ _ (show a ≠ st.next by omega)]
            exact hvcell
          cases heq
          refine ⟨SInv_finalize N₀ st.next st₂ (.cMap kvs') hS₂ (by omega), ?_, ?_⟩
          · refine CompleteE_finalize N₀ P st₂ (VKey.kMap a (.mapT kt vt))
              (Val.mapV kt vt (some st.next)) st.next (.cMap kvs')
              hS₂ hC₂ hk₀ rfl hN ?_
            refine ⟨kt, vt, kvs, st.next, kvs', rfl, rfl, ?_,
              lookup_setCell_self _ _ _, hsimP⟩
            rw [lookup_setCell_ne _ _ _ _ (show a ≠ st.next by omega)]
            exact hacell₂
          · show (lookupVis st₂.vis (VKey.kMap a (Ty.mapT kt vt))
              == some (Val.mapV kt vt (some st.next))) = true
            rw [hk₀]
            simp

/-! ## Transferring paths through the simulation -/

theorem refFreeL_get : ∀ (es : Vals) (j : Nat) (f : Val),
    refFreeL es = true → Vals.get? es j = some f → refFree f = true
  | .vnil, _, _, _, hget => by simp [Vals.get?] at hget
  | .vcons v vs, 0, f, hrf, hget => by
    simp only [Vals.get?] at hget
    cases hget
    simp only [refFreeL, Bool.and_eq_true] at hrf
    exact hrf.1
  | .vcons v vs, j+1, f, hrf, hget => by
    simp only [Vals.get?] at hget
    simp only [refFreeL, Bool.and_eq_true] at hrf
    exact refFreeL_get vs j f hrf.2 hget

theorem refsBelowL_get (N : Nat) : ∀ (es : Vals) (j : Nat) (f : Val),
    refsBelowL N es = true → Vals.get? es j = some f → refsBelow N f = true
  | .vnil, _, _, _, hget => by simp [Vals.get?] at hget
  | .vcons v vs, 0, f, hrb, hget => by
    simp only [Vals.get?] at hget
    cases hget
    simp only [refsBelowL, Bool.and_eq_true] at hrb
    exact hrb.1
  | .vcons v vs, j+1, f, hrb, hget => by
    simp only [Vals.get?] at hget
    simp only [refsBelowL, Bool.and_eq_true] at hrb
    exact refsBelowL_get N vs j f hrb.2 hget

theorem simFields_get (V : List (VKey × Val)) (pf : List Nat) :
    ∀ (fs gs : Vals) (i j : Nat) (f : Val),
      simFields V pf i fs gs = true → Vals.get? fs j = some f →
      ∃ g, Vals.get? gs j = some g ∧ sim V f g = true
  | .vnil, _, _, _, _, _, hget => by simp [Vals.get?] at hget
  | .vcons f₀ fs, .vnil, i, j, f, hsim, _ => by simp [simFields] at hsim
  | .vcons f₀ fs, .vcons g₀ gs, i, 0, f, hsim, hget => by
    simp only [Vals.get?] at hget
    cases hget
    simp only [simFields, Bool.and_eq_true] at hsim
    refine ⟨g₀, rfl, ?_⟩
    have h₁ := hsim.1
    by_cases hi : i ∈ pf
    · rwa [if_pos hi] at h₁
    · rw [if_neg hi] at h₁
      simp only [Bool.and_eq_true, beq_iff_eq] at h₁
      rw [h₁.1]
      exact refFree_sim V _ h₁.2
  | .vcons f₀ fs, .vcons g₀ gs, i, j+1, f, hsim, hget => by
    simp only [Vals.get?] at hget
    simp only [simFields, Bool.and_eq_true] at hsim
    exact simFields_get V pf fs gs (i+1) j f hsim.2 hget

theorem simElems_get (V : List (VKey × Val)) :
    ∀ (vs ws : Vals) (j : Nat) (f : Val),
      simElems V vs ws = true → Vals.get? vs j = some f →
      ∃ g, Vals.get? ws j = some g ∧ sim V f g = true
  | .vnil, _, _, _, _, hget => by simp [Vals.get?] at hget
  | .vcons v vs, .vnil, j, f, hsim, _ => by simp [simElems] at hsim
  | .vcons v vs, .vcons w ws, 0, f, hsim, hget => by
    simp only [Vals.get?] at hget
    cases hget
    simp only [simElems, Bool.and_eq_true] at hsim
    exact ⟨w, rfl, hsim.1⟩
  | .vcons v vs, .vcons w ws, j+1, f, hsim, hget => by
    simp only [Vals.get?] at hget
    simp only [simElems, Bool.and_eq_true] at hsim
    exact simElems_get V vs ws j f hsim.2 hget

theorem simList_get (V : List (VKey × Val)) :
    ∀ (vs ws : List Val) (j : Nat) (f : Val),
      simList V vs ws = true → vs.get? j = some f →
      ∃ g, ws.get? j = some g ∧ sim V f g = true
  | [], _, _, _, _, hget => by simp at hget
  | v :: vs, [], j, f, hsim, _ => by simp [simList] at hsim
  | v :: vs, w :: ws, 0, f, hsim, hget => by
    simp only [List.get?] at hget
    cases hget
    simp only [simList, Bool.and_eq_true] at hsim
    exact ⟨w, rfl, hsim.1⟩
  | v :: vs, w :: ws, j+1, f, hsim, hget => by
    simp only [List.get?] at hget
    simp only [simList, Bool.and_eq_true] at hsim
    exact simList_get V vs ws j f hsim.2 hget

theorem simPairs_get (V : List (VKey × Val)) :
    ∀ (kvs kvs' : List (Val × Val)) (j : Nat) (kv : Val × Val),
      simPairs V kvs kvs' = true → kvs.get? j = some kv →
      ∃ kv', kvs'.get? j = some kv' ∧ sim V kv.1 kv'.1 = true ∧
        sim V kv.2 kv'.2 = true
  | [], _, _, _, _, hget => by simp at hget
  | kv₀ :: kvs, [], j, kv, hsim, _ => by
    obtain ⟨k, v⟩ := kv₀
    simp [simPairs] at hsim
  | (k, v) :: kvs, (k', v') :: kvs', 0, kv, hsim, hget => by
    simp only [List.get?] at hget
    cases hget
    simp only [simPairs, Bool.and_eq_true] at hsim
    exact ⟨(k', v'), rfl, hsim.1.1, hsim.1.2⟩
  | (k, v) :: kvs, (k', v') :: kvs', j+1, kv, hsim, hget => by
    simp only [List.get?] at hget
    simp only [simPairs, Bool.and_eq_true] at hsim
    exact simPairs_get V kvs kvs' j kv hsim.2 hget

theorem walk_frame (N : Nat) (S S' : Store)
    (hag : ∀ x, x < N → S'.lookup x = S.lookup x)
    (hsrc : srcOK N S) :
    ∀ (p : List PStep) (v u : Val), refsBelow N v = true →
      walk S v p = some u → walk S' v p = some u ∧ refsBelow N u = true
  | [], v, u, hrb, hw => by
    simp only [walk] at hw
    cases hw
    refine ⟨?_, hrb⟩
    simp only [walk]
  | .pDeref :: p, v, u, hrb, hw => by
    cases v with
    | ptrV e oa =>
      cases oa with
      | none => simp [walk] at hw
      | some a =>
        simp only [refsBelow, decide_eq_true_eq] at hrb
        cases hl : S.lookup a with
        | none => simp [walk, hl] at hw
        | some c =>
          cases c with
          | cPtr w =>
            simp only [walk, hl] at hw
            obtain ⟨hgc, hrbc, hclc⟩ := hsrc a (.cPtr w) hrb hl
            have hl' : S'.lookup a = some (.cPtr w) := by
              rw [hag a hrb]
              exact hl
            have := walk_frame N S S' hag hsrc p w u hrbc hw
            refine ⟨?_, this.2⟩
            simp only [walk, hl']
            exact this.1
          | cSeq vs => simp [walk, hl] at hw
          | cMap kvs => simp [walk, hl] at hw
    | scalarV k => simp [walk] at hw
    | chanV c => simp [walk] at hw
    | sliceV e r => simp [walk] at hw
    | mapV kt vt oa => simp [walk] at hw
    | structV fts fs => simp [walk] at hw
    | arrayV e es => simp [walk] at hw
  | .pField i :: p, v, u, hrb, hw => by
    cases v with
    | structV fts fs =>
      simp only [refsBelow] at hrb
      cases hg : Vals.get? fs i with
      | none => simp [walk, hg] at hw
      | some f =>
        simp only [walk, hg] at hw
        have hrbf := refsBelowL_get N fs i f hrb hg
        have := walk_frame N S S' hag hsrc p f u hrbf hw
        refine ⟨?_, this.2⟩
        simp only [walk, hg]
        exact this.1
    | scalarV k => simp [walk] at hw
    | chanV c => simp [walk] at hw
    | ptrV e oa => simp [walk] at hw
    | sliceV e r => simp [walk] at hw
    | mapV kt vt oa => simp [walk] at hw
    | arrayV e es => simp [walk] at hw
  | .pElem i :: p, v, u, hrb, hw => by
    cases v with
    | arrayV e es =>
      simp only [refsBelow] at hrb
      cases hg : Vals.get? es i with
      | none => simp [walk, hg] at hw
      | some f =>
        simp only [walk, hg] at hw
        have hrbf := refsBelowL_get N es i f hrb hg
        have := walk_frame N S S' hag hsrc p f u hrbf hw
        refine ⟨?_, this.2⟩
        simp only [walk, hg]
        exact this.1
    | scalarV k => simp [walk] at hw
    | chanV c => simp [walk] at hw
    | ptrV e oa => simp [walk] at hw
    | sliceV e r => simp [walk] at hw
    | mapV kt vt oa => simp [walk] at hw
    | structV fts fs => simp [walk] at hw
  | .pIdx i :: p, v, u, hrb, hw => by
    cases v with
    | sliceV e r =>
      cases r with
      | none => simp [walk] at hw
      | some t =>
        obtain ⟨a, len, cap⟩ := t
        simp only [refsBelow, decide_eq_true_eq] at hrb
        cases hl : S.lookup a with
        | none => simp [walk, hl] at hw
        | some c =>
          cases c with
          | cSeq vs =>
            simp only [walk, hl] at hw
            cases hg : (vs.take len).get? i with
            | none =>
              rw [List.get?_eq_getElem?] at hg
              simp [hg] at hw
            | some f =>
              simp only [hg] at hw
              obtain ⟨hgc, hrbc, hclc⟩ := hsrc a (.cSeq vs) hrb hl
              have hrbf : refsBelow N f = true := by
                simp only [refsBelowCell, List.all_eq_true] at hrbc
                exact hrbc f (List.mem_of_mem_take (List.get?_mem hg))
              have hl' : S'.lookup a = some (.cSeq vs) := by
                rw [hag a hrb]
                exact hl
              have := walk_frame N S S' hag hsrc p f u hrbf hw
              refine ⟨?_, this.2⟩
              simp only [walk, hl', hg]
              exact this.1
          | cPtr w => simp [walk, hl] at hw
          | cMap kvs => simp [walk, hl] at hw
    | scalarV k => simp [walk] at hw
    | chanV c => simp [walk] at hw
    | ptrV e oa => simp [walk] at hw
    | mapV kt vt oa => simp [walk] at hw
    | structV fts fs => simp [walk] at hw
    | arrayV e es => simp [walk] at hw
  | .pKey i :: p, v, u, hrb, hw => by
    cases v with
    | mapV kt vt oa =>
      cases oa with
      | none => simp [walk] at hw
      | some a =>
        simp only [refsBelow, decide_eq_true_eq] at hrb
        cases hl : S.lookup a with
        | none => simp [walk, hl] at hw
        | some c =>
          cases c with
          | cMap kvs =>
            simp only [walk, hl] at hw
            cases hg : kvs.get? i with
            | none =>
              rw [List.get?_eq_getElem?] at hg
              simp [hg] at hw
            | some kv =>
              simp only [hg] at hw
              obtain ⟨hgc, hrbc, hclc⟩ := hsrc a (.cMap kvs) hrb hl
              have hrbf : refsBelow N kv.1 = true := by
                simp only [refsBelowCell, List.all_eq_true, Bool.and_eq_true] at hrbc
                exact (hrbc kv (List.get?_mem hg)).1
              have hl' : S'.lookup a = some (.cMap kvs) := by
                rw [hag a hrb]
                exact hl
              have := walk_frame N S S' hag hsrc p kv.1 u hrbf hw
              refine ⟨?_, this.2⟩
              simp only [walk, hl', hg]
              exact this.1
          | cPtr w => simp [walk, hl] at hw
          | cSeq vs => simp [walk, hl] at hw
    | scalarV k => simp [walk] at hw
    | chanV c => simp [walk] at hw
    | ptrV e oa => simp [walk] at hw
    | sliceV e r => simp [walk] at hw
    | structV fts fs => simp [walk] at hw
    | arrayV e es => simp [walk] at hw
  | .pMVal i :: p, v, u, hrb, hw => by
    cases v with
    | mapV kt vt oa =>
      cases oa with
      | none => simp [walk] at hw
      | some a =>
        simp only [refsBelow, decide_eq_true_eq] at hrb
        cases hl : S.lookup a with
        | none => simp [walk, hl] at hw
        | some c =>
          cases c with
          | cMap kvs =>
            simp only [walk, hl] at hw
            cases hg : kvs.get? i with
            | none =>
              rw [List.get?_eq_getElem?] at hg
              simp [hg] at hw
            | some kv =>
              simp only [hg] at hw
              obtain ⟨hgc, hrbc, hclc⟩ := hsrc a (.cMap kvs) hrb hl
              have hrbf : refsBelow N kv.2 = true := by
                simp only [refsBelowCell, List.all_eq_true, Bool.and_eq_true] at hrbc
                exact (hrbc kv (List.get?_mem hg)).2
              have hl' : S'.lookup a = some (.cMap kvs) := by
                rw [hag a hrb]
                exact hl
              have := walk_frame N S S' hag hsrc p kv.2 u hrbf hw
              refine ⟨?_, this.2⟩
              simp only [walk, hl', hg]
              exact this.1
          | cPtr w => simp [walk, hl] at hw
          | cSeq vs => simp [walk, hl] at hw
    | scalarV k => simp [walk] at hw
    | chanV c => simp [walk] at hw
    | ptrV e oa => simp [walk] at hw
    | sliceV e r => simp [walk] at hw
    | structV fts fs => simp [walk] at hw
    | arrayV e es => simp [walk] at hw

theorem walk_sim (mem : Store) (V : List (VKey × Val))
    (hdone : ∀ k tv, lookupVis V k = some tv → entryDone mem V k tv) :
    ∀ (p : List PStep) (v v' u : Val),
      sim V v v' = true → walk mem v p = some u →
      ∃ u', walk mem v' p = some u' ∧ sim V u u' = true
  | [], v, v', u, hsim, hw => by
    simp only [walk] at hw
    cases hw
    refine ⟨v', ?_, hsim⟩
    simp only [walk]
  | .pDeref :: p, v, v', u, hsim, hw => by
    cases v with
    | ptrV e oa =>
      cases oa with
      | none => simp [walk] at hw
      | some a =>
        simp only [sim, beq_iff_eq] at hsim
        obtain ⟨e₁, w, b, w', ht, htv, ha, hb, hsimw⟩ := hdone _ _ hsim
        injection ht with he
        subst he
        subst htv
        simp only [walk, ha] at hw
        obtain ⟨u', hwu', hsimu'⟩ := walk_sim mem V hdone p w w' u hsimw hw
        refine ⟨u', ?_, hsimu'⟩
        simp only [walk, hb]
        exact hwu'
    | scalarV k => simp [walk] at hw
    | chanV c => simp [walk] at hw
    | sliceV e r => simp [walk] at hw
    | mapV kt vt oa => simp [walk] at hw
    | structV fts fs => simp [walk] at hw
    | arrayV e es => simp [walk] at hw
  | .pField i :: p, v, v', u, hsim, hw => by
    cases v with
    | structV fts fs =>
      cases v' with
      | structV fts' gs =>
        simp only [sim, Bool.and_eq_true, beq_iff_eq] at hsim
        obtain ⟨hfts, hsimF⟩ := hsim
        subst hfts
        cases hgf : Vals.get? fs i with
        | none => simp [walk, hgf] at hw
        | some f =>
          simp only [walk, hgf] at hw
          obtain ⟨g, hgg, hsimg⟩ := simFields_get V _ fs gs 0 i f hsimF hgf
          obtain ⟨u', hwu', hsimu'⟩ := walk_sim mem V hdone p f g u hsimg hw
          refine ⟨u', ?_, hsimu'⟩
          simp only [walk, hgg]
          exact hwu'
      | scalarV k => simp [sim] at hsim
      | chanV c => simp [sim] at hsim
      | ptrV e oa => simp [sim] at hsim
      | sliceV e r => simp [sim] at hsim
      | mapV kt vt oa => simp [sim] at hsim
      | arrayV e es => simp [sim] at hsim
    | scalarV k => simp [walk] at hw
    | chanV c => simp [walk] at hw
    | ptrV e oa => simp [walk] at hw
    | sliceV e r => simp [walk] at hw
    | mapV kt vt oa => simp [walk] at hw
    | arrayV e es => simp [walk] at hw
  | .pElem i :: p, v, v', u, hsim, hw => by
    cases v with
    | arrayV e es =>
      cases v' with
      | arrayV e' es' =>
        simp only [sim, Bool.and_eq_true, beq_iff_eq] at hsim
        obtain ⟨he, hsimE⟩ := hsim
        subst he
        cases hgf : Vals.get? es i with
        | none => simp [walk, hgf] at hw
        | some f =>
          simp only [walk, hgf] at hw
          by_cases hsc : isScalar e
          · rw [if_pos hsc] at hsimE
            simp only [Bool.and_eq_true, beq_iff_eq] at hsimE
            obtain ⟨hes, hrf⟩ := hsimE
            subst hes
            have hrff := refFreeL_get es i f hrf hgf
            obtain ⟨u', hwu', hsimu'⟩ :=
              walk_sim mem V hdone p f f u (refFree_sim V f hrff) hw
            refine ⟨u', ?_, hsimu'⟩
            simp only [walk, hgf]
            exact hwu'
          · rw [if_neg hsc] at hsimE
            obtain ⟨g, hgg, hsimg⟩ := simElems_get V es es' i f hsimE hgf
            obtain ⟨u', hwu', hsimu'⟩ := walk_sim mem V hdone p f g u hsimg hw
            refine ⟨u', ?_, hsimu'⟩
            simp only [walk, hgg]
            exact hwu'
      | scalarV k => simp [sim] at hsim
      | chanV c => simp [sim] at hsim
      | ptrV e' oa => simp [sim] at hsim
      | sliceV e' r => simp [sim] at hsim
      | mapV kt vt oa => simp [sim] at hsim
      | structV fts fs => simp [sim] at hsim
    | scalarV k => simp [walk] at hw
    | chanV c => simp [walk] at hw
    | ptrV e oa => simp [walk] at hw
    | sliceV e r => simp [walk] at hw
    | mapV kt vt oa => simp [walk] at hw
    | structV fts fs => simp [walk] at hw
  | .pIdx i :: p, v, v', u, hsim, hw => by
    cases v with
    | sliceV e r =>
      cases r with
      | none => simp [walk] at hw
      | some t =>
        obtain ⟨a, len, cap⟩ := t
        simp only [sim, beq_iff_eq] at hsim
        obtain ⟨e₁, vs, b, cap₁, ws, ht, htv, ha, hb, hsimL⟩ := hdone _ _ hsim
        injection ht with he
        subst he
        subst htv
        simp only [walk, ha] at hw
        cases hgf : (vs.take len).get? i with
        | none =>
          rw [List.get?_eq_getElem?] at hgf
          simp [hgf] at hw
        | some f =>
          simp only [hgf] at hw
          obtain ⟨g, hgg, hsimg⟩ := simList_get V (vs.take len) (ws.take len) i f hsimL hgf
          obtain ⟨u', hwu', hsimu'⟩ := walk_sim mem V hdone p f g u hsimg hw
          refine ⟨u', ?_, hsimu'⟩
          simp only [walk, hb, hgg]
          exact hwu'
    | scalarV k => simp [walk] at hw
    | chanV c => simp [walk] at hw
    | ptrV e oa => simp [walk] at hw
    | mapV kt vt oa => simp [walk] at hw
    | structV fts fs => simp [walk] at hw
    | arrayV e es => simp [walk] at hw
  | .pKey i :: p, v, v', u, hsim, hw => by
    cases v with
    | mapV kt vt oa =>
      cases oa with
      | none => simp [walk] at hw
      | some a =>
        simp only [sim, beq_iff_eq] at hsim
        obtain ⟨kt₁, vt₁, kvs, b, kvs', ht, htv, ha, hb, hsimP⟩ := hdone _ _ hsim
        injection ht with he₁ he₂
        subst he₁
        subst he₂
        subst htv
        simp only [walk, ha] at hw
        cases hgf : kvs.get? i with
        | none =>
          rw [List.get?_eq_getElem?] at hgf
          simp [hgf] at hw
        | some kv =>
          simp only [hgf] at hw
          obtain ⟨kv', hgg, hsimk, hsimv⟩ := simPairs_get V kvs kvs' i kv hsimP hgf
          obtain ⟨u', hwu', hsimu'⟩ := walk_sim mem V hdone p kv.1 kv'.1 u hsimk hw
          refine ⟨u', ?_, hsimu'⟩
          simp only [walk, hb, hgg]
          exact hwu'
    | scalarV k => simp [walk] at hw
    | chanV c => simp [walk] at hw
    | ptrV e oa => simp [walk] at hw
    | sliceV e r => simp [walk] at hw
    | structV fts fs => simp [walk] at hw
    | arrayV e es => simp [walk] at hw
  | .pMVal i :: p, v, v', u, hsim, hw => by
    cases v with
    | mapV kt vt oa =>
      cases oa with
      | none => simp [walk] at hw
      | some a =>
        simp only [sim, beq_iff_eq] at hsim
        obtain ⟨kt₁, vt₁, kvs, b, kvs', ht, htv, ha, hb, hsimP⟩ := hdone _ _ hsim
        injection ht with he₁ he₂
        subst he₁
        subst he₂
        subst htv
        simp only [walk, ha] at hw
        cases hgf : kvs.get? i with
        | none =>
          rw [List.get?_eq_getElem?] at hgf
          simp [hgf] at hw
        | some kv =>
          simp only [hgf] at hw
          obtain ⟨kv', hgg, hsimk, hsimv⟩ := simPairs_get V kvs kvs' i kv hsimP hgf
          obtain ⟨u', hwu', hsimu'⟩ := walk_sim mem V hdone p kv.2 kv'.2 u hsimv hw
          refine ⟨u', ?_, hsimu'⟩
          simp only [walk, hb, hgg]
          exact hwu'
    | scalarV k => simp [walk] at hw
    | chanV c => simp [walk] at hw
    | ptrV e oa => simp [walk] at hw
    | sliceV e r => simp [walk] at hw
    | structV fts fs => simp [walk] at hw
    | arrayV e es => simp [walk] at hw

/-! ## C2 and C8: the visit map in the slow mode -/

/-- C2: the slow path (`Slowly` / `CloneSlowly`) preserves aliasing: if two
paths through a well-formed value `v` reach the *same* non-nil pointer
(same referent address `a`, same pointer type), then in the cloned value
the two corresponding paths reach the same cloned pointer — one common
freshly allocated referent `b` — because the visit map sends the key
`(a, *T)` to a single destination. -/
theorem Slowly_preserves_aliasing
    (n N : Nat) (S : Store) (v : Val) (st' : St) (v' : Val)
    (p₁ p₂ : List PStep) (e : Ty) (a : Nat)
    (hrun : clone n true ⟨S, N, []⟩ v = some (st', v'))
    (hgood : good v = true) (hrb : refsBelow N v = true)
    (hcl : closedIn S v = true) (hsrc : srcOK N S)
    (hwf : ∀ x, (S.lookup x).isSome → x < N)
    (hw₁ : walk S v p₁ = some (.ptrV e (some a)))
    (hw₂ : walk S v p₂ = some (.ptrV e (some a))) :
    ∃ b, walk st'.mem v' p₁ = some (.ptrV e (some b)) ∧
      walk st'.mem v' p₂ = some (.ptrV e (some b)) := by
  have hS₀ : SInv N ⟨S, N, []⟩ := by
    refine ⟨fun x hx => hwf x hx, le_refl N, ?_, ?_⟩
    · intro k tv hk
      simp [lookupVis] at hk
    · intro k k' tv tv' hk
      simp [lookupVis] at hk
  have hC₀ : CompleteE [] ⟨S, N, []⟩ := by
    intro k tv hk
    simp [lookupVis] at hk
  obtain ⟨hS', hC', hsim⟩ :=
    slow_master n N ⟨S, N, []⟩ v st' v' [] hrun hgood hrb hcl hsrc hS₀ hC₀
  have hdone : ∀ k tv, lookupVis st'.vis k = some tv → entryDone st'.mem st'.vis k tv :=
    fun k tv hk => hC' k tv hk (List.not_mem_nil k)
  have hpre : ∀ x, x < N → st'.mem.lookup x = S.lookup x :=
    (clone_frame n true ⟨S, N, []⟩ v st' v' hrun).1.2.1
  obtain ⟨hw₁', _⟩ := walk_frame N S st'.mem hpre hsrc p₁ v _ hrb hw₁
  obtain ⟨hw₂', _⟩ := walk_frame N S st'.mem hpre hsrc p₂ v _ hrb hw₂
  obtain ⟨u₁, hwu₁, hsimu₁⟩ := walk_sim st'.mem st'.vis hdone p₁ v v' _ hsim hw₁'
  obtain ⟨u₂, hwu₂, hsimu₂⟩ := walk_sim st'.mem st'.vis hdone p₂ v v' _ hsim hw₂'
  simp only [sim, beq_iff_eq] at hsimu₁ hsimu₂
  have hu : u₁ = u₂ := by
    rw [hsimu₁] at hsimu₂
    exact Option.some.inj hsimu₂
  obtain ⟨e₁, w, b, w', ht, htv, _, _, _⟩ := hdone _ _ hsimu₁
  injection ht with he
  subst he
  subst htv
  subst hu
  exact ⟨b, hwu₁, hwu₂⟩

/-- C8: the slow-mode visit key of a slice includes the slice length as a
discriminant besides the backing address and the type.  Consequently, in a
successful slow clone of a well-formed value, any two paths reaching slices
over the same backing address with the *same* length are sent to the same
freshly allocated destination, while two different-length views over the
same backing address are sent to two *distinct* destinations. -/
theorem Slowly_slice_length_discriminates
    (n N : Nat) (S : Store) (v : Val) (st' : St) (v' : Val)
    (p₁ p₂ : List PStep) (e : Ty) (a len₁ cap₁ len₂ cap₂ : Nat)
    (hrun : clone n true ⟨S, N, []⟩ v = some (st', v'))
    (hgood : good v = true) (hrb : refsBelow N v = true)
    (hcl : closedIn S v = true) (hsrc : srcOK N S)
    (hwf : ∀ x, (S.lookup x).isSome → x < N)
    (hw₁ : walk S v p₁ = some (.sliceV e (some (a, len₁, cap₁))))
    (hw₂ : walk S v p₂ = some (.sliceV e (some (a, len₂, cap₂)))) :
    ∃ b₁ c₁ b₂ c₂,
      walk st'.mem v' p₁ = some (.sliceV e (some (b₁, len₁, c₁))) ∧
      walk st'.mem v' p₂ = some (.sliceV e (some (b₂, len₂, c₂))) ∧
      (len₁ = len₂ → b₁ = b₂) ∧
      (len₁ ≠ len₂ → b₁ ≠ b₂) := by
  have hS₀ : SInv N ⟨S, N, []⟩ := by
    refine ⟨fun x hx => hwf x hx, le_refl N, ?_, ?_⟩
    · intro k tv hk
      simp [lookupVis] at hk
    · intro k k' tv tv' hk
      simp [lookupVis] at hk
  have hC₀ : CompleteE [] ⟨S, N, []⟩ := by
    intro k tv hk
    simp [lookupVis] at hk
  obtain ⟨hS', hC', hsim⟩ :=
    slow_master n N ⟨S, N, []⟩ v st' v' [] hrun hgood hrb hcl hsrc hS₀ hC₀
  have hdone : ∀ k tv, lookupVis st'.vis k = some tv → entryDone st'.mem st'.vis k tv :=
    fun k tv hk => hC' k tv hk (List.not_mem_nil k)
  have hpre : ∀ x, x < N → st'.mem.lookup x = S.lookup x :=
    (clone_frame n true ⟨S, N, []⟩ v st' v' hrun).1.2.1
  obtain ⟨hw₁', _⟩ := walk_frame N S st'.mem hpre hsrc p₁ v _ hrb hw₁
  obtain ⟨hw₂', _⟩ := walk_frame N S st'.mem hpre hsrc p₂ v _ hrb hw₂
  obtain ⟨u₁, hwu₁, hsimu₁⟩ := walk_sim st'.mem st'.vis hdone p₁ v v' _ hsim hw₁'
  obtain ⟨u₂, hwu₂, hsimu₂⟩ := walk_sim st'.mem st'.vis hdone p₂ v v' _ hsim hw₂'
  simp only [sim, beq_iff_eq] at hsimu₁ hsimu₂
  obtain ⟨e₁, vs₁, b₁, c₁, ws₁, ht₁, htv₁, _, _, _⟩ := hdone _ _ hsimu₁
  obtain ⟨e₂, vs₂, b₂, c₂, ws₂, ht₂, htv₂, _, _, _⟩ := hdone _ _ hsimu₂
  injection ht₁ with he₁
  subst he₁
  subst htv₁
  injection ht₂ with he₂
  subst he₂
  subst htv₂
  refine ⟨b₁, c₁, b₂, c₂, hwu₁, hwu₂, ?_, ?_⟩
  · intro hlen
    subst hlen
    rw [hsimu₁] at hsimu₂
    have := Option.some.inj hsimu₂
    cases this
    rfl
  · intro hlen
    have hkne : VKey.kSlice a len₁ (.sliceT e) ≠ VKey.kSlice a len₂ (.sliceT e) := by
      intro h
      injection h with h₁ h₂ h₃
      exact hlen h₂
    have := hS'.2.2.2 _ _ _ _ hsimu₁ hsimu₂ hkne
    simp only [tvDest] at this
    intro hb
    subst hb
    exact this rfl

/-! ## Termination of the slow mode -/

theorem visKeys_isSome : ∀ (V : List (VKey × Val)) (k : VKey),
    k ∈ visKeys V ↔ (lookupVis V k).isSome
  | [], k => by simp [visKeys, lookupVis]
  | (k₀, tv) :: V, k => by
    by_cases hk : k = k₀
    · subst hk
      rw [lookupVis_cons_self]
      simp only [Option.isSome_some, iff_true]
      show k ∈ (k, tv).1 :: visKeys V
      exact List.mem_cons_self _ _
    · rw [lookupVis_cons_ne _ _ _ _ hk]
      show k ∈ (k₀, tv).1 :: visKeys V ↔ _
      rw [List.mem_cons]
      constructor
      · rintro (h | h)
        · exact absurd h hk
        · exact (visKeys_isSome V k).mp h
      · intro h
        exact Or.inr ((visKeys_isSome V k).mpr h)

theorem unvisited_mono (KS : Finset VKey) (st st' : St)
    (h : ∀ k tv, lookupVis st.vis k = some tv → lookupVis st'.vis k = some tv) :
    unvisited KS st' ≤ unvisited KS st := by
  apply Finset.card_le_card
  intro k hk
  simp only [unvisited, Finset.mem_sdiff, List.mem_toFinset] at hk ⊢
  refine ⟨hk.1, ?_⟩
  intro hmem
  apply hk.2
  obtain ⟨tv, htv⟩ := Option.isSome_iff_exists.mp ((visKeys_isSome st.vis k).mp hmem)
  exact (visKeys_isSome st'.vis k).mpr (by rw [h k tv htv]; rfl)

theorem unvisited_strict (KS : Finset VKey) (st : St) (mem' : Store) (nx : Nat)
    (k₀ : VKey) (nv : Val)
    (hks : k₀ ∈ KS) (hmiss : lookupVis st.vis k₀ = none) :
    unvisited KS ⟨mem', nx, (k₀, nv) :: st.vis⟩ < unvisited KS st := by
  refine Finset.card_lt_card (Finset.ssubset_def.mpr ⟨?_, ?_⟩)
  · intro k hk
    simp only [unvisited, Finset.mem_sdiff, List.mem_toFinset] at hk ⊢
    refine ⟨hk.1, fun hmem => hk.2 ?_⟩
    show k ∈ (k₀, nv).1 :: visKeys st.vis
    exact List.mem_cons_of_mem _ hmem
  · intro hsub
    have hk₀ : k₀ ∈ KS \ (visKeys st.vis).toFinset := by
      simp only [Finset.mem_sdiff, List.mem_toFinset]
      refine ⟨hks, fun hmem => ?_⟩
      have := (visKeys_isSome st.vis k₀).mp hmem
      rw [hmiss] at this
      cases this
    have := hsub hk₀
    simp only [Finset.mem_sdiff, List.mem_toFinset] at this
    exact this.2 (List.mem_cons_self _ _)

theorem Store.lookup_mem_pair : ∀ (S : List (Nat × Cell)) (a : Nat) (c : Cell),
    Store.lookup S a = some c → ∃ p, p ∈ S ∧ p.2 = c
  | [], a, c, h => by simp [Store.lookup] at h
  | (b, c₀) :: S, a, c, h => by
    simp only [Store.lookup] at h
    by_cases hab : a = b
    · rw [if_pos hab] at h
      cases h
      exact ⟨(b, c₀), List.mem_cons_self _ _, rfl⟩
    · rw [if_neg hab] at h
      obtain ⟨p, hp, hpc⟩ := Store.lookup_mem_pair S a c h
      exact ⟨p, List.mem_cons_of_mem _ hp, hpc⟩

theorem keysInCell_keySpace (S : List (Nat × Cell)) (v : Val) (a : Nat) (c : Cell)
    (hl : Store.lookup S a = some c) :
    ∀ k, k ∈ keysInCell c → k ∈ keySpace S v := by
  intro k hk
  obtain ⟨p, hp, hpc⟩ := Store.lookup_mem_pair S a c hl
  simp only [keySpace, List.mem_append, List.mem_flatMap]
  exact Or.inr ⟨p, hp, by rw [hpc]; exact hk⟩

theorem slow_total_list (N₀ : Nat) (KS : Finset VKey) (U : Nat)
    (hO : ∀ (w : Val) (st : St), unvisited KS st < U → good w = true →
      refsBelow N₀ w = true → closedIn st.mem w = true → srcOK N₀ st.mem →
      N₀ ≤ st.next → (∀ k, k ∈ keysIn w → k ∈ KS) →
      (∀ a c, a < N₀ → st.mem.lookup a = some c → ∀ k, k ∈ keysInCell c → k ∈ KS) →
      ∃ n st' w', clone n true st w = some (st', w')) :
    ∀ (vs : List Val) (st : St), unvisited KS st < U →
      vs.all good = true → vs.all (refsBelow N₀) = true →
      vs.all (closedIn st.mem) = true → srcOK N₀ st.mem → N₀ ≤ st.next →
      (∀ w, w ∈ vs → ∀ k, k ∈ keysIn w → k ∈ KS) →
      (∀ a c, a < N₀ → st.mem.lookup a = some c → ∀ k, k ∈ keysInCell c → k ∈ KS) →
      ∃ n st' vs', cloneList (clone n true) st vs = some (st', vs')
  | [], st, _, _, _, _, _, _, _, _ => ⟨1, st, [], rfl⟩
  | v :: vs, st, hU, hgood, hrb, hcl, hsrc, hN, hkeys, hcells => by
    simp only [List.all_cons, Bool.and_eq_true] at hgood hrb hcl
    obtain ⟨n₁, st₁, v₁', hrun₁⟩ :=
      hO v st hU hgood.1 hrb.1 hcl.1 hsrc hN (hkeys v (List.mem_cons_self _ _)) hcells
    obtain ⟨⟨hnx₁, hpre₁, _, hvis₁⟩, _⟩ := clone_frame n₁ true st v st₁ v₁' hrun₁
    have hbel₁ : ∀ x, x < N₀ → st₁.mem.lookup x = st.mem.lookup x :=
      fun x hx => hpre₁ x (lt_of_lt_of_le hx hN)
    have hU₁ : unvisited KS st₁ < U :=
      lt_of_le_of_lt (unvisited_mono KS st st₁ hvis₁) hU
    have hclvs := hcl.2
    have hrbvs := hrb.2
    have hcl₁ : vs.all (closedIn st₁.mem) = true := by
      simp only [List.all_eq_true] at hclvs hrbvs ⊢
      intro w hw
      exact closedIn_below N₀ st.mem st₁.mem hbel₁ w (hrbvs w hw) (hclvs w hw)
    have hcells₁ : ∀ a c, a < N₀ → st₁.mem.lookup a = some c →
        ∀ k, k ∈ keysInCell c → k ∈ KS := by
      intro a c ha hc
      rw [hbel₁ a ha] at hc
      exact hcells a c ha hc
    obtain ⟨n₂, st₂, vs₂', hrun₂⟩ :=
      slow_total_list N₀ KS U hO vs st₁ hU₁ hgood.2 hrb.2 hcl₁
        (srcOK_frame N₀ st.mem st₁.mem hbel₁ hsrc) (le_trans hN hnx₁)
        (fun w hw => hkeys w (List.mem_cons_of_mem _ hw)) hcells₁
    refine ⟨max n₁ n₂, st₂, v₁' :: vs₂', ?_⟩
    simp only [cloneList, Option.bind_eq_bind, Option.bind_eq_some]
    exact ⟨(st₁, v₁'), clone_mono n₁ (max n₁ n₂) (le_max_left _ _) true st v _ hrun₁,
      (st₂, vs₂'),
      cloneList_mono (clone n₂ true) (clone (max n₁ n₂) true)
        (fun s w r h => clone_mono n₂ (max n₁ n₂) (le_max_right _ _) true s w r h)
        st₁ vs _ hrun₂, rfl⟩

theorem slow_total_pairs (N₀ : Nat) (KS : Finset VKey) (U : Nat)
    (hO : ∀ (w : Val) (st : St), unvisited KS st < U → good w = true →
      refsBelow N₀ w = true → closedIn st.mem w = true → srcOK N₀ st.mem →
      N₀ ≤ st.next → (∀ k, k ∈ keysIn w → k ∈ KS) →
      (∀ a c, a < N₀ → st.mem.lookup a = some c → ∀ k, k ∈ keysInCell c → k ∈ KS) →
      ∃ n st' w', clone n true st w = some (st', w')) :
    ∀ (kvs : List (Val × Val)) (st : St), unvisited KS st < U →
      (kvs.all fun kv => good kv.1 && good kv.2) = true →
      (kvs.all fun kv => refsBelow N₀ kv.1 && refsBelow N₀ kv.2) = true →
      (kvs.all fun kv => closedIn st.mem kv.1 && closedIn st.mem kv.2) = true →
      srcOK N₀ st.mem → N₀ ≤ st.next →
      (∀ kv, kv ∈ kvs → (∀ k, k ∈ keysIn kv.1 → k ∈ KS) ∧
        (∀ k, k ∈ keysIn kv.2 → k ∈ KS)) →
      (∀ a c, a < N₀ → st.mem.lookup a = some c → ∀ k, k ∈ keysInCell c → k ∈ KS) →
      ∃ n st' kvs', clonePairs (clone n true) st kvs = some (st', kvs')
  | [], st, _, _, _, _, _, _, _, _ => ⟨1, st, [], rfl⟩
  | (k, v) :: kvs, st, hU, hgood, hrb, hcl, hsrc, hN, hkeys, hcells => by
    simp only [List.all_cons, Bool.and_eq_true] at hgood hrb hcl
    obtain ⟨n₁, st₁, k₁', hrun₁⟩ :=
      hO k st hU hgood.1.1 hrb.1.1 hcl.1.1 hsrc hN
        ((hkeys (k, v) (List.mem_cons_self _ _)).1) hcells
    obtain ⟨⟨hnx₁, hpre₁, _, hvis₁⟩, _⟩ := clone_frame n₁ true st k st₁ k₁' hrun₁
    have hbel₁ : ∀ x, x < N₀ → st₁.mem.lookup x = st.mem.lookup x :=
      fun x hx => hpre₁ x (lt_of_lt_of_le hx hN)
    have hU₁ : unvisited KS st₁ < U :=
      lt_of_le_of_lt (unvisited_mono KS st st₁ hvis₁) hU
    have hcells₁ : ∀ a c, a < N₀ → st₁.mem.lookup a = some c →
        ∀ k', k' ∈ keysInCell c → k' ∈ KS := by
      intro a c ha hc
      rw [hbel₁ a ha] at hc
      exact hcells a c ha hc
    obtain ⟨n₂, st₂, v₂', hrun₂⟩ :=
      hO v st₁ hU₁ hgood.1.2 hrb.1.2
        (closedIn_below N₀ st.mem st₁.mem hbel₁ v hrb.1.2 hcl.1.2)
        (srcOK_frame N₀ st.mem st₁.mem hbel₁ hsrc) (le_trans hN hnx₁)
        ((hkeys (k, v) (List.mem_cons_self _ _)).2) hcells₁
    obtain ⟨⟨hnx₂, hpre₂, _, hvis₂⟩, _⟩ := clone_frame n₂ true st₁ v st₂ v₂' hrun₂
    have hbel₂ : ∀ x, x < N₀ → st₂.mem.lookup x = st.mem.lookup x :=
      fun x hx => (hpre₂ x (lt_of_lt_of_le hx (le_trans hN hnx₁))).trans (hbel₁ x hx)
    have hU₂ : unvisited KS st₂ < U :=
      lt_of_le_of_lt (unvisited_mono KS st₁ st₂ hvis₂) hU₁
    have hcltl := hcl.2
    have hrbtl := hrb.2
    have hcl₂ : (kvs.all fun kv => closedIn st₂.mem kv.1 && closedIn st₂.mem kv.2)
        = true := by
      simp only [List.all_eq_true, Bool.and_eq_true] at hcltl hrbtl ⊢
      intro kv hkv
      exact ⟨closedIn_below N₀ st.mem st₂.mem hbel₂ kv.1 (hrbtl kv hkv).1
          (hcltl kv hkv).1,
        closedIn_below N₀ st.mem st₂.mem hbel₂ kv.2 (hrbtl kv hkv).2 (hcltl kv hkv).2⟩
    have hcells₂ : ∀ a c, a < N₀ → st₂.mem.lookup a = some c →
        ∀ k', k' ∈ keysInCell c → k' ∈ KS := by
      intro a c ha hc
      rw [hbel₂ a ha] at hc
      exact hcells a c ha hc
    obtain ⟨n₃, st₃, kvs₃', hrun₃⟩ :=
      slow_total_pairs N₀ KS U hO kvs st₂ hU₂ hgood.2 hrb.2 hcl₂
        (srcOK_frame N₀ st.mem st₂.mem hbel₂ hsrc) (le_trans (le_trans hN hnx₁) hnx₂)
        (fun kv hkv => hkeys kv (List.mem_cons_of_mem _ hkv)) hcells₂
    refine ⟨max n₁ (max n₂ n₃), st₃, (k₁', v₂') :: kvs₃', ?_⟩
    simp only [clonePairs, Option.bind_eq_bind, Option.bind_eq_some]
    exact ⟨(st₁, k₁'),
      clone_mono n₁ _ (le_max_left _ _) true st k _ hrun₁,
      (st₂, v₂'),
      clone_mono n₂ _ (le_trans (le_max_left _ _) (le_max_right _ _)) true st₁ v _ hrun₂,
      (st₃, kvs₃'),
      clonePairs_mono (clone n₃ true) (clone (max n₁ (max n₂ n₃)) true)
        (fun s w r h => clone_mono n₃ _ (le_trans (le_max_right _ _) (le_max_right _ _))
          true s w r h)
        st₂ kvs _ hrun₃, rfl⟩

mutual
theorem slow_total_value (N₀ : Nat) (KS : Finset VKey) (U : Nat)
    (hO : ∀ (w : Val) (st : St), unvisited KS st < U → good w = true →
      refsBelow N₀ w = true → closedIn st.mem w = true → srcOK N₀ st.mem →
      N₀ ≤ st.next → (∀ k, k ∈ keysIn w → k ∈ KS) →
      (∀ a c, a < N₀ → st.mem.lookup a = some c → ∀ k, k ∈ keysInCell c → k ∈ KS) →
      ∃ n st' w', clone n true st w = some (st', w')) :
    ∀ (v : Val) (st : St), unvisited KS st ≤ U → good v = true →
      refsBelow N₀ v = true → closedIn st.mem v = true → srcOK N₀ st.mem →
      N₀ ≤ st.next → (∀ k, k ∈ keysIn v → k ∈ KS) →
      (∀ a c, a < N₀ → st.mem.lookup a = some c → ∀ k, k ∈ keysInCell c → k ∈ KS) →
      ∃ n st' v', clone n true st v = some (st', v')
  | .scalarV k, st, _, _, _, _, _, _, _, _ => ⟨1, st, .scalarV k, rfl⟩
  | .chanV c, st, _, _, _, _, _, _, _, _ => ⟨1, st, .chanV c, rfl⟩
  | .ptrV e none, st, _, _, _, _, _, _, _, _ => ⟨1, st, .ptrV e none, rfl⟩
  | .sliceV e none, st, _, _, _, _, _, _, _, _ => ⟨1, st, .sliceV e none, rfl⟩
  | .mapV kt vt none, st, _, _, _, _, _, _, _, _ => ⟨1, st, .mapV kt vt none, rfl⟩
  | .structV fts fs, st, hU, hgood, hrb, hcl, hsrc, hN, hkeys, hcells => by
    simp only [good, Bool.and_eq_true] at hgood
    simp only [refsBelow] at hrb
    simp only [closedIn] at hcl
    obtain ⟨n, st', fs', hrun⟩ :=
      slow_total_fields N₀ KS U hO (loadStructType fts).PointerFields 0 fs st hU
        hgood.2 hrb hcl hsrc hN hkeys hcells
    refine ⟨n + 1, st', .structV fts fs', ?_⟩
    rw [clone_eq_struct, hrun]
    simp only [Option.bind_eq_bind, Option.some_bind]
  | .arrayV e es, st, hU, hgood, hrb, hcl, hsrc, hN, hkeys, hcells => by
    simp only [good, Bool.and_eq_true] at hgood
    simp only [refsBelow] at hrb
    simp only [closedIn] at hcl
    by_cases hsc : isScalar e
    · refine ⟨1, st, .arrayV e es, ?_⟩
      rw [clone_eq_array, if_pos hsc]
    · obtain ⟨n, st', es', hrun⟩ :=
        slow_total_elems N₀ KS U hO es st hU hgood.2 hrb hcl hsrc hN hkeys hcells
      refine ⟨n + 1, st', .arrayV e es', ?_⟩
      rw [clone_eq_array, if_neg hsc, hrun]
      simp only [Option.bind_eq_bind, Option.some_bind]
  | .ptrV e (some a), st, hU, hgood, hrb, hcl, hsrc, hN, hkeys, hcells => by
    cases hvl : lookupVis st.vis (VKey.kPtr a (.ptrT e)) with
    | some tv =>
      refine ⟨1, st, tv, ?_⟩
      rw [clone_slow_ptr]
      simp only [hvl]
    | none =>
      simp only [refsBelow, decide_eq_true_eq] at hrb
      simp only [closedIn] at hcl
      cases hl : st.mem.lookup a with
      | none => simp [hl] at hcl
      | some c =>
        cases c with
        | cSeq vs => simp [hl] at hcl
        | cMap kvs => simp [hl] at hcl
        | cPtr w =>
          obtain ⟨hgw, hrbw, hclw⟩ := hsrc a (.cPtr w) hrb hl
          have hk₀KS : VKey.kPtr a (.ptrT e) ∈ KS := hkeys _ (by simp [keysIn])
          have hbel₁ : ∀ x, x < N₀ →
              (setCell st.next (.cPtr (zeroVal e)) st.mem).lookup x
                = st.mem.lookup x :=
            fun x hx => lookup_setCell_ne _ _ _ _ (by omega)
          have hU₁ : unvisited KS
              ⟨setCell st.next (.cPtr (zeroVal e)) st.mem, st.next + 1,
                (VKey.kPtr a (.ptrT e), Val.ptrV e (some st.next)) :: st.vis⟩ < U :=
            lt_of_lt_of_le (unvisited_strict KS st _ _ _ _ hk₀KS hvl) hU
          have hcells₁ : ∀ a' c, a' < N₀ →
              (setCell st.next (.cPtr (zeroVal e)) st.mem).lookup a' = some c →
              ∀ k, k ∈ keysInCell c → k ∈ KS := by
            intro a' c ha' hc
            rw [hbel₁ a' ha'] at hc
            exact hcells a' c ha' hc
          obtain ⟨n₁, st₂, w', hrun₁⟩ :=
            hO w ⟨setCell st.next (.cPtr (zeroVal e)) st.mem, st.next + 1,
                (VKey.kPtr a (.ptrT e), Val.ptrV e (some st.next)) :: st.vis⟩
              hU₁ hgw hrbw
              (closedIn_below N₀ st.mem _ hbel₁ w hrbw hclw)
              (srcOK_frame N₀ st.mem _ hbel₁ hsrc)
              (show N₀ ≤ st.next + 1 by omega)
              (fun k hk => hcells a (.cPtr w) hrb hl k hk)
              hcells₁
          refine ⟨n₁ + 1, ⟨setCell st.next (.cPtr w') st₂.mem, st₂.next, st₂.vis⟩,
            .ptrV e (some st.next), ?_⟩
          rw [clone_slow_ptr]
          simp only [hvl]
          rw [(derefPtr_eq_some st.mem a w).mpr hl]
          simp only [Option.bind_eq_bind, Option.some_bind]
          rw [hrun₁]
          simp only [Option.some_bind]
  | .sliceV e (some (a, len, cap)), st, hU, hgood, hrb, hcl, hsrc, hN, hkeys,
      hcells => by
    cases hvl : lookupVis st.vis (VKey.kSlice a len (.sliceT e)) with
    | some tv =>
      refine ⟨1, st, tv, ?_⟩
      rw [clone_slow_slice]
      simp only [hvl]
    | none =>
      simp only [refsBelow, decide_eq_true_eq] at hrb
      simp only [closedIn] at hcl
      cases hl : st.mem.lookup a with
      | none => simp [hl] at hcl
      | some c =>
        cases c with
        | cPtr w => simp [hl] at hcl
        | cMap kvs => simp [hl] at hcl
        | cSeq vs =>
          rw [hl] at hcl
          simp only [Bool.and_eq_true, decide_eq_true_eq, Bool.or_eq_true,
            Bool.not_eq_true'] at hcl
          obtain ⟨hlen, hscrf⟩ := hcl
          obtain ⟨hgc, hrbc, hclc⟩ := hsrc a (.cSeq vs) hrb hl
          have hk₀KS : VKey.kSlice a len (.sliceT e) ∈ KS := hkeys _ (by simp [keysIn])
          have hbel₁ : ∀ x, x < N₀ →
              (setCell st.next (.cSeq []) st.mem).lookup x = st.mem.lookup x :=
            fun x hx => lookup_setCell_ne _ _ _ _ (by omega)
          by_cases hsc : isScalar e
          · refine ⟨1, ⟨setCell st.next
              (.cSeq (vs.take len ++ List.replicate (cap - len) (zeroVal e)))
              (setCell st.next (.cSeq []) st.mem), st.next + 1,
              (VKey.kSlice a len (.sliceT e),
                Val.sliceV e (some (st.next, len, cap))) :: st.vis⟩,
              .sliceV e (some (st.next, len, cap)), ?_⟩
            rw [clone_slow_slice]
            simp only [hvl]
            rw [(derefSeq_eq_some st.mem a vs).mpr hl]
            simp only [Option.bind_eq_bind, Option.some_bind, if_pos hsc]
          · have hU₁ : unvisited KS
                ⟨setCell st.next (.cSeq []) st.mem, st.next + 1,
                  (VKey.kSlice a len (.sliceT e),
                    Val.sliceV e (some (st.next, len, cap))) :: st.vis⟩ < U :=
              lt_of_lt_of_le (unvisited_strict KS st _ _ _ _ hk₀KS hvl) hU
            have hcells₁ : ∀ a' c, a' < N₀ →
                (setCell st.next (.cSeq []) st.mem).lookup a' = some c →
                ∀ k, k ∈ keysInCell c → k ∈ KS := by
              intro a' c ha' hc
              rw [hbel₁ a' ha'] at hc
              exact hcells a' c ha' hc
            have hgl : (vs.take len).all good = true := by
              simp only [goodCell, List.all_eq_true] at hgc
              simp only [List.all_eq_true]
              exact fun v hv => hgc v (List.mem_of_mem_take hv)
            have hrbl : (vs.take len).all (refsBelow N₀) = true := by
              simp only [refsBelowCell, List.all_eq_true] at hrbc
              simp only [List.all_eq_true]
              exact fun v hv => hrbc v (List.mem_of_mem_take hv)
            have hcll : (vs.take len).all (closedIn
                (setCell st.next (.cSeq []) st.mem)) = true := by
              simp only [closedCell, List.all_eq_true] at hclc
              simp only [List.all_eq_true] at hrbl ⊢
              intro v hv
              exact closedIn_below N₀ st.mem _ hbel₁ v (hrbl v hv)
                (hclc v (List.mem_of_mem_take hv))
            obtain ⟨n₁, st₂, es', hrunL⟩ :=
              slow_total_list N₀ KS U hO (vs.take len)
                ⟨setCell st.next (.cSeq []) st.mem, st.next + 1,
                  (VKey.kSlice a len (.sliceT e),
                    Val.sliceV e (some (st.next, len, cap))) :: st.vis⟩
                hU₁ hgl hrbl hcll
                (srcOK_frame N₀ st.mem _ hbel₁ hsrc)
                (show N₀ ≤ st.next + 1 by omega)
                (fun ww hww k hk => hcells a (.cSeq vs) hrb hl k (by
                  show k ∈ vs.flatMap keysIn
                  simp only [List.mem_flatMap]
                  exact ⟨ww, List.mem_of_mem_take hww, hk⟩))
                hcells₁
            refine ⟨n₁ + 1, ⟨setCell st.next
              (.cSeq (es' ++ List.replicate (cap - len) (zeroVal e))) st₂.mem,
              st₂.next, st₂.vis⟩, .sliceV e (some (st.next, len, cap)), ?_⟩
            rw [clone_slow_slice]
            simp only [hvl]
            rw [(derefSeq_eq_some st.mem a vs).mpr hl]
            simp only [Option.bind_eq_bind, Option.some_bind, if_neg hsc]
            rw [hrunL]
            simp only [Option.some_bind]
  | .mapV kt vt (some a), st, hU, hgood, hrb, hcl, hsrc, hN, hkeys, hcells => by
    cases hvl : lookupVis st.vis (VKey.kMap a (.mapT kt vt)) with
    | some tv =>
      refine ⟨1, st, tv, ?_⟩
      rw [clone_slow_map]
      simp only [hvl]
    | none =>
      simp only [refsBelow, decide_eq_true_eq] at hrb
      simp only [closedIn] at hcl
      cases hl : st.mem.lookup a with
      | none => simp [hl] at hcl
      | some c =>
        cases c with
        | cPtr w => simp [hl] at hcl
        | cSeq vs => simp [hl] at hcl
        | cMap kvs =>
          obtain ⟨hgc, hrbc, hclc⟩ := hsrc a (.cMap kvs) hrb hl
          have hk₀KS : VKey.kMap a (.mapT kt vt) ∈ KS := hkeys _ (by simp [keysIn])
          have hbel₁ : ∀ x, x < N₀ →
              (setCell st.next (.cMap []) st.mem).lookup x = st.mem.lookup x :=
            fun x hx => lookup_setCell_ne _ _ _ _ (by omega)
          have hU₁ : unvisited KS
              ⟨setCell st.next (.cMap []) st.mem, st.next + 1,
                (VKey.kMap a (.mapT kt vt),
                  Val.mapV kt vt (some st.next)) :: st.vis⟩ < U :=
            lt_of_lt_of_le (unvisited_strict KS st _ _ _ _ hk₀KS hvl) hU
          have hcells₁ : ∀ a' c, a' < N₀ →
              (setCell st.next (.cMap []) st.mem).lookup a' = some c →
              ∀ k, k ∈ keysInCell c → k ∈ KS := by
            intro a' c ha' hc
            rw [hbel₁ a' ha'] at hc
            exact hcells a' c ha' hc
          have hcl₁ : (kvs.all fun kv =>
              closedIn (setCell st.next (.cMap []) st.mem) kv.1 &&
              closedIn (setCell st.next (.cMap []) st.mem) kv.2) = true := by
            simp only [closedCell, List.all_eq_true, Bool.and_eq_true] at hclc ⊢
            simp only [refsBelowCell, List.all_eq_true, Bool.and_eq_true] at hrbc
            intro kv hkv
            exact ⟨closedIn_below N₀ st.mem _ hbel₁ kv.1 (hrbc kv hkv).1
                (hclc kv hkv).1,
              closedIn_below N₀ st.mem _ hbel₁ kv.2 (hrbc kv hkv).2 (hclc kv hkv).2⟩
          obtain ⟨n₁, st₂, kvs', hrunP⟩ :=
            slow_total_pairs N₀ KS U hO kvs
              ⟨setCell st.next (.cMap []) st.mem, st.next + 1,
                (VKey.kMap a (.mapT kt vt),
                  Val.mapV kt vt (some st.next)) :: st.vis⟩
              hU₁ (by simpa [goodCell] using hgc) (by simpa [refsBelowCell] using hrbc)
              hcl₁ (srcOK_frame N₀ st.mem _ hbel₁ hsrc)
              (show N₀ ≤ st.next + 1 by omega)
              (fun kv hkv => ⟨fun k' hk' => hcells a (.cMap kvs) hrb hl k' (by
                  show k' ∈ kvs.flatMap fun kv => keysIn kv.1 ++ keysIn kv.2
                  simp only [List.mem_flatMap]
                  exact ⟨kv, hkv, List.mem_append_left _ hk'⟩),
                fun k' hk' => hcells a (.cMap kvs) hrb hl k' (by
                  show k' ∈ kvs.flatMap fun kv => keysIn kv.1 ++ keysIn kv.2
                  simp only [List.mem_flatMap]
                  exact ⟨kv, hkv, List.mem_append_right _ hk'⟩)⟩)
              hcells₁
          refine ⟨n₁ + 1, ⟨setCell st.next (.cMap kvs') st₂.mem, st₂.next, st₂.vis⟩,
            .mapV kt vt (some st.next), ?_⟩
          rw [clone_slow_map]
          simp only [hvl]
          rw [(derefMap_eq_some st.mem a kvs).mpr hl]
          simp only [Option.bind_eq_bind, Option.some_bind]
          rw [hrunP]
          simp only [Option.some_bind]

theorem slow_total_fields (N₀ : Nat) (KS : Finset VKey) (U : Nat)
    (hO : ∀ (w : Val) (st : St), unvisited KS st < U → good w = true →
      refsBelow N₀ w = true → closedIn st.mem w = true → srcOK N₀ st.mem →
      N₀ ≤ st.next → (∀ k, k ∈ keysIn w → k ∈ KS) →
      (∀ a c, a < N₀ → st.mem.lookup a = some c → ∀ k, k ∈ keysInCell c → k ∈ KS) →
      ∃ n st' w', clone n true st w = some (st', w')) :
    ∀ (pf : List Nat) (i : Nat) (fs : Vals) (st : St), unvisited KS st ≤ U →
      goodFields pf i fs = true → refsBelowL N₀ fs = true →
      closedInL st.mem fs = true → srcOK N₀ st.mem → N₀ ≤ st.next →
      (∀ k, k ∈ keysInL fs → k ∈ KS) →
      (∀ a c, a < N₀ → st.mem.lookup a = some c → ∀ k, k ∈ keysInCell c → k ∈ KS) →
      ∃ n st' fs', copyFields (clone n true) pf i st fs = some (st', fs')
  | pf, i, .vnil, st, _, _, _, _, _, _, _, _ => ⟨1, st, .vnil, rfl⟩
  | pf, i, .vcons f fs, st, hU, hgood, hrb, hcl, hsrc, hN, hkeys, hcells => by
    simp only [goodFields, Bool.and_eq_true] at hgood
    simp only [refsBelowL, Bool.and_eq_true] at hrb
    simp only [closedInL, Bool.and_eq_true] at hcl
    have hkeyf : ∀ k, k ∈ keysIn f → k ∈ KS := fun k hk => hkeys k (by
      show k ∈ keysIn f ++ keysInL fs
      exact List.mem_append_left _ hk)
    have hkeyt : ∀ k, k ∈ keysInL fs → k ∈ KS := fun k hk => hkeys k (by
      show k ∈ keysIn f ++ keysInL fs
      exact List.mem_append_right _ hk)
    by_cases hi : i ∈ pf
    · have hgf : good f = true := by
        have := hgood.1
        rwa [if_pos hi] at this
      obtain ⟨n₁, st₁, f', hrun₁⟩ :=
        slow_total_value N₀ KS U hO f st hU hgf hrb.1 hcl.1 hsrc hN hkeyf hcells
      obtain ⟨⟨hnx₁, hpre₁, _, hvis₁⟩, _⟩ := clone_frame n₁ true st f st₁ f' hrun₁
      have hbel₁ : ∀ x, x < N₀ → st₁.mem.lookup x = st.mem.lookup x :=
        fun x hx => hpre₁ x (lt_of_lt_of_le hx hN)
      have hU₁ : unvisited KS st₁ ≤ U :=
        le_trans (unvisited_mono KS st st₁ hvis₁) hU
      have hcells₁ : ∀ a c, a < N₀ → st₁.mem.lookup a = some c →
          ∀ k, k ∈ keysInCell c → k ∈ KS := by
        intro a c ha hc
        rw [hbel₁ a ha] at hc
        exact hcells a c ha hc
      obtain ⟨n₂, st₂, fs₂', hrun₂⟩ :=
        slow_total_fields N₀ KS U hO pf (i+1) fs st₁ hU₁ hgood.2 hrb.2
          (closedInL_below N₀ st.mem st₁.mem hbel₁ fs hrb.2 hcl.2)
          (srcOK_frame N₀ st.mem st₁.mem hbel₁ hsrc) (le_trans hN hnx₁)
          hkeyt hcells₁
      refine ⟨max n₁ n₂, st₂, .vcons f' fs₂', ?_⟩
      simp only [copyFields, if_pos hi, Option.bind_eq_bind, Option.bind_eq_some]
      exact ⟨(st₁, f'), clone_mono n₁ _ (le_max_left _ _) true st f _ hrun₁,
        (st₂, fs₂'),
        copyFields_mono (clone n₂ true) (clone (max n₁ n₂) true)
          (fun s w r h => clone_mono n₂ _ (le_max_right _ _) true s w r h)
          pf (i+1) st₁ fs _ hrun₂, rfl⟩
    · obtain ⟨n₂, st₂, fs₂', hrun₂⟩ :=
        slow_total_fields N₀ KS U hO pf (i+1) fs st hU hgood.2 hrb.2 hcl.2
          hsrc hN hkeyt hcells
      refine ⟨n₂, st₂, .vcons f fs₂', ?_⟩
      simp only [copyFields, if_neg hi, Option.bind_eq_bind, Option.some_bind,
        Option.bind_eq_some]
      exact ⟨(st₂, fs₂'), hrun₂, rfl⟩

theorem slow_total_elems (N₀ : Nat) (KS : Finset VKey) (U : Nat)
    (hO : ∀ (w : Val) (st : St), unvisited KS st < U → good w = true →
      refsBelow N₀ w = true → closedIn st.mem w = true → srcOK N₀ st.mem →
      N₀ ≤ st.next → (∀ k, k ∈ keysIn w → k ∈ KS) →
      (∀ a c, a < N₀ → st.mem.lookup a = some c → ∀ k, k ∈ keysInCell c → k ∈ KS) →
      ∃ n st' w', clone n true st w = some (st', w')) :
    ∀ (es : Vals) (st : St), unvisited KS st ≤ U →
      goodL es = true → refsBelowL N₀ es = true → closedInL st.mem es = true →
      srcOK N₀ st.mem → N₀ ≤ st.next →
      (∀ k, k ∈ keysInL es → k ∈ KS) →
      (∀ a c, a < N₀ → st.mem.lookup a = some c → ∀ k, k ∈ keysInCell c → k ∈ KS) →
      ∃ n st' es', cloneElems (clone n true) st es = some (st', es')
  | .vnil, st, _, _, _, _, _, _, _, _ => ⟨1, st, .vnil, rfl⟩
  | .vcons v vs, st, hU, hgood, hrb, hcl, hsrc, hN, hkeys, hcells => by
    simp only [goodL, Bool.and_eq_true] at hgood
    simp only [refsBelowL, Bool.and_eq_true] at hrb
    simp only [closedInL, Bool.and_eq_true] at hcl
    have hkeyf : ∀ k, k ∈ keysIn v → k ∈ KS := fun k hk => hkeys k (by
      show k ∈ keysIn v ++ keysInL vs
      exact List.mem_append_left _ hk)
    have hkeyt : ∀ k, k ∈ keysInL vs → k ∈ KS := fun k hk => hkeys k (by
      show k ∈ keysIn v ++ keysInL vs
      exact List.mem_append_right _ hk)
    obtain ⟨n₁, st₁, v₁', hrun₁⟩ :=
      slow_total_value N₀ KS U hO v st hU hgood.1 hrb.1 hcl.1 hsrc hN hkeyf hcells
    obtain ⟨⟨hnx₁, hpre₁, _, hvis₁⟩, _⟩ := clone_frame n₁ true st v st₁ v₁' hrun₁
    have hbel₁ : ∀ x, x < N₀ → st₁.mem.lookup x = st.mem.lookup x :=
      fun x hx => hpre₁ x (lt_of_lt_of_le hx hN)
    have hU₁ : unvisited KS st₁ ≤ U :=
      le_trans (unvisited_mono KS st st₁ hvis₁) hU
    have hcells₁ : ∀ a c, a < N₀ → st₁.mem.lookup a = some c →
        ∀ k, k ∈ keysInCell c → k ∈ KS := by
      intro a c ha hc
      rw [hbel₁ a ha] at hc
      exact hcells a c ha hc
    obtain ⟨n₂, st₂, vs₂', hrun₂⟩ :=
      slow_total_elems N₀ KS U hO vs st₁ hU₁ hgood.2 hrb.2
        (closedInL_below N₀ st.mem st₁.mem hbel₁ vs hrb.2 hcl.2)
        (srcOK_frame N₀ st.mem st₁.mem hbel₁ hsrc) (le_trans hN hnx₁) hkeyt hcells₁
    refine ⟨max n₁ n₂, st₂, .vcons v₁' vs₂', ?_⟩
    simp only [cloneElems, Option.bind_eq_bind, Option.bind_eq_some]
    exact ⟨(st₁, v₁'), clone_mono n₁ _ (le_max_left _ _) true st v _ hrun₁,
      (st₂, vs₂'),
      cloneElems_mono (clone n₂ true) (clone (max n₁ n₂) true)
        (fun s w r h => clone_mono n₂ _ (le_max_right _ _) true s w r h)
        st₁ vs _ hrun₂, rfl⟩
end

theorem slow_total_outer (N₀ : Nat) (KS : Finset VKey) :
    ∀ (U : Nat) (v : Val) (st : St), unvisited KS st ≤ U → good v = true →
      refsBelow N₀ v = true → closedIn st.mem v = true → srcOK N₀ st.mem →
      N₀ ≤ st.next → (∀ k, k ∈ keysIn v → k ∈ KS) →
      (∀ a c, a < N₀ → st.mem.lookup a = some c → ∀ k, k ∈ keysInCell c → k ∈ KS) →
      ∃ n st' v', clone n true st v = some (st', v')
  | 0 => slow_total_value N₀ KS 0
      (fun w st h => absurd h (Nat.not_lt_zero _))
  | U+1 => slow_total_value N₀ KS (U+1)
      (fun w st h h1 h2 h3 h4 h5 h6 h7 =>
        slow_total_outer N₀ KS U w st (Nat.lt_succ_iff.mp h) h1 h2 h3 h4 h5 h6 h7)

/-- C3: the slow path terminates on *every* well-formed input, including
values whose heap contains arbitrary pointer cycles: some finite fuel makes
`clone` succeed.  The argument is exactly the source's: for each non-nil
reference the freshly allocated destination is recorded in the visit map
*before* the referent's contents are cloned, so any re-entrant arrival at
the same `(address, type)` key hits the map instead of recursing, and the
number of unvisited keys of the finite key space strictly decreases at
every such allocation. -/
theorem Slowly_terminates
    (N : Nat) (S : Store) (v : Val)
    (hgood : good v = true) (hrb : refsBelow N v = true)
    (hcl : closedIn S v = true) (hsrc : srcOK N S) :
    ∃ n st' v', clone n true ⟨S, N, []⟩ v = some (st', v') := by
  apply slow_total_outer N (keySpace S v).toFinset
    (unvisited (keySpace S v).toFinset ⟨S, N, []⟩)
    v ⟨S, N, []⟩ (le_refl _) hgood hrb hcl hsrc (le_refl N)
  · intro k hk
    refine List.mem_toFinset.mpr ?_
    simp only [keySpace, List.mem_append]
    exact Or.inl hk
  · intro a c ha hc k hk
    exact List.mem_toFinset.mpr (keysInCell_keySpace S v a c hc k hk)

/-! ## Concrete witnesses -/

theorem srcOK_demo : srcOK 1 [(0, Cell.cPtr (Val.scalarV 7))] := by
  intro a c ha hc
  interval_cases a
  simp only [Store.lookup, if_pos rfl] at hc
  cases hc
  exact ⟨rfl, rfl, rfl⟩

theorem hwf_demo : ∀ x, (Store.lookup [(0, Cell.cPtr (Val.scalarV 7))] x).isSome → x < 1 := by
  intro x hx
  by_cases h0 : x = 0
  · omega
  · rw [show Store.lookup [(0, Cell.cPtr (Val.scalarV 7))] x = none from by
      simp [Store.lookup, h0]] at hx
    cases hx

theorem srcOK_demo_seq : srcOK 1 [(0, Cell.cSeq [Val.scalarV 1, Val.scalarV 2])] := by
  intro a c ha hc
  interval_cases a
  simp only [Store.lookup, if_pos rfl] at hc
  cases hc
  exact ⟨rfl, rfl, rfl⟩

theorem hwf_demo_seq : ∀ x,
    (Store.lookup [(0, Cell.cSeq [Val.scalarV 1, Val.scalarV 2])] x).isSome → x < 1 := by
  intro x hx
  by_cases h0 : x = 0
  · omega
  · rw [show Store.lookup [(0, Cell.cSeq [Val.scalarV 1, Val.scalarV 2])] x = none from by
      simp [Store.lookup, h0]] at hx
    cases hx

theorem srcOK_demo_cycle : srcOK 1 [(0, Cell.cPtr (Val.ptrV .scalarT (some 0)))] := by
  intro a c ha hc
  interval_cases a
  simp only [Store.lookup, if_pos rfl] at hc
  cases hc
  exact ⟨rfl, rfl, rfl⟩

theorem Clone_roundtrip_isolation_witness :
    ∃ st' v', clone 2 false ⟨[(0, Cell.cPtr (Val.scalarV 7))], 1, []⟩
        (.ptrV .scalarT (some 0)) = some (st', v') ∧
      deepRead 2 st'.mem v' = some (.dPtr (.dScalar 7)) ∧
      (∀ b c, 1 ≤ b → deepRead 2 (setCell b c st'.mem) (.ptrV .scalarT (some 0))
        = some (.dPtr (.dScalar 7))) ∧
      (∀ a c, a < 1 → deepRead 2 (setCell a c st'.mem) v'
        = some (.dPtr (.dScalar 7))) :=
  Clone_roundtrip_isolation [(0, Cell.cPtr (Val.scalarV 7))] (.ptrV .scalarT (some 0))
    (.dPtr (.dScalar 7)) 2 1 rfl rfl rfl rfl srcOK_demo hwf_demo

theorem Slowly_preserves_aliasing_witness :
    ∃ b, walk (⟨[(1, Cell.cPtr (Val.scalarV 7)), (1, Cell.cPtr (Val.scalarV 0)),
          (0, Cell.cPtr (Val.scalarV 7))], 2,
          [(VKey.kPtr 0 (Ty.ptrT .scalarT), Val.ptrV .scalarT (some 1))]⟩ : St).mem
        (.structV (.tcons (.ptrT .scalarT) (.tcons (.ptrT .scalarT) .tnil))
          (.vcons (.ptrV .scalarT (some 1)) (.vcons (.ptrV .scalarT (some 1)) .vnil)))
        [PStep.pField 0] = some (.ptrV .scalarT (some b)) ∧
      walk (⟨[(1, Cell.cPtr (Val.scalarV 7)), (1, Cell.cPtr (Val.scalarV 0)),
          (0, Cell.cPtr (Val.scalarV 7))], 2,
          [(VKey.kPtr 0 (Ty.ptrT .scalarT), Val.ptrV .scalarT (some 1))]⟩ : St).mem
        (.structV (.tcons (.ptrT .scalarT) (.tcons (.ptrT .scalarT) .tnil))
          (.vcons (.ptrV .scalarT (some 1)) (.vcons (.ptrV .scalarT (some 1)) .vnil)))
        [PStep.pField 1] = some (.ptrV .scalarT (some b)) :=
  Slowly_preserves_aliasing 3 1 [(0, Cell.cPtr (Val.scalarV 7))]
    (.structV (.tcons (.ptrT .scalarT) (.tcons (.ptrT .scalarT) .tnil))
      (.vcons (.ptrV .scalarT (some 0)) (.vcons (.ptrV .scalarT (some 0)) .vnil)))
    ⟨[(1, Cell.cPtr (Val.scalarV 7)), (1, Cell.cPtr (Val.scalarV 0)),
        (0, Cell.cPtr (Val.scalarV 7))], 2,
      [(VKey.kPtr 0 (Ty.ptrT .scalarT), Val.ptrV .scalarT (some 1))]⟩
    (.structV (.tcons (.ptrT .scalarT) (.tcons (.ptrT .scalarT) .tnil))
      (.vcons (.ptrV .scalarT (some 1)) (.vcons (.ptrV .scalarT (some 1)) .vnil)))
    [PStep.pField 0] [PStep.pField 1] .scalarT 0
    rfl rfl rfl rfl srcOK_demo hwf_demo rfl rfl

theorem Slowly_terminates_witness :
    ∃ n st' v', clone n true ⟨[(0, Cell.cPtr (Val.ptrV .scalarT (some 0)))], 1, []⟩
      (.ptrV .scalarT (some 0)) = some (st', v') :=
  Slowly_terminates 1 [(0, Cell.cPtr (Val.ptrV .scalarT (some 0)))]
    (.ptrV .scalarT (some 0)) rfl rfl rfl srcOK_demo_cycle

theorem Slowly_slice_length_discriminates_witness :
    ∃ b₁ c₁ b₂ c₂,
      walk (⟨[(2, Cell.cSeq [Val.scalarV 1, Val.scalarV 2]), (2, Cell.cSeq []),
          (1, Cell.cSeq [Val.scalarV 1, Val.scalarV 0]), (1, Cell.cSeq []),
          (0, Cell.cSeq [Val.scalarV 1, Val.scalarV 2])], 3,
          [(VKey.kSlice 0 2 (Ty.sliceT .scalarT), Val.sliceV .scalarT (some (2, 2, 2))),
           (VKey.kSlice 0 1 (Ty.sliceT .scalarT),
             Val.sliceV .scalarT (some (1, 1, 2)))]⟩ : St).mem
        (.structV (.tcons (.sliceT .scalarT) (.tcons (.sliceT .scalarT) .tnil))
          (.vcons (.sliceV .scalarT (some (1, 1, 2)))
            (.vcons (.sliceV .scalarT (some (2, 2, 2))) .vnil)))
        [PStep.pField 0] = some (.sliceV .scalarT (some (b₁, 1, c₁))) ∧
      walk (⟨[(2, Cell.cSeq [Val.scalarV 1, Val.scalarV 2]), (2, Cell.cSeq []),
          (1, Cell.cSeq [Val.scalarV 1, Val.scalarV 0]), (1, Cell.cSeq []),
          (0, Cell.cSeq [Val.scalarV 1, Val.scalarV 2])], 3,
          [(VKey.kSlice 0 2 (Ty.sliceT .scalarT), Val.sliceV .scalarT (some (2, 2, 2))),
           (VKey.kSlice 0 1 (Ty.sliceT .scalarT),
             Val.sliceV .scalarT (some (1, 1, 2)))]⟩ : St).mem
        (.structV (.tcons (.sliceT .scalarT) (.tcons (.sliceT .scalarT) .tnil))
          (.vcons (.sliceV .scalarT (some (1, 1, 2)))
            (.vcons (.sliceV .scalarT (some (2, 2, 2))) .vnil)))
        [PStep.pField 1] = some (.sliceV .scalarT (some (b₂, 2, c₂))) ∧
      (1 = 2 → b₁ = b₂) ∧ ((1 : Nat) ≠ 2 → b₁ ≠ b₂) :=
  Slowly_slice_length_discriminates 3 1 [(0, Cell.cSeq [Val.scalarV 1, Val.scalarV 2])]
    (.structV (.tcons (.sliceT .scalarT) (.tcons (.sliceT .scalarT) .tnil))
      (.vcons (.sliceV .scalarT (some (0, 1, 2)))
        (.vcons (.sliceV .scalarT (some (0, 2, 2))) .vnil)))
    ⟨[(2, Cell.cSeq [Val.scalarV 1, Val.scalarV 2]), (2, Cell.cSeq []),
        (1, Cell.cSeq [Val.scalarV 1, Val.scalarV 0]), (1, Cell.cSeq []),
        (0, Cell.cSeq [Val.scalarV 1, Val.scalarV 2])], 3,
      [(VKey.kSlice 0 2 (Ty.sliceT .scalarT), Val.sliceV .scalarT (some (2, 2, 2))),
       (VKey.kSlice 0 1 (Ty.sliceT .scalarT), Val.sliceV .scalarT (some (1, 1, 2)))]⟩
    (.structV (.tcons (.sliceT .scalarT) (.tcons (.sliceT .scalarT) .tnil))
      (.vcons (.sliceV .scalarT (some (1, 1, 2)))
        (.vcons (.sliceV .scalarT (some (2, 2, 2))) .vnil)))
    [PStep.pField 0] [PStep.pField 1] .scalarT 0 1 2 2 2
    rfl rfl rfl rfl srcOK_demo_seq hwf_demo_seq rfl rfl

theorem Clone_fast_no_aliasing_witness :
    ∃ b₁ b₂, (Val.structV (.tcons (.ptrT .scalarT) (.tcons (.ptrT .scalarT) .tnil))
        (.vcons (.ptrV .scalarT (some 1)) (.vcons (.ptrV .scalarT (some 2)) .vnil)))
      = .structV (.tcons (.ptrT .scalarT) (.tcons (.ptrT .scalarT) .tnil))
        (.vcons (.ptrV .scalarT (some b₁)) (.vcons (.ptrV .scalarT (some b₂)) .vnil))
      ∧ b₁ ≠ b₂ :=
  Clone_fast_no_aliasing 1 ⟨[(0, Cell.cPtr (Val.scalarV 7))], 1, []⟩ .scalarT 0
    ⟨[(2, Cell.cPtr (Val.scalarV 7)), (2, Cell.cPtr (Val.scalarV 0)),
        (1, Cell.cPtr (Val.scalarV 7)), (1, Cell.cPtr (Val.scalarV 0)),
        (0, Cell.cPtr (Val.scalarV 7))], 3, []⟩
    (.structV (.tcons (.ptrT .scalarT) (.tcons (.ptrT .scalarT) .tnil))
      (.vcons (.ptrV .scalarT (some 1)) (.vcons (.ptrV .scalarT (some 2)) .vnil)))
    rfl

theorem registry_noops_witness :
    MarkAsScalar ⟨[], [], []⟩ .scalarT = ⟨[], [], []⟩ ∧
    MarkAsOpaquePointer ⟨[], [], []⟩ .scalarT = ⟨[], [], []⟩ ∧
    SetCustomFunc ⟨[], [], []⟩ .scalarT (some 5) = ⟨[], [], []⟩ ∧
    assocLookup (SetCustomFunc ⟨[], [], [(Ty.scalarT, 5)]⟩ .scalarT
      none).cachedCustomFuncTypes .scalarT = none :=
  ⟨registry_noops.1 ⟨[], [], []⟩ .scalarT rfl,
   registry_noops.2.1 ⟨[], [], []⟩ .scalarT rfl,
   registry_noops.2.2.1 ⟨[], [], []⟩ .scalarT 5 rfl,
   registry_noops.2.2.2 ⟨[], [], [(Ty.scalarT, 5)]⟩ .scalarT⟩

theorem customFunc_reentrancy_witness :
    cloneWithCustom 3 [Ty.structT .tnil] none (.structV .tnil .vnil) =
      Option.map (Val.structV .tnil)
        (cloneFieldsCustom (cloneWithCustom 1 [Ty.structT .tnil]
          (some (.structV .tnil .vnil))) .vnil) :=
  customFunc_reentrancy.1 1 [Ty.structT .tnil] .tnil .vnil (by simp)

theorem Unwrap_Wrap_identity_witness :
    lookupTable ([] : List (Nat × Val)) 0 = none ∧
    Unwrap ⟨⟨[(1, Cell.cPtr (Val.structV .tnil .vnil)),
        (1, Cell.cPtr (Val.structV .tnil .vnil)),
        (0, Cell.cPtr (Val.structV .tnil .vnil))], 2, []⟩,
      [(1, Val.ptrV (Ty.structT .tnil) (some 0))]⟩
      (.ptrV (.structT .tnil) (some 1)) = .ptrV (.structT .tnil) (some 0) :=
  ⟨rfl, Unwrap_Wrap_identity.1 3
    ⟨⟨[(0, Cell.cPtr (Val.structV .tnil .vnil))], 1, []⟩, []⟩ .tnil 0
    ⟨⟨[(1, Cell.cPtr (Val.structV .tnil .vnil)),
        (1, Cell.cPtr (Val.structV .tnil .vnil)),
        (0, Cell.cPtr (Val.structV .tnil .vnil))], 2, []⟩,
      [(1, Val.ptrV (Ty.structT .tnil) (some 0))]⟩
    (.ptrV (.structT .tnil) (some 1)) rfl rfl⟩
